import Mathlib

/-!
# The LR(0) kernel construction of `grammar.c`

A shallow embedding of `src/grammar.c` (the later of the two implementations in
the repository) and the properties of its item codec, kernel interner and
LR(0) builder.

Conventions of the embedding.

* A C array together with its element count is a `List`; `kernel_count`,
  `production_count` and a kernel's `count` are the lengths of the lists.
* The C type `int` is `Int` for encoded items and dot offsets (signed overflow
  is undefined in C, so no wrap-around is modelled) and `Nat` for the indices
  stored in symbols and productions.  `/` and `%` on `int` are `Int.tdiv` and
  `Int.tmod` (truncation towards zero).
* A pointer that may be `NULL` is an `Option`.
* A function whose C execution can run into undefined behaviour (a `NULL`
  dereference, an array access out of bounds, a division by zero) returns an
  `Option`, `none` standing for the undefined run.  Recursive functions and the
  work-list loop take a `fuel` argument and return `none` when it runs out.
* Allocation is assumed to succeed.
-/

namespace Tpc

/-! ## Data model -/

/-- The symbols of `component.h` (not part of the sources at hand): a
nonterminal or a terminal, each with the dense index of its kind.
`component_t` is a pointer to one of these; `NULL` is `none`. -/
inductive Component where
  | nonterminal (index : Nat)
  | terminal (index : Nat)
deriving DecidableEq, Repr

/-- The productions of `production.h` (not part of the sources at hand): the
production's own index, the index of its left-hand side and its right-hand
side. -/
structure Production where
  index : Nat
  nonterminal_index : Nat
  components : List Component
deriving DecidableEq, Repr

/-- The `struct kernel` of grammar.c.  `pairs` holds the `count` encoded
(production, offset) pairs; `goto_table` is `NULL` until the builder sets it.
The `follows` tables are allocated but never written or read by grammar.c and
are left out. -/
structure Kernel where
  pairs : List Int
  goto_table : Option (List Int)
deriving DecidableEq, Repr

/-- The `struct grammar` of grammar.c.  The `terminals` and `nonterminals`
arrays are only used for printing; their counts are kept.  A table pointer that
is still `NULL` is the empty list (every access to it is out of bounds). -/
structure Grammar where
  productions : List Production
  terminal_count : Nat
  nonterminal_count : Nat
  productions_by_nonterminal : List (Option (List Production))
  generates : List (Option (List Bool))
  kernels : List Kernel
deriving DecidableEq, Repr

/-- The field `production_count`. -/
def Grammar.production_count (self : Grammar) : Nat := self.productions.length

/-- The field `kernel_count`. -/
def Grammar.kernel_count (self : Grammar) : Nat := self.kernels.length

/-! ## Accessors of the missing headers -/

/-- Modelled from the spec: `production_get_component` of production.c, which
is not among the sources.  It yields the symbol at `offset` of the right-hand
side, and `NULL` past its end (grammar.c tests the result against `NULL` to
detect a reducing item). -/
def production_get_component (production : Production) (offset : Int) : Option Component :=
  if offset < 0 then none else production.components[offset.toNat]?

/-- Modelled from the spec: `production_get_index` of production.c. -/
def production_get_index (production : Production) : Nat := production.index

/-- Modelled from the spec: `production_get_nonterminal_index` of production.c. -/
def production_get_nonterminal_index (production : Production) : Nat :=
  production.nonterminal_index

/-- Modelled from the spec: `component_is_nonterminal` of component.c.  It reads
the symbol through the pointer, so `NULL` is an undefined run. -/
def component_is_nonterminal : Option Component → Option Bool
  | none => none
  | some (Component.nonterminal _) => some true
  | some (Component.terminal _) => some false

/-- Modelled from the spec: `component_get_index` of component.c.  It reads the
symbol through the pointer, so `NULL` is an undefined run. -/
def component_get_index : Option Component → Option Nat
  | none => none
  | some (Component.nonterminal index) => some index
  | some (Component.terminal index) => some index

/-! ## Item codec (grammar.c, `encode` and `decode`) -/

/-- `encode`: `production_count * (offset + 1) - index - 1`, as an integer.  It
is the value the C expression takes as long as the product fits an `int`; the
C arithmetic itself, which wraps, is `encode_int`. -/
def encode (self : Grammar) (index offset : Int) : Int :=
  (self.production_count : Int) * (offset + 1) - index - 1

/-- `decode`: the pair `(index_out, return value)`, that is (production index,
offset).  With `production_count = 0` the C code divides by zero. -/
def decode (self : Grammar) (code : Int) : Option (Int × Int) :=
  if self.production_count = 0 then none
  else some ((self.production_count : Int) - code.tmod (self.production_count : Int) - 1,
             code.tdiv (self.production_count : Int))

/-! ## Grammar index -/

/-- One iteration of the loop of `compute_productions_by_nonterminal`: append
`production` to the null-terminated array `table[index]`, creating the array
when the entry is still `NULL`.  `table[index]` with `index` outside the
`nonterminal_count` entries of the table is out of bounds. -/
def productions_by_nonterminal_step (table : List (Option (List Production)))
    (production : Production) : Option (List (Option (List Production))) :=
  let index := production_get_nonterminal_index production
  match table[index]? with
  | none => none
  | some none => some (table.set index (some [production]))
  | some (some array) => some (table.set index (some (array ++ [production])))

/-- `compute_productions_by_nonterminal`: the table mapping each nonterminal
index to the array of its productions. -/
def compute_productions_by_nonterminal (nonterminal_count : Nat)
    (productions : List Production) : Option (List (Option (List Production))) :=
  productions.foldlM productions_by_nonterminal_step (List.replicate nonterminal_count none)

/-- `verify_productions_by_nonterminal`: 0 when no entry of the table is
`NULL`, -1 otherwise. -/
def verify_productions_by_nonterminal (self : Grammar) : Option Int :=
  (List.range self.nonterminal_count).foldlM
    (fun result index =>
      match self.productions_by_nonterminal[index]? with
      | none => none
      | some none => some (-1)
      | some (some _) => some result)
    0

/-- The test `row != NULL && row[i] != 0` on a row of the `generates` table. -/
def generates_cell (row : Option (List Bool)) (i : Nat) : Bool :=
  match row with
  | none => false
  | some cells => cells.getD i false

/-- The cell `generates[generator][generated]` is set to 1, the row being
allocated (all zeros, `nonterminal_count` cells) when it is still `NULL`.  A
cell outside the row is out of bounds. -/
def set_generates (nonterminal_count : Nat) (generates : List (Option (List Bool)))
    (generator generated : Nat) : Option (List (Option (List Bool))) :=
  match generates[generator]? with
  | none => none
  | some row =>
    let cells := row.getD (List.replicate nonterminal_count false)
    if generated < cells.length then
      some (generates.set generator (some (cells.set generated true)))
    else none

/-- `mark_generates`, on the `generates` table of a grammar with
`nonterminal_count` nonterminals.  Both loops read the table as the recursive
calls leave it. -/
def mark_generates : Nat → Nat → List (Option (List Bool)) → Nat → Nat →
    Option (List (Option (List Bool)))
  | 0, _, _, _, _ => none
  | fuel + 1, nonterminal_count, generates, generator, generated =>
    match generates[generator]? with
    | none => none
    | some row =>
      if generates_cell row generated then some generates
      else
        (set_generates nonterminal_count generates generator generated).bind fun marked =>
        ((List.range nonterminal_count).foldlM
          (fun (table : List (Option (List Bool))) (index : Nat) =>
            match table[index]? with
            | none => none
            | some row =>
              if generates_cell row generator then
                mark_generates fuel nonterminal_count table index generated
              else some table)
          marked).bind fun propagated =>
        match propagated[generated]? with
        | none => none
        | some none => some propagated
        | some (some _) =>
          (List.range nonterminal_count).foldlM
            (fun (table : List (Option (List Bool))) (index : Nat) =>
              match table[generated]? with
              | some (some cells) =>
                if cells.getD index false then
                  mark_generates fuel nonterminal_count table generator index
                else some table
              | _ => none)
            propagated

/-- One iteration of the loop of `compute_generates`. -/
def compute_generates_step (fuel nonterminal_count : Nat)
    (generates : List (Option (List Bool))) (production : Production) :
    Option (List (Option (List Bool))) :=
  let nonterminal := production_get_nonterminal_index production
  let component := production_get_component production 0
  (component_is_nonterminal component).bind fun is_nonterminal =>
  if is_nonterminal then
    (component_get_index component).bind fun index =>
    mark_generates fuel nonterminal_count generates nonterminal index
  else some generates

/-- `compute_generates`: a fresh table of `nonterminal_count` `NULL` rows, then
one `mark_generates` for every production whose first symbol is a
nonterminal. -/
def compute_generates (fuel : Nat) (self : Grammar) : Option Grammar :=
  (self.productions.foldlM (compute_generates_step fuel self.nonterminal_count)
    (List.replicate self.nonterminal_count none)).map
    fun generates => { self with generates := generates }

/-! ## Kernels and the interner -/

/-- `kernel_alloc`: a kernel holding `pairs`, without a goto table. -/
def kernel_alloc (pairs : List Int) : Kernel :=
  { pairs := pairs, goto_table := none }

/-- `kernel_matches` where a pointer is as wide as an `int`
(`sizeof(int *) = sizeof(int)`): the counts agree and `memcmp` finds the two
arrays equal.  The C call compares `count * sizeof(int *)` bytes of two `int`
arrays, so that here exactly the `count` elements of each array are compared.
For wider pointers `memcmp` also reads what lies behind the arrays: that is
`kernel_matches_wide`. -/
def kernel_matches (self : Kernel) (pairs : List Int) : Bool :=
  if self.pairs.length ≠ pairs.length then false else decide (self.pairs = pairs)

/-- The search loop of `intern_kernel`: the first index, counted from `index`,
of a kernel that matches `pairs`. -/
def intern_kernel_search (pairs : List Int) : List Kernel → Nat → Option Nat
  | [], _ => none
  | kernel :: rest, index =>
    if kernel_matches kernel pairs then some index
    else intern_kernel_search pairs rest (index + 1)

/-- `intern_kernel`: the grammar after the call and the returned index. -/
def intern_kernel (self : Grammar) (pairs : List Int) : Grammar × Int :=
  if pairs.length = 0 then (self, -1)
  else
    match intern_kernel_search pairs self.kernels 0 with
    | some index => (self, (index : Int))
    | none =>
      ({ self with kernels := self.kernels ++ [kernel_alloc pairs] }, (self.kernel_count : Int))

/-! ## The pairs table -/

/-- The backwards scan of `add_pairs_entry` over `row`, started at `i`: `none`
when `pair` is met (the function bails out), otherwise the position at which
`pair` is to be inserted. -/
def add_pairs_scan (pair : Int) (row : List Int) : Nat → Option Nat
  | 0 => some 0
  | i + 1 =>
    if pair = row.getD i 0 then none
    else if pair < row.getD i 0 then some (i + 1)
    else add_pairs_scan pair row i

/-- The array `table[index]` after `add_pairs_entry`: unchanged when the scan
bails out, otherwise with `pair` inserted at the position found (the tail is
moved up by one to make the hole). -/
def add_pairs_row (row : List Int) (pair : Int) : List Int :=
  match add_pairs_scan pair row row.length with
  | none => row
  | some i => row.take i ++ pair :: row.drop i

/-- `add_pairs_entry`: `counts[index]` and `table[index]` are one list,
`table[index]`.  An `index` outside the table is out of bounds. -/
def add_pairs_entry (table : List (List Int)) (index : Nat) (pair : Int) :
    Option (List (List Int)) :=
  match table[index]? with
  | none => none
  | some row => some (table.set index (add_pairs_row row pair))

/-- `grammar_get_component_count`. -/
def grammar_get_component_count (self : Grammar) : Nat :=
  self.terminal_count + self.nonterminal_count

/-- `component_index`: a nonterminal's index, or `nonterminal_count` plus a
terminal's index. -/
def component_index (self : Grammar) (component : Option Component) : Option Nat :=
  (component_is_nonterminal component).bind fun is_nonterminal =>
  if is_nonterminal then component_get_index component
  else (component_get_index component).map fun index => self.nonterminal_count + index

/-- The body of the inner loop of `compute_pairs_for_kernel_item`: the entry
added for the production `probe`. -/
def add_probe_entry (self : Grammar) (table : List (List Int)) (probe : Production) :
    Option (List (List Int)) :=
  (component_index self (production_get_component probe 0)).bind fun index =>
  add_pairs_entry table index (encode self (production_get_index probe) 1)

/-- `compute_pairs_for_kernel_item`: the contribution of the closure of one
kernel item to the pairs table. -/
def compute_pairs_for_kernel_item (self : Grammar) (production : Production) (offset : Int)
    (table : List (List Int)) : Option (List (List Int)) :=
  match production_get_component production offset with
  | none => some table
  | some (Component.terminal _) => some table
  | some (Component.nonterminal index) =>
    match self.generates[index]? with
    | none => none
    | some generates =>
      (List.range self.nonterminal_count).foldlM
        (fun (table : List (List Int)) (i : Nat) =>
          if index = i ∨ generates_cell generates i = true then
            match self.productions_by_nonterminal[i]? with
            | some (some probes) => probes.foldlM (add_probe_entry self) table
            | _ => none
          else some table)
        table

/-- The production `self -> productions[production_index]`. -/
def production_at (self : Grammar) (production_index : Int) : Option Production :=
  if production_index < 0 then none else self.productions[production_index.toNat]?

/-- The body of the first loop of `compute_pairs`: the entry of one kernel
item. -/
def compute_pairs_shift (self : Grammar) (table : List (List Int)) (code : Int) :
    Option (List (List Int)) :=
  (decode self code).bind fun decoded =>
  (production_at self decoded.1).bind fun production =>
  match production_get_component production decoded.2 with
  | none => some table
  | some component =>
    (component_index self (some component)).bind fun index =>
    add_pairs_entry table index (encode self decoded.1 (decoded.2 + 1))

/-- The body of the second loop of `compute_pairs`: the closure of one kernel
item. -/
def compute_pairs_closure (self : Grammar) (table : List (List Int)) (code : Int) :
    Option (List (List Int)) :=
  (decode self code).bind fun decoded =>
  (production_at self decoded.1).bind fun production =>
  compute_pairs_for_kernel_item self production decoded.2 table

/-- `compute_pairs`: the pairs table of a kernel, from the table `table`. -/
def compute_pairs (self : Grammar) (kernel : Kernel) (table : List (List Int)) :
    Option (List (List Int)) :=
  (kernel.pairs.foldlM (compute_pairs_shift self) table).bind fun shifted =>
  kernel.pairs.foldlM (compute_pairs_closure self) shifted

/-! ## The LR(0) builder -/

/-- The loop of `compute_lr0_kernels` that translates the pairs table into
kernel indices: every row is interned in turn. -/
def intern_pairs_table (self : Grammar) : List (List Int) → Grammar × List Int
  | [] => (self, [])
  | pairs :: rest =>
    let interned := intern_kernel self pairs
    let translated := intern_pairs_table interned.1 rest
    (translated.1, interned.2 :: translated.2)

/-- The body of the work-list loop of `compute_lr0_kernels` for kernel `i`:
the pairs table of the kernel is computed, its rows are interned and the
resulting indices become the goto table of the kernel.  The inner loop resets
every row of the pairs table, so each kernel starts from an empty table. -/
def compute_lr0_kernels_step (self : Grammar) (i : Nat) (kernel : Kernel) : Option Grammar :=
  (compute_pairs self kernel
    (List.replicate (grammar_get_component_count self) [])).map fun pairs_table =>
  let translated := intern_pairs_table self pairs_table
  { translated.1 with
    kernels := translated.1.kernels.set i { kernel with goto_table := some translated.2 } }

/-- The work-list loop of `compute_lr0_kernels`, at kernel `i`: it runs while
`i < kernel_count`. -/
def compute_lr0_kernels_loop : Nat → Grammar → Nat → Option Grammar
  | 0, _, _ => none
  | fuel + 1, self, i =>
    match self.kernels[i]? with
    | none => some self
    | some kernel =>
      (compute_lr0_kernels_step self i kernel).bind fun stepped =>
      compute_lr0_kernels_loop fuel stepped (i + 1)

/-- `compute_lr0_kernels` (its return value is always 0): the start kernel is
interned, then the work-list loop runs from kernel 0. -/
def compute_lr0_kernels (fuel : Nat) (self : Grammar) : Option Grammar :=
  compute_lr0_kernels_loop fuel (intern_kernel self [encode self 0 0]).1 0

/-! ## FIRST sets -/

/-- `mark_firsts_with_table`: the tables `(table, tried)` after the call.
`nonterminal` is the symbol whose productions are walked. -/
def mark_firsts_with_table : Nat → Grammar → Option Component → List Bool × List Bool →
    Option (List Bool × List Bool)
  | 0, _, _, _ => none
  | fuel + 1, self, nonterminal, tables =>
    (component_get_index nonterminal).bind fun index =>
    match self.productions_by_nonterminal[index]? with
    | some (some probes) =>
      probes.foldlM
        (fun (tables : List Bool × List Bool) (probe : Production) =>
          let pi := production_get_index probe
          match tables.2[pi]? with
          | none => none
          | some true => some tables
          | some false =>
            let component := production_get_component probe 0
            (component_is_nonterminal component).bind fun is_nonterminal =>
            if is_nonterminal then
              mark_firsts_with_table fuel self component (tables.1, tables.2.set pi true)
            else
              (component_get_index component).bind fun terminal =>
              if terminal < tables.1.length then
                some (tables.1.set terminal true, tables.2.set pi true)
              else none)
        tables
    | _ => none

/-- `mark_firsts`: the table after the call, the `tried` table being fresh. -/
def mark_firsts (fuel : Nat) (self : Grammar) (nonterminal : Option Component)
    (table : List Bool) : Option (List Bool) :=
  (mark_firsts_with_table fuel self nonterminal
    (table, List.replicate self.production_count false)).map Prod.fst

/-- `compute_propagates`: the FIRST table it prints for every nonterminal.
`self -> nonterminals[index]` is the nonterminal with index `index`. -/
def compute_propagates (fuel : Nat) (self : Grammar) : Option (List (List Bool)) :=
  (List.range self.nonterminal_count).mapM fun index =>
    mark_firsts fuel self (some (Component.nonterminal index))
      (List.replicate self.terminal_count false)

/-! ## Construction -/

/-- `grammar_alloc`: `some none` is the `NULL` result, `some (some g)` the
grammar returned, `none` an undefined run or a lack of fuel. -/
def grammar_alloc (fuel : Nat) (productions : List Production)
    (terminal_count nonterminal_count : Nat) : Option (Option Grammar) :=
  (compute_productions_by_nonterminal nonterminal_count productions).bind fun table =>
  let self : Grammar :=
    { productions := productions
      terminal_count := terminal_count
      nonterminal_count := nonterminal_count
      productions_by_nonterminal := table
      generates := []
      kernels := [] }
  (verify_productions_by_nonterminal self).bind fun verified =>
  if verified < 0 then some none
  else
    (compute_generates fuel self).bind fun generated =>
    (compute_lr0_kernels fuel generated).bind fun built =>
    (compute_propagates fuel built).bind fun _ =>
    some (some built)

/-! ## Scenario grammars of the specification -/

/-- Scenario C: (0) S' -> E, (1) E -> E + T, (2) E -> T, (3) T -> id, with
nonterminals S' = 0, E = 1, T = 2 and terminals + = 0, id = 1. -/
def scenario_c : List Production :=
  [ { index := 0, nonterminal_index := 0, components := [Component.nonterminal 1] },
    { index := 1, nonterminal_index := 1,
      components := [Component.nonterminal 1, Component.terminal 0, Component.nonterminal 2] },
    { index := 2, nonterminal_index := 1, components := [Component.nonterminal 2] },
    { index := 3, nonterminal_index := 2, components := [Component.terminal 1] } ]

/-- The grammar that `grammar_alloc` returns for scenario C. -/
def scenario_c_built : Grammar :=
  { productions := scenario_c
    terminal_count := 2
    nonterminal_count := 3
    productions_by_nonterminal :=
      [ some [{ index := 0, nonterminal_index := 0, components := [Component.nonterminal 1] }],
        some [{ index := 1, nonterminal_index := 1,
                components :=
                  [Component.nonterminal 1, Component.terminal 0, Component.nonterminal 2] },
              { index := 2, nonterminal_index := 1, components := [Component.nonterminal 2] }],
        some [{ index := 3, nonterminal_index := 2, components := [Component.terminal 1] }] ]
    generates := [some [false, true, true], some [false, true, true], none]
    kernels :=
      [ { pairs := [3], goto_table := some [-1, 1, 2, -1, 3] },
        { pairs := [7, 6], goto_table := some [-1, -1, -1, 4, -1] },
        { pairs := [5], goto_table := some [-1, -1, -1, -1, -1] },
        { pairs := [4], goto_table := some [-1, -1, -1, -1, -1] },
        { pairs := [10], goto_table := some [-1, -1, 5, -1, 3] },
        { pairs := [14], goto_table := some [-1, -1, -1, -1, -1] } ] }

/-- The grammar of scenario C as `grammar_alloc` hands it to
`compute_lr0_kernels`: tables computed, no kernel yet. -/
def scenario_c_indexed : Grammar := { scenario_c_built with kernels := [] }

/-! ## Valid grammars -/

/-- A symbol index is in range: a nonterminal below `nonterminal_count`, a
terminal below `terminal_count`. -/
def component_in_range (terminal_count nonterminal_count : Nat) : Component → Prop
  | Component.nonterminal index => index < nonterminal_count
  | Component.terminal index => index < terminal_count

/-- Whether a symbol index is in range can be computed. -/
instance component_in_range_decidable (terminal_count nonterminal_count : Nat)
    (X : Component) : Decidable (component_in_range terminal_count nonterminal_count X) :=
  match X with
  | Component.nonterminal index => inferInstanceAs (Decidable (index < nonterminal_count))
  | Component.terminal index => inferInstanceAs (Decidable (index < terminal_count))

/-- A valid grammar: production 0 is present, every production carries its
position as index, every symbol index is in range, and every nonterminal has a
production. -/
def valid_grammar (productions : List Production) (terminal_count nonterminal_count : Nat) :
    Prop :=
  1 ≤ productions.length ∧
  productions.map Production.index = List.range productions.length ∧
  (∀ q, q ∈ productions → q.nonterminal_index < nonterminal_count ∧
    ∀ X, X ∈ q.components → component_in_range terminal_count nonterminal_count X) ∧
  (∀ i, i < nonterminal_count → ∃ q, q ∈ productions ∧ q.nonterminal_index = i)

/-- The encoded item `code` stands for a valid item: production `p` of the
grammar with the dot at an offset `k` of at most the length of its right-hand
side. -/
def item_valid (self : Grammar) (code : Int) : Prop :=
  ∃ p k : Nat, code = encode self (p : Int) (k : Int) ∧
    ∃ production, self.productions[p]? = some production ∧ k ≤ production.components.length

/-! ## The relation held by the `generates` table -/

/-- The relation of the `generates` table: `generates[a] != NULL` and
`generates[a][b] != 0`. -/
def generates_rel (generates : List (Option (List Bool))) (a b : Nat) : Prop :=
  ∃ row, generates[a]? = some row ∧ generates_cell row b = true

/-- The shape of the `generates` table: `nonterminal_count` rows, each `NULL`
or of `nonterminal_count` cells. -/
def generates_shape (nonterminal_count : Nat) (generates : List (Option (List Bool))) : Prop :=
  generates.length = nonterminal_count ∧
  ∀ (a : Nat) (cells : List Bool), generates[a]? = some (some cells) →
    cells.length = nonterminal_count

/-- The leftmost relation of a grammar: some production of the nonterminal `a`
has the nonterminal `b` as its first symbol. -/
def leftmost (productions : List Production) (a b : Nat) : Prop :=
  ∃ q, q ∈ productions ∧ q.nonterminal_index = a ∧
    q.components[0]? = some (Component.nonterminal b)

/-- What a run of calls of `mark_generates` does to the table: the shape is
kept, no cell is cleared, and two cells (i, j), (j, k) of which at least one is
new are followed by the cell (i, k). -/
def generates_extends (nonterminal_count : Nat) (before after : List (Option (List Bool))) :
    Prop :=
  generates_shape nonterminal_count after ∧
  (∀ x y, generates_rel before x y → generates_rel after x y) ∧
  ∀ i j k, generates_rel after i j → generates_rel after j k →
    (¬ generates_rel before i j ∨ ¬ generates_rel before j k) → generates_rel after i k

/-- Every cell of `after` lies in each transitive relation that holds the cells
of `before` and the cell (a, b). -/
def generates_sound (before after : List (Option (List Bool))) (a b : Nat) : Prop :=
  ∀ S : Nat → Nat → Prop, (∀ x y z, S x y → S y z → S x z) →
    (∀ x y, generates_rel before x y → S x y) → S a b →
    ∀ x y, generates_rel after x y → S x y

/-! ## The entries of a pairs table -/

/-- The entries that `compute_pairs` adds to row `index` of the pairs table of
`kernel`, read off its two loops: the shift of a kernel item over its next
symbol, or the first symbol of a production `probe` of a nonterminal `i` that
is, or is generated by, the nonterminal `B` next in a kernel item. -/
def pairs_entry (self : Grammar) (kernel : Kernel) (index : Nat) (pair : Int) : Prop :=
  ∃ code decoded production, code ∈ kernel.pairs ∧ decode self code = some decoded ∧
    production_at self decoded.1 = some production ∧
    ((∃ component, production_get_component production decoded.2 = some component ∧
        component_index self (some component) = some index ∧
        pair = encode self decoded.1 (decoded.2 + 1)) ∨
     (∃ B generates i probes probe,
        production_get_component production decoded.2 = some (Component.nonterminal B) ∧
        self.generates[B]? = some generates ∧ i < self.nonterminal_count ∧
        (B = i ∨ generates_cell generates i = true) ∧
        self.productions_by_nonterminal[i]? = some (some probes) ∧ probe ∈ probes ∧
        component_index self (production_get_component probe 0) = some index ∧
        pair = encode self (production_get_index probe) 1))

/-- Row `index` of the pairs table holds `pair`. -/
def table_has (table : List (List Int)) (index : Nat) (pair : Int) : Prop :=
  ∃ row, table[index]? = some row ∧ pair ∈ row

/-! ## The LR(0) closure and goto of the specification -/

/-- The LR(0) closure of the encoded items `items`, in the words of the
specification: the least set of items (p, k) that contains the items decoded
from `items` and contains (q, 0) for every production q of B whenever it
contains an item whose symbol after the dot is the nonterminal B. -/
inductive lr0_closure (self : Grammar) (items : List Int) : Nat → Nat → Prop
  | kernel (code : Int) (p k : Nat) :
      code ∈ items → decode self code = some ((p : Int), (k : Int)) →
      lr0_closure self items p k
  | step (p k B q : Nat) (production probe : Production) :
      lr0_closure self items p k →
      self.productions[p]? = some production →
      production.components[k]? = some (Component.nonterminal B) →
      self.productions[q]? = some probe → probe.nonterminal_index = B →
      lr0_closure self items q 0

/-- The shift of the closure of `items` over the symbol with component index
`c`, in the words of the specification: the encoded items `encode p (k + 1)`
for the items (p, k) of the closure whose symbol after the dot, `rhs(p)[k]`,
has component index `c`. -/
def goto_items (self : Grammar) (items : List Int) (c : Nat) (x : Int) : Prop :=
  ∃ (p k : Nat) (production : Production) (X : Component),
    lr0_closure self items p k ∧ self.productions[p]? = some production ∧
    production.components[k]? = some X ∧ component_index self (some X) = some c ∧
    x = encode self (p : Int) ((k : Int) + 1)

/-- The kernels with an index below `n` have their goto table: one entry for
every component index `c`, which is -1 when the pairs table of the kernel has
no entry for `c`, and otherwise the index of the kernel holding exactly the
entries for `c`. -/
def goto_processed (self : Grammar) (ks : List Kernel) (n : Nat) : Prop :=
  ∀ (j : Nat) (K : Kernel), j < n → ks[j]? = some K →
    ∃ gt, K.goto_table = some gt ∧ gt.length = grammar_get_component_count self ∧
      ∀ c, c < grammar_get_component_count self →
        (gt[c]? = some (-1) ∧ ∀ x, ¬ pairs_entry self K c x) ∨
        (∃ (r : Nat) (row : List Int), gt[c]? = some (r : Int) ∧
          (ks.map Kernel.pairs)[r]? = some row ∧ row ≠ [] ∧
          ∀ x, x ∈ row ↔ pairs_entry self K c x)

/-- The grammar of scenario C as `grammar_alloc` hands it to
`compute_generates`: productions grouped, no `generates` table yet. -/
def scenario_c_grouped : Grammar := { scenario_c_indexed with generates := [] }

/-- Whether a cell of the `generates` table is set can be computed. -/
instance generates_rel_decidable (generates : List (Option (List Bool))) (a b : Nat) :
    Decidable (generates_rel generates a b) :=
  match h : generates[a]? with
  | none => isFalse (fun ⟨_, hrow, _⟩ => Option.noConfusion (h.symm.trans hrow))
  | some row =>
    if hc : generates_cell row b = true then isTrue ⟨row, h, hc⟩
    else isFalse (fun ⟨r, hr, hcell⟩ => hc (by
      have : row = r := Option.some.inj (h.symm.trans hr)
      rw [this]
      exact hcell))

/-- The number of cells of the `nonterminal_count` x `nonterminal_count` matrix
`generates` that are still zero. -/
def generates_zeros (nonterminal_count : Nat) (generates : List (Option (List Bool))) : Nat :=
  ((Finset.range nonterminal_count ×ˢ Finset.range nonterminal_count).filter
    (fun xy => ¬ generates_rel generates xy.1 xy.2)).card

/-- The grammar index is built: the grammar is valid and its
productions-by-nonterminal table is the one `compute_productions_by_nonterminal`
computes from its productions. -/
def grammar_indexed (self : Grammar) : Prop :=
  valid_grammar self.productions self.terminal_count self.nonterminal_count ∧
  compute_productions_by_nonterminal self.nonterminal_count self.productions
    = some self.productions_by_nonterminal

/-- The terminals that FIRST(A) holds, in the words of the claim: there is a
chain of nonterminals A = B0, B1, ..., Bn (n >= 0), each B(i+1) the leftmost
symbol of some production of Bi, and a production of Bn whose leftmost symbol is
the terminal t. -/
def first_terminal (productions : List Production) (A t : Nat) : Prop :=
  ∃ B q, Relation.ReflTransGen (leftmost productions) A B ∧ q ∈ productions ∧
    q.nonterminal_index = B ∧ q.components[0]? = some (Component.terminal t)

/-- The production `q` has been dealt with in the tables `(table, tried)`: its
leftmost terminal is in the table, or all productions of its leftmost
nonterminal are tried. -/
def firsts_handled (self : Grammar) (tables : List Bool × List Bool) (q : Production) : Prop :=
  (∀ t, q.components[0]? = some (Component.terminal t) → tables.1[t]? = some true) ∧
  (∀ C, q.components[0]? = some (Component.nonterminal C) →
    ∀ p, p ∈ self.productions → p.nonterminal_index = C → tables.2[p.index]? = some true)

/-- What the productions tried so far by a call of `mark_firsts_with_table` on the
nonterminal `A` have done to the tables: nothing is cleared, the table keeps its
size, a terminal is only added when it is a first terminal of `A`, and every
production tried since the start has been dealt with. -/
def firsts_progress (self : Grammar) (A : Nat) (before after : List Bool × List Bool) : Prop :=
  (∀ t : Nat, before.1[t]? = some true → after.1[t]? = some true) ∧
  (∀ i : Nat, before.2[i]? = some true → after.2[i]? = some true) ∧
  (∀ t : Nat, after.1[t]? = some true →
    before.1[t]? = some true ∨ first_terminal self.productions A t) ∧
  after.1.length = before.1.length ∧
  (∀ q, q ∈ self.productions → after.2[q.index]? = some true →
    before.2[q.index]? ≠ some true → firsts_handled self after q)

/-- What a call of `mark_firsts_with_table` on the nonterminal `A` does to the
tables: `firsts_progress`, and all productions of `A` are tried afterwards. -/
def firsts_post (self : Grammar) (A : Nat) (before after : List Bool × List Bool) : Prop :=
  firsts_progress self A before after ∧
  (∀ q, q ∈ self.productions → q.nonterminal_index = A → after.2[q.index]? = some true)

/-- Scenario D: (0) S' -> A, (1) A -> (empty), (2) A -> a, with nonterminals
S' = 0, A = 1 and the terminal a = 0. -/
def scenario_d : List Production :=
  [ { index := 0, nonterminal_index := 0, components := [Component.nonterminal 1] },
    { index := 1, nonterminal_index := 1, components := [] },
    { index := 2, nonterminal_index := 1, components := [Component.terminal 0] } ]

/-- The grammar of scenario D with its tables, as `compute_lr0_kernels` would
find it at kernel 0 = {encode 0 0} had the earlier stages passed over the empty
production: the productions grouped, S' generating A, the start kernel
interned. -/
def scenario_d_indexed : Grammar :=
  { productions := scenario_d
    terminal_count := 1
    nonterminal_count := 2
    productions_by_nonterminal :=
      [ some [{ index := 0, nonterminal_index := 0, components := [Component.nonterminal 1] }],
        some [{ index := 1, nonterminal_index := 1, components := [] },
              { index := 2, nonterminal_index := 1, components := [Component.terminal 0] }] ]
    generates := [some [false, true], none]
    kernels := [{ pairs := [2], goto_table := none }] }

/-- The encoded valid items of a grammar: `encode p k` for every production p
and every offset 0 <= k <= |rhs(p)|. -/
def valid_items (self : Grammar) : List Int :=
  self.productions.flatMap fun (q : Production) =>
    (List.range (q.components.length + 1)).map
      fun (k : Nat) => encode self (q.index : Int) (k : Int)

/-- The number of valid items (p, k), 0 <= k <= |rhs(p)|, of a grammar. -/
def item_count (self : Grammar) : Nat :=
  (self.productions.map fun q => q.components.length + 1).sum

/-- The kernels are sound as sets of items: every item is valid, every item
array is strictly descending and not empty, and no two kernels hold the same
array. -/
def kernels_sound (self : Grammar) (ks : List Kernel) : Prop :=
  (∀ K, K ∈ ks → ∀ c, c ∈ K.pairs → item_valid self c) ∧
  (∀ K, K ∈ ks → K.pairs.Pairwise (fun a b => b < a)) ∧
  (∀ K, K ∈ ks → K.pairs ≠ []) ∧
  (ks.map Kernel.pairs).Nodup

/-! ## The item codec in `int` arithmetic -/

/-- The value that a C expression of type `int` takes when its mathematical
value is `x`: 32-bit two's complement, that is `x` wrapped modulo 2 ^ 32 into
the range from -2 ^ 31 to 2 ^ 31 - 1. -/
def int_wrap (x : Int) : Int := (x + 2147483648) % 4294967296 - 2147483648

/-- `encode` of grammar.c (lines 299-303) in the `int` arithmetic of C:
`production_count * (offset + 1) - index - 1`, every operation wrapped.  It is
`encode` as long as the product fits an `int`. -/
def encode_int (self : Grammar) (index offset : Int) : Int :=
  int_wrap (int_wrap (int_wrap ((self.production_count : Int) * int_wrap (offset + 1))
    - index) - 1)

/-- `decode` of grammar.c (lines 305-310) in the `int` arithmetic of C: the
pair `(index_out, return value)`, with the truncating `/` and `%` of C.  With
`production_count = 0` the C code divides by zero. -/
def decode_int (self : Grammar) (code : Int) : Option (Int × Int) :=
  if self.production_count = 0 then none
  else some
    (int_wrap (int_wrap ((self.production_count : Int)
        - code.tmod (self.production_count : Int)) - 1),
     int_wrap (code.tdiv (self.production_count : Int)))

/-! ## The older codec (Grammar.c, `Grammar_encode` and `Grammar_decode`) -/

/-- Modelled from the spec: `Production_getIndex` of Production.c, which is not
among the sources: the index of the production in the grammar. -/
def Production_getIndex (production : Production) : Nat := production.index

/-- `Grammar_encode` of Grammar.c (line 271), in the `int` arithmetic of C:
`(index + 1) - count * (offset + 1)`, every operation wrapped.  Of the older
`struct Grammar_t` the codec reads `production_count` and `productions` only,
which are read here from the record of grammar.c. -/
def Grammar_encode (self : Grammar) (production : Production) (offset : Int) : Int :=
  int_wrap (int_wrap ((Production_getIndex production : Int) + 1)
    - int_wrap ((self.production_count : Int) * int_wrap (offset + 1)))

/-- `Grammar_decode` of Grammar.c (lines 275-280), in the `int` arithmetic of
C: the pair `(*production_return, return value)`, that is
`productions[count + number % count - 1]` and `- (number / count)`, with the
truncating division and remainder of C.  With `production_count = 0` the C code
divides by zero, and a production outside the array is out of bounds. -/
def Grammar_decode (self : Grammar) (number : Int) : Option (Production × Int) :=
  if self.production_count = 0 then none
  else
    let index := int_wrap (int_wrap ((self.production_count : Int)
      + number.tmod (self.production_count : Int)) - 1)
    if index < 0 then none
    else
      match self.productions[index.toNat]? with
      | none => none
      | some production =>
        some (production, int_wrap (- (number.tdiv (self.production_count : Int))))

/-! ## The start production -/

/-- Production 0 is of the augmented form S' -> S, in the words of the
specification: it is present, its right-hand side is one nonterminal, and it is
the only production of its left-hand side. -/
def augmented_start (productions : List Production) : Prop :=
  ∃ q S, productions[0]? = some q ∧ q.components = [Component.nonterminal S] ∧
    ∀ q2, q2 ∈ productions → q2.nonterminal_index = q.nonterminal_index → q2 = q

/-- A grammar without augmented start production: (0) S -> a, with the
nonterminal S and the terminal a. -/
def scenario_bare : List Production :=
  [ { index := 0, nonterminal_index := 0, components := [Component.terminal 0] } ]

/-- The grammar that `grammar_alloc` returns for `scenario_bare`: two kernels,
{(0, 0)} and {(0, 1)}, the first going to the second on the terminal a. -/
def scenario_bare_built : Grammar :=
  { productions := scenario_bare
    terminal_count := 1
    nonterminal_count := 1
    productions_by_nonterminal := [some scenario_bare]
    generates := [none]
    kernels :=
      [ { pairs := [0], goto_table := some [-1, 1] },
        { pairs := [1], goto_table := some [-1, -1] } ] }

/-! ## Goto edges -/

/-- There is a goto edge from kernel `i` to kernel `j`:
`kernels[i].goto_table[c] = j` for some component index `c`. -/
def goto_edge (self : Grammar) (i j : Nat) : Prop :=
  ∃ (c : Nat) (K : Kernel) (gt : List Int),
    self.kernels[i]? = some K ∧ K.goto_table = some gt ∧ gt[c]? = some (j : Int)

/-! ## The interner where a pointer is wider than an `int` -/

/-- The first `n` ints of the memory that lies behind an array: `after` lists
them, and where the list ends the memory holds zeros. -/
def memory_words (n : Nat) (after : List Int) : List Int :=
  (List.range n).map fun j => after.getD j 0

/-- `kernel_matches` as line 112 of grammar.c runs where `sizeof(int *)` is
`width` times `sizeof(int)` (1 on ILP32, 2 on LP64): the counts agree and
`memcmp` finds `count * sizeof(int *)` bytes, that is `count * width` ints,
equal at the two pointers.  The first `count` ints are the arrays themselves;
the other `count * (width - 1)` lie behind the arrays, outside of them, and are
what `after_self` and `after_pairs` stand for.  With `width = 1` this is
`kernel_matches`. -/
def kernel_matches_wide (width : Nat) (self : Kernel) (after_self : List Int)
    (pairs after_pairs : List Int) : Bool :=
  if self.pairs.length ≠ pairs.length then false
  else
    decide (self.pairs = pairs) &&
    decide (memory_words (pairs.length * (width - 1)) after_self
      = memory_words (pairs.length * (width - 1)) after_pairs)

/-- The search loop of `intern_kernel` with `kernel_matches_wide`.  Every kernel
of the table comes with the ints that lie behind its array. -/
def intern_kernel_search_wide (width : Nat) (pairs after_pairs : List Int) :
    List (Kernel × List Int) → Nat → Option Nat
  | [], _ => none
  | kernel :: rest, index =>
    if kernel_matches_wide width kernel.1 kernel.2 pairs after_pairs then some index
    else intern_kernel_search_wide width pairs after_pairs rest (index + 1)

/-- `intern_kernel` with `kernel_matches_wide`: the kernel table after the call
and the returned index.  A new kernel keeps the pointer `pairs`, so the ints
behind its array are those behind `pairs`. -/
def intern_kernel_wide (width : Nat) (kernels : List (Kernel × List Int))
    (pairs after_pairs : List Int) : List (Kernel × List Int) × Int :=
  if pairs.length = 0 then (kernels, -1)
  else
    match intern_kernel_search_wide width pairs after_pairs kernels 0 with
    | some index => (kernels, (index : Int))
    | none => (kernels ++ [(kernel_alloc pairs, after_pairs)], (kernels.length : Int))

/-- The loop of `compute_lr0_kernels` that translates the pairs table into
kernel indices, with `intern_kernel_wide`: every row comes with the ints that
lie behind it. -/
def intern_pairs_table_wide (width : Nat) (kernels : List (Kernel × List Int)) :
    List (List Int × List Int) → List (Kernel × List Int) × List Int
  | [] => (kernels, [])
  | row :: rest =>
    let interned := intern_kernel_wide width kernels row.1 row.2
    let translated := intern_pairs_table_wide width interned.1 rest
    (translated.1, interned.2 :: translated.2)

/-- The body of the work-list loop of `compute_lr0_kernels` for kernel `i`,
with `intern_kernel_wide`.  `after_row c` lists the ints behind row `c` of the
pairs table. -/
def compute_lr0_kernels_step_wide (width : Nat) (after_row : Nat → List Int) (self : Grammar)
    (kernels : List (Kernel × List Int)) (i : Nat) (kernel : Kernel × List Int) :
    Option (List (Kernel × List Int)) :=
  (compute_pairs self kernel.1
    (List.replicate (grammar_get_component_count self) [])).map fun pairs_table =>
  let translated := intern_pairs_table_wide width kernels
    (pairs_table.enum.map fun (row : Nat × List Int) => (row.2, after_row row.1))
  translated.1.set i ({ kernel.1 with goto_table := some translated.2 }, kernel.2)

/-- The work-list loop of `compute_lr0_kernels` with `intern_kernel_wide`, at
kernel `i`.  `after_row i c` lists the ints behind row `c` of the pairs table
built for kernel `i`. -/
def compute_lr0_kernels_loop_wide (width : Nat) (after_row : Nat → Nat → List Int)
    (self : Grammar) : Nat → List (Kernel × List Int) → Nat →
    Option (List (Kernel × List Int))
  | 0, _, _ => none
  | fuel + 1, kernels, i =>
    match kernels[i]? with
    | none => some kernels
    | some kernel =>
      (compute_lr0_kernels_step_wide width (after_row i) self kernels i kernel).bind
        fun stepped => compute_lr0_kernels_loop_wide width after_row self fuel stepped (i + 1)

/-- `compute_lr0_kernels` with `intern_kernel_wide`, on a grammar without
kernels (as `grammar_alloc` calls it): the kernel table it builds.
`after_start` lists the ints behind the array of the start kernel. -/
def compute_lr0_kernels_wide (width : Nat) (after_start : List Int)
    (after_row : Nat → Nat → List Int) (fuel : Nat) (self : Grammar) :
    Option (List (Kernel × List Int)) :=
  compute_lr0_kernels_loop_wide width after_row self fuel
    (intern_kernel_wide width [] [encode self 0 0] after_start).1 0

/-! ## Scenario grammars for the interner -/

/-- The expression grammar: (0) S' -> E, (1) E -> E + T, (2) E -> T,
(3) T -> T * F, (4) T -> F, (5) F -> id, with the nonterminals S', E, T, F and
the terminals +, *, id. -/
def scenario_e : List Production :=
  [ { index := 0, nonterminal_index := 0, components := [Component.nonterminal 1] },
    { index := 1, nonterminal_index := 1,
      components := [Component.nonterminal 1, Component.terminal 0, Component.nonterminal 2] },
    { index := 2, nonterminal_index := 1, components := [Component.nonterminal 2] },
    { index := 3, nonterminal_index := 2,
      components := [Component.nonterminal 2, Component.terminal 1, Component.nonterminal 3] },
    { index := 4, nonterminal_index := 2, components := [Component.nonterminal 3] },
    { index := 5, nonterminal_index := 3, components := [Component.terminal 2] } ]

/-- The expression grammar with its tables, as `grammar_alloc` hands it to
`compute_lr0_kernels`. -/
def scenario_e_indexed : Grammar :=
  { productions := scenario_e
    terminal_count := 3
    nonterminal_count := 4
    productions_by_nonterminal :=
      [ some [{ index := 0, nonterminal_index := 0, components := [Component.nonterminal 1] }],
        some [{ index := 1, nonterminal_index := 1,
                components := [Component.nonterminal 1, Component.terminal 0,
                  Component.nonterminal 2] },
              { index := 2, nonterminal_index := 1, components := [Component.nonterminal 2] }],
        some [{ index := 3, nonterminal_index := 2,
                components := [Component.nonterminal 2, Component.terminal 1,
                  Component.nonterminal 3] },
              { index := 4, nonterminal_index := 2, components := [Component.nonterminal 3] }],
        some [{ index := 5, nonterminal_index := 3, components := [Component.terminal 2] }] ]
    generates :=
      [ some [false, true, true, true], some [false, true, true, true],
        some [false, false, true, true], none ]
    kernels := [] }

/-- The ints behind the rows of the pairs tables in a run on the expression
grammar: zeros, but a 1 behind the row of `id` (component index 6) built for
kernel 6. -/
def scenario_e_after (i c : Nat) : List Int :=
  if i = 6 ∧ c = 6 then [1] else [0]

/-- Quotient and remainder, truncated as in C, of an encoded item. -/
theorem tdiv_tmod_encode_aux (P p k : Int) (hp0 : 0 ≤ p) (hp : p < P) (hk : 0 ≤ k) :
    (P * (k + 1) - p - 1).tdiv P = k ∧ (P * (k + 1) - p - 1).tmod P = P - 1 - p := by
  have h0 : 0 ≤ P * (k + 1) - p - 1 := by nlinarith
  have hP0 : 0 ≤ P := by omega
  rw [Int.tdiv_eq_ediv h0 hP0, Int.tmod_eq_emod h0 hP0]
  have e : P * (k + 1) - p - 1 = (P - 1 - p) + P * k := by ring
  rw [e, Int.add_mul_ediv_left _ _ (by omega : P ≠ 0), Int.add_mul_emod_self_left]
  rw [Int.ediv_eq_zero_of_lt (by omega) (by omega), Int.emod_eq_of_lt (by omega) (by omega)]
  omega

/-- On the integers, where nothing wraps: for every production count P >= 1,
production index p in [0, P) and dot offset k >= 0, `decode (encode p k)` is
the production index p and the offset k. -/
theorem decode_encode_exact (self : Grammar) (p k : Int) (hP : 1 ≤ self.production_count)
    (hp0 : 0 ≤ p) (hp : p < (self.production_count : Int)) (hk : 0 ≤ k) :
    decode self (encode self p k) = some (p, k) := by
  have hP0 : self.production_count ≠ 0 := by omega
  obtain ⟨hd, hm⟩ := tdiv_tmod_encode_aux (self.production_count : Int) p k hp0 hp hk
  unfold decode encode
  rw [if_neg hP0, hd, hm]
  congr 2
  omega

/-- On the integers, where nothing wraps: for every P >= 1, production indices
p1, p2 in [0, P) and offsets k1, k2 >= 0, `encode p1 k1 < encode p2 k2` holds
exactly when k1 < k2, or k1 = k2 and p1 > p2; so `encode` is injective on
these items. -/
theorem encode_lt_iff_exact (self : Grammar) (p1 k1 p2 k2 : Int) (hP : 1 ≤ self.production_count)
    (hp1 : 0 ≤ p1) (hp1P : p1 < (self.production_count : Int))
    (hp2 : 0 ≤ p2) (hp2P : p2 < (self.production_count : Int))
    (hk1 : 0 ≤ k1) (hk2 : 0 ≤ k2) :
    (encode self p1 k1 < encode self p2 k2 ↔ k1 < k2 ∨ (k1 = k2 ∧ p1 > p2)) ∧
    (encode self p1 k1 = encode self p2 k2 → p1 = p2 ∧ k1 = k2) := by
  unfold encode
  have hlow : ∀ a b : Int, a < b →
      (self.production_count : Int) * (a + 1) ≤ (self.production_count : Int) * b := by
    intro a b hab
    nlinarith
  refine ⟨⟨?_, ?_⟩, ?_⟩
  · intro h
    rcases lt_trichotomy k1 k2 with hk | hk | hk
    · exact Or.inl hk
    · subst hk
      right
      exact ⟨rfl, by linarith⟩
    · exfalso
      have := hlow k2 k1 hk
      linarith
  · rintro (hk | ⟨hk, hp⟩)
    · have := hlow k1 k2 hk
      linarith
    · subst hk
      linarith
  · intro h
    rcases lt_trichotomy k1 k2 with hk | hk | hk
    · exfalso
      have := hlow k1 k2 hk
      linarith
    · subst hk
      exact ⟨by linarith, rfl⟩
    · exfalso
      have := hlow k2 k1 hk
      linarith

/-! ## Properties of the interner -/


/-- `kernel_matches` decides equality of the item arrays. -/
theorem kernel_matches_iff (K : Kernel) (pairs : List Int) :
    kernel_matches K pairs = true ↔ K.pairs = pairs := by
  unfold kernel_matches
  by_cases h : K.pairs = pairs
  · simp [h]
  · simp [h]

/-- The search returns the first matching kernel. -/
theorem intern_kernel_search_some (pairs : List Int) (ks : List Kernel) (i r : Nat) :
    intern_kernel_search pairs ks i = some r ↔
      ∃ j, r = i + j ∧ (∃ K, ks[j]? = some K ∧ K.pairs = pairs) ∧
        ∀ j2, j2 < j → ∀ K, ks[j2]? = some K → K.pairs ≠ pairs := by
  induction ks generalizing i with
  | nil => simp [intern_kernel_search]
  | cons k rest ih =>
    unfold intern_kernel_search
    by_cases hk : kernel_matches k pairs = true
    · rw [if_pos hk]
      have hk2 := (kernel_matches_iff k pairs).1 hk
      constructor
      · intro h
        refine ⟨0, by simpa using (Option.some.inj h).symm, ⟨k, by simp, hk2⟩, ?_⟩
        intro j2 hj2
        omega
      · rintro ⟨j, hr, _, hmin⟩
        cases j with
        | zero => simp [hr]
        | succ j => exact absurd hk2 (hmin 0 (by omega) k (by simp))
    · rw [if_neg hk]
      have hk2 : k.pairs ≠ pairs := fun h => hk ((kernel_matches_iff k pairs).2 h)
      rw [ih]
      constructor
      · rintro ⟨j, hr, ⟨K, hK, hKp⟩, hmin⟩
        refine ⟨j + 1, by omega, ⟨K, by simpa using hK, hKp⟩, ?_⟩
        intro j2 hj2 K2 hK2
        cases j2 with
        | zero =>
          simp at hK2
          subst hK2
          exact hk2
        | succ j2 => exact hmin j2 (by omega) K2 (by simpa using hK2)
      · rintro ⟨j, hr, ⟨K, hK, hKp⟩, hmin⟩
        cases j with
        | zero =>
          simp at hK
          subst hK
          exact absurd hKp hk2
        | succ j =>
          refine ⟨j, by omega, ⟨K, by simpa using hK, hKp⟩, ?_⟩
          intro j2 hj2 K2 hK2
          exact hmin (j2 + 1) (by omega) K2 (by simpa using hK2)

/-- The search fails exactly when no kernel holds the items. -/
theorem intern_kernel_search_none (pairs : List Int) (ks : List Kernel) (i : Nat) :
    intern_kernel_search pairs ks i = none ↔ ∀ K, K ∈ ks → K.pairs ≠ pairs := by
  induction ks generalizing i with
  | nil => simp [intern_kernel_search]
  | cons k rest ih =>
    unfold intern_kernel_search
    by_cases hk : kernel_matches k pairs = true
    · rw [if_pos hk]
      have hk2 := (kernel_matches_iff k pairs).1 hk
      simp [hk2]
    · rw [if_neg hk]
      have hk2 : k.pairs ≠ pairs := fun h => hk ((kernel_matches_iff k pairs).2 h)
      rw [ih]
      simp [hk2]


/-- The result of `intern_kernel` when a kernel matches. -/
theorem intern_kernel_hit (self : Grammar) (pairs : List Int) (r : Nat)
    (hne : pairs.length ≠ 0) (h : intern_kernel_search pairs self.kernels 0 = some r) :
    intern_kernel self pairs = (self, (r : Int)) := by
  unfold intern_kernel
  rw [if_neg hne, h]

/-- The result of `intern_kernel` when no kernel matches. -/
theorem intern_kernel_miss (self : Grammar) (pairs : List Int)
    (hne : pairs.length ≠ 0) (h : intern_kernel_search pairs self.kernels 0 = none) :
    intern_kernel self pairs =
      ({ self with kernels := self.kernels ++ [kernel_alloc pairs] }, (self.kernel_count : Int)) := by
  unfold intern_kernel
  rw [if_neg hne, h]

/-- Where a pointer is as wide as an `int` (`kernel_matches` compares the arrays
and nothing else): `intern_kernel` on an empty array returns -1 and leaves the
grammar unchanged; on a non-empty array it returns an index r with
0 <= r < the resulting kernel count, and kernel r has exactly `count` items,
equal element by element to `pairs`. -/
theorem intern_kernel_spec_exact (self : Grammar) (pairs : List Int) :
    (pairs.length = 0 → intern_kernel self pairs = (self, -1)) ∧
    (pairs.length ≠ 0 →
      ∃ r : Nat, (intern_kernel self pairs).2 = (r : Int) ∧
        r < (intern_kernel self pairs).1.kernel_count ∧
        ∃ K, (intern_kernel self pairs).1.kernels[r]? = some K ∧
          K.pairs.length = pairs.length ∧ K.pairs = pairs) := by
  constructor
  · intro h
    unfold intern_kernel
    rw [if_pos h]
  · intro hne
    cases hs : intern_kernel_search pairs self.kernels 0 with
    | some r =>
      rw [intern_kernel_hit self pairs r hne hs]
      obtain ⟨j, hj, ⟨K, hK, hKp⟩, _⟩ := (intern_kernel_search_some pairs self.kernels 0 r).1 hs
      have hrj : r = j := by omega
      subst hrj
      refine ⟨r, rfl, ?_, K, hK, by rw [hKp], hKp⟩
      have := List.getElem?_eq_some.1 hK
      obtain ⟨hlt, _⟩ := this
      exact hlt
    | none =>
      rw [intern_kernel_miss self pairs hne hs]
      refine ⟨self.kernel_count, rfl, ?_, kernel_alloc pairs, ?_, rfl, rfl⟩
      · simp [Grammar.kernel_count]
      · simp [Grammar.kernel_count]

/-- Where a pointer is as wide as an `int`: `intern_kernel` with count > 0.  If
some kernel holds items equal to `pairs`, the grammar (so the kernel count) is
unchanged and the smallest index of such a kernel is returned.  If none does,
the returned index is the previous kernel count, the kernel count grows by
exactly one, and every kernel with a smaller index is unchanged. -/
theorem intern_kernel_frame_exact (self : Grammar) (pairs : List Int) (hne : pairs.length ≠ 0) :
    ((∃ (i : Nat) (K : Kernel), self.kernels[i]? = some K ∧ K.pairs = pairs) →
      (intern_kernel self pairs).1 = self ∧
      (intern_kernel self pairs).1.kernel_count = self.kernel_count ∧
      ∃ r : Nat, (intern_kernel self pairs).2 = (r : Int) ∧
        (∃ K, self.kernels[r]? = some K ∧ K.pairs = pairs) ∧
        ∀ j, j < r → ∀ K, self.kernels[j]? = some K → K.pairs ≠ pairs) ∧
    ((¬ ∃ (i : Nat) (K : Kernel), self.kernels[i]? = some K ∧ K.pairs = pairs) →
      (intern_kernel self pairs).2 = (self.kernel_count : Int) ∧
      (intern_kernel self pairs).1.kernel_count = self.kernel_count + 1 ∧
      (∀ j, j < self.kernel_count →
        (intern_kernel self pairs).1.kernels[j]? = self.kernels[j]?) ∧
      (intern_kernel self pairs).1.kernels[self.kernel_count]? = some (kernel_alloc pairs)) := by
  constructor
  · rintro ⟨i, K, hK, hKp⟩
    cases hs : intern_kernel_search pairs self.kernels 0 with
    | none =>
      exact absurd hKp ((intern_kernel_search_none pairs self.kernels 0).1 hs K
        (List.getElem?_mem hK))
    | some r =>
      rw [intern_kernel_hit self pairs r hne hs]
      obtain ⟨j, hj, hex, hmin⟩ := (intern_kernel_search_some pairs self.kernels 0 r).1 hs
      have hrj : r = j := by omega
      subst hrj
      exact ⟨rfl, rfl, r, rfl, hex, hmin⟩
  · intro hno
    cases hs : intern_kernel_search pairs self.kernels 0 with
    | some r =>
      obtain ⟨j, _, ⟨K, hK, hKp⟩, _⟩ := (intern_kernel_search_some pairs self.kernels 0 r).1 hs
      exact absurd ⟨j, K, hK, hKp⟩ hno
    | none =>
      rw [intern_kernel_miss self pairs hne hs]
      refine ⟨rfl, by simp [Grammar.kernel_count], ?_, by simp [Grammar.kernel_count]⟩
      intro j hj
      simp only [Grammar.kernel_count] at hj
      simp [List.getElem?_append_left hj]

/-- Where a pointer is as wide as an `int`, interning is idempotent.  For a
non-empty array, a second `intern_kernel` on the same array, right after the
first, returns the same index and leaves the grammar (kernel count and every
kernel) as the first call left it. -/
theorem intern_kernel_idempotent_exact (self : Grammar) (pairs : List Int) (hne : pairs.length ≠ 0) :
    (intern_kernel (intern_kernel self pairs).1 pairs).2 = (intern_kernel self pairs).2 ∧
    (intern_kernel (intern_kernel self pairs).1 pairs).1 = (intern_kernel self pairs).1 := by
  cases hs : intern_kernel_search pairs self.kernels 0 with
  | some r =>
    rw [intern_kernel_hit self pairs r hne hs]
    simp only
    rw [intern_kernel_hit self pairs r hne hs]
    exact ⟨rfl, rfl⟩
  | none =>
    rw [intern_kernel_miss self pairs hne hs]
    simp only
    have hnone := (intern_kernel_search_none pairs self.kernels 0).1 hs
    have hs2 : intern_kernel_search pairs
        ({ self with kernels := self.kernels ++ [kernel_alloc pairs] } : Grammar).kernels 0
          = some self.kernel_count := by
      rw [intern_kernel_search_some]
      refine ⟨self.kernel_count, by omega, ⟨kernel_alloc pairs, ?_, rfl⟩, ?_⟩
      · simp [Grammar.kernel_count]
      · intro j hj K hK
        simp only [Grammar.kernel_count] at hj
        rw [List.getElem?_append_left hj] at hK
        exact hnone K (List.getElem?_mem hK)
    rw [intern_kernel_hit _ pairs self.kernel_count hne hs2]
    exact ⟨rfl, rfl⟩

/-! ## Properties of the pairs table -/

/-- When the backwards scan bails out, `pair` is in the array. -/
theorem add_pairs_scan_none (pair : Int) (row : List Int) (n : Nat) (hn : n ≤ row.length)
    (h : add_pairs_scan pair row n = none) : pair ∈ row := by
  induction n with
  | zero => simp [add_pairs_scan] at h
  | succ n ih =>
    unfold add_pairs_scan at h
    by_cases h1 : pair = row.getD n 0
    · rw [h1]
      have hlt : n < row.length := by omega
      rw [List.getD_eq_getElem _ _ hlt]
      exact List.getElem_mem hlt
    · rw [if_neg h1] at h
      by_cases h2 : pair < row.getD n 0
      · rw [if_pos h2] at h
        exact absurd h (by simp)
      · rw [if_neg h2] at h
        exact ih (by omega) h

/-- The position found by the backwards scan: everything from it up to the
start of the scan is below `pair`, and the element before it is above. -/
theorem add_pairs_scan_some (pair : Int) (row : List Int) (n i : Nat)
    (h : add_pairs_scan pair row n = some i) :
    i ≤ n ∧ (∀ j, i ≤ j → j < n → row.getD j 0 < pair) ∧
      (0 < i → pair < row.getD (i - 1) 0) := by
  induction n with
  | zero =>
    simp [add_pairs_scan] at h
    subst h
    simp
  | succ n ih =>
    unfold add_pairs_scan at h
    by_cases h1 : pair = row.getD n 0
    · rw [if_pos h1] at h
      exact absurd h (by simp)
    · rw [if_neg h1] at h
      by_cases h2 : pair < row.getD n 0
      · rw [if_pos h2] at h
        have hi : i = n + 1 := (Option.some.inj h).symm
        subst hi
        refine ⟨le_refl _, ?_, fun _ => by simpa using h2⟩
        intro j hj1 hj2
        omega
      · rw [if_neg h2] at h
        obtain ⟨hin, hlow, hup⟩ := ih h
        refine ⟨by omega, ?_, hup⟩
        intro j hj1 hj2
        by_cases hjn : j = n
        · subst hjn
          omega
        · exact hlow j hj1 (by omega)

/-- The elements of the array after `add_pairs_entry`: the old ones and `pair`. -/
theorem mem_add_pairs_row (row : List Int) (pair x : Int) :
    x ∈ add_pairs_row row pair ↔ x ∈ row ∨ x = pair := by
  unfold add_pairs_row
  cases h : add_pairs_scan pair row row.length with
  | none =>
    have hmem := add_pairs_scan_none pair row row.length (le_refl _) h
    simp only
    constructor
    · exact Or.inl
    · rintro (hx | hx)
      · exact hx
      · rw [hx]
        exact hmem
  | some i =>
    simp only
    have hsplit : x ∈ row ↔ x ∈ row.take i ∨ x ∈ row.drop i := by
      conv_lhs => rw [← List.take_append_drop i row]
      exact List.mem_append
    rw [List.mem_append, List.mem_cons, hsplit]
    tauto

/-- A strictly descending array stays strictly descending under
`add_pairs_entry`. -/
theorem pairwise_add_pairs_row (row : List Int) (pair : Int)
    (hrow : row.Pairwise (fun a b => b < a)) :
    (add_pairs_row row pair).Pairwise (fun a b => b < a) := by
  unfold add_pairs_row
  cases h : add_pairs_scan pair row row.length with
  | none => exact hrow
  | some i =>
    simp only
    obtain ⟨hile, hlow, hup⟩ := add_pairs_scan_some pair row row.length i h
    have hdrop : ∀ b, b ∈ row.drop i → b < pair := by
      intro b hb
      obtain ⟨j, hj, hbj⟩ := List.getElem_of_mem hb
      have hj2 : j < row.length - i := by simpa using hj
      have hget : b = row.getD (i + j) 0 := by
        rw [List.getD_eq_getElem _ _ (by omega), ← hbj, List.getElem_drop]
      rw [hget]
      exact hlow (i + j) (by omega) (by omega)
    have htake : ∀ a, a ∈ row.take i → pair < a := by
      intro a ha
      obtain ⟨j, hj, haj⟩ := List.getElem_of_mem ha
      have hj2 : j < i := by
        have := hj
        simp at this
        omega
      have hi0 : 0 < i := by omega
      have hlast := hup hi0
      rw [List.getD_eq_getElem _ _ (by omega)] at hlast
      have hjl : j < row.length := by omega
      have haj2 : a = row[j] := by
        rw [← haj, List.getElem_take]
      by_cases hji : j = i - 1
      · subst hji
        rw [haj2]
        exact hlast
      · have := List.pairwise_iff_getElem.1 hrow j (i - 1) (by omega) (by omega) (by omega)
        rw [haj2]
        omega
    rw [List.pairwise_append]
    refine ⟨hrow.sublist (List.take_sublist i row), ?_, ?_⟩
    · rw [List.pairwise_cons]
      exact ⟨hdrop, hrow.sublist (List.drop_sublist i row)⟩
    · intro a ha b hb
      rw [List.mem_cons] at hb
      rcases hb with hb | hb
      · rw [hb]
        exact htake a ha
      · exact lt_trans (hdrop b hb) (htake a ha)


/-! ## Loops in the `Option` monad -/

/-- A property kept by every successful iteration holds after the loop. -/
theorem foldlM_invariant {α β : Type} (f : β → α → Option β) (Inv : β → Prop) (l : List α)
    (hf : ∀ b a b2, a ∈ l → Inv b → f b a = some b2 → Inv b2)
    (b b2 : β) (hb : Inv b) (h : l.foldlM f b = some b2) : Inv b2 := by
  induction l generalizing b with
  | nil =>
    simp only [List.foldlM_nil] at h
    cases h
    exact hb
  | cons a l ih =>
    rw [List.foldlM_cons] at h
    cases hfa : f b a with
    | none =>
      rw [hfa] at h
      exact absurd h (by simp)
    | some b1 =>
      rw [hfa] at h
      exact ih (fun b a2 b3 ha2 => hf b a2 b3 (List.mem_cons_of_mem a ha2)) b1
        (hf b a b1 (List.mem_cons_self a l) hb hfa) h

/-- What an iteration establishes for its own element, and every successful
iteration keeps, holds after the loop for every element. -/
theorem foldlM_reaches {α β : Type} (f : β → α → Option β) (Q : α → β → Prop) (l : List α)
    (hstep : ∀ b a b2, a ∈ l → f b a = some b2 → Q a b2)
    (hkeep : ∀ b a b2 x, a ∈ l → f b a = some b2 → Q x b → Q x b2)
    (b b2 : β) (h : l.foldlM f b = some b2) : ∀ a, a ∈ l → Q a b2 := by
  induction l generalizing b with
  | nil =>
    intro a ha
    exact absurd ha (List.not_mem_nil a)
  | cons a l ih =>
    rw [List.foldlM_cons] at h
    cases hfa : f b a with
    | none =>
      rw [hfa] at h
      exact absurd h (by simp)
    | some b1 =>
      rw [hfa] at h
      intro x hx
      rcases List.mem_cons.1 hx with hx | hx
      · subst hx
        have hq : Q x b1 := hstep b x b1 (List.mem_cons_self x l) hfa
        exact foldlM_invariant f (Q x) l
          (fun b a2 b3 ha2 hQ hf2 => hkeep b a2 b3 x (List.mem_cons_of_mem _ ha2) hf2 hQ)
          b1 b2 hq h
      · exact ih (fun b a2 b3 ha2 => hstep b a2 b3 (List.mem_cons_of_mem a ha2))
          (fun b a2 b3 y ha2 => hkeep b a2 b3 y (List.mem_cons_of_mem a ha2)) b1 h x hx

/-! ## Frame of the interner and of the builder -/

/-- `intern_kernel` changes nothing but the kernel table, to which it appends
at most the new kernel; a kernel is appended only for a non-empty array that no
kernel holds. -/
theorem intern_kernel_kernels (self : Grammar) (pairs : List Int) :
    ∃ t, (intern_kernel self pairs).1 = { self with kernels := self.kernels ++ t } ∧
      (t = [] ∨ (t = [kernel_alloc pairs] ∧ pairs ≠ [] ∧
        ∀ K, K ∈ self.kernels → K.pairs ≠ pairs)) := by
  by_cases hne : pairs.length = 0
  · refine ⟨[], ?_, Or.inl rfl⟩
    unfold intern_kernel
    rw [if_pos hne]
    simp
  · cases hs : intern_kernel_search pairs self.kernels 0 with
    | some r =>
      refine ⟨[], ?_, Or.inl rfl⟩
      rw [intern_kernel_hit self pairs r hne hs]
      simp
    | none =>
      refine ⟨[kernel_alloc pairs], ?_, Or.inr ⟨rfl, ?_, ?_⟩⟩
      · rw [intern_kernel_miss self pairs hne hs]
      · intro h
        rw [h] at hne
        exact hne rfl
      · exact (intern_kernel_search_none pairs self.kernels 0).1 hs

/-- The index returned by `intern_kernel`: -1 for the empty array, otherwise
the index of a kernel holding the array. -/
theorem intern_kernel_index (self : Grammar) (pairs : List Int) :
    (pairs = [] → (intern_kernel self pairs).2 = -1) ∧
    (pairs ≠ [] → ∃ r : Nat, (intern_kernel self pairs).2 = (r : Int) ∧
      ∃ K, (intern_kernel self pairs).1.kernels[r]? = some K ∧ K.pairs = pairs) := by
  constructor
  · intro h
    unfold intern_kernel
    rw [if_pos (by rw [h]; rfl)]
  · intro h
    have hne : pairs.length ≠ 0 := by
      intro h0
      exact h (List.length_eq_zero.1 h0)
    cases hs : intern_kernel_search pairs self.kernels 0 with
    | some r =>
      rw [intern_kernel_hit self pairs r hne hs]
      obtain ⟨j, hj, ⟨K, hK, hKp⟩, _⟩ := (intern_kernel_search_some pairs self.kernels 0 r).1 hs
      have hrj : r = j := by omega
      subst hrj
      exact ⟨r, rfl, K, hK, hKp⟩
    | none =>
      rw [intern_kernel_miss self pairs hne hs]
      exact ⟨self.kernel_count, rfl, kernel_alloc pairs, by simp [Grammar.kernel_count], rfl⟩

/-- The translation loop: the kernel table is extended by new kernels without
a goto table, each holding a non-empty row of the pairs table that no earlier
kernel holds and each the goto target of some row; row `c` is translated to -1
when it is empty and to the index of a kernel holding it otherwise. -/
theorem intern_pairs_table_spec (self : Grammar) (table : List (List Int)) :
    ∃ t, (intern_pairs_table self table).1 = { self with kernels := self.kernels ++ t } ∧
      (∀ K, K ∈ t → K.goto_table = none ∧ K.pairs ∈ table ∧ K.pairs ≠ []) ∧
      ((self.kernels.map Kernel.pairs).Nodup → ((self.kernels ++ t).map Kernel.pairs).Nodup) ∧
      (intern_pairs_table self table).2.length = table.length ∧
      (∀ j, j < t.length →
        ∃ c : Nat, (intern_pairs_table self table).2[c]? = some ((self.kernels.length + j : Nat) : Int)) ∧
      ∀ (c : Nat) (row : List Int), table[c]? = some row →
        (row = [] → (intern_pairs_table self table).2[c]? = some (-1)) ∧
        (row ≠ [] → ∃ r : Nat, (intern_pairs_table self table).2[c]? = some (r : Int) ∧
          ∃ K, (self.kernels ++ t)[r]? = some K ∧ K.pairs = row) := by
  induction table generalizing self with
  | nil =>
    refine ⟨[], by simp [intern_pairs_table], by simp, by simp, by simp [intern_pairs_table],
      by simp, by simp⟩
  | cons pairs rest ih =>
    obtain ⟨t1, ht1, hcase⟩ := intern_kernel_kernels self pairs
    obtain ⟨hidx0, hidx1⟩ := intern_kernel_index self pairs
    obtain ⟨t2, ht2, hnew2, hnodup2, hlen2, htarget2, hrows2⟩ := ih (intern_kernel self pairs).1
    have hk1 : (intern_kernel self pairs).1.kernels = self.kernels ++ t1 := by rw [ht1]
    rw [hk1] at hnodup2 htarget2 hrows2
    have hres1 : (intern_pairs_table self (pairs :: rest)).1
        = (intern_pairs_table (intern_kernel self pairs).1 rest).1 := rfl
    have hres2 : (intern_pairs_table self (pairs :: rest)).2
        = (intern_kernel self pairs).2 :: (intern_pairs_table (intern_kernel self pairs).1 rest).2 :=
      rfl
    refine ⟨t1 ++ t2, ?_, ?_, ?_, ?_, ?_, ?_⟩
    · rw [hres1, ht2, ht1]
      simp [List.append_assoc]
    · intro K hK
      rcases List.mem_append.1 hK with hK | hK
      · rcases hcase with h | ⟨h, hne, _⟩
        · rw [h] at hK
          exact absurd hK (List.not_mem_nil K)
        · rw [h, List.mem_singleton] at hK
          subst hK
          exact ⟨rfl, List.mem_cons_self _ _, hne⟩
      · obtain ⟨h1, h2, h3⟩ := hnew2 K hK
        exact ⟨h1, List.mem_cons_of_mem _ h2, h3⟩
    · intro hnd
      rw [← List.append_assoc]
      apply hnodup2
      rcases hcase with h | ⟨h, _, hfresh⟩
      · rw [h, List.append_nil]
        exact hnd
      · rw [h, List.map_append, List.nodup_append]
        refine ⟨hnd, by simp, ?_⟩
        intro a ha hb
        simp only [List.map_cons, List.map_nil, List.mem_singleton] at hb
        obtain ⟨K, hK, hKa⟩ := List.mem_map.1 ha
        exact hfresh K hK (by rw [hKa, hb]; rfl)
    · rw [hres2, List.length_cons, hlen2, List.length_cons]
    · intro j hj
      rw [List.length_append] at hj
      by_cases hj1 : j < t1.length
      · rcases hcase with h | ⟨h, hne, hfresh⟩
        · rw [h] at hj1
          exact absurd hj1 (by simp)
        · rw [h] at hj1
          have hj0 : j = 0 := by simpa using hj1
          subst hj0
          refine ⟨0, ?_⟩
          rw [hres2]
          have hnl : pairs.length ≠ 0 := fun h0 => hne (List.length_eq_zero.1 h0)
          have hnone : intern_kernel_search pairs self.kernels 0 = none :=
            (intern_kernel_search_none pairs self.kernels 0).2 hfresh
          rw [intern_kernel_miss self pairs hnl hnone]
          simp [Grammar.kernel_count]
      · obtain ⟨c, hc⟩ := htarget2 (j - t1.length) (by omega)
        refine ⟨c + 1, ?_⟩
        rw [hres2, List.getElem?_cons_succ, hc, List.length_append]
        congr 2
        omega
    · intro c row hrow
      cases c with
      | zero =>
        simp only [List.getElem?_cons_zero, Option.some.injEq] at hrow
        subst hrow
        constructor
        · intro h
          rw [hres2, List.getElem?_cons_zero, hidx0 h]
        · intro h
          obtain ⟨r, hr, K, hK, hKp⟩ := hidx1 h
          refine ⟨r, by rw [hres2, List.getElem?_cons_zero, hr], K, ?_, hKp⟩
          rw [hk1] at hK
          obtain ⟨hlt, hget⟩ := List.getElem?_eq_some.1 hK
          rw [← List.append_assoc, List.getElem?_append_left hlt]
          exact hK
      | succ c =>
        rw [List.getElem?_cons_succ] at hrow
        obtain ⟨h0, h1⟩ := hrows2 c row hrow
        constructor
        · intro h
          rw [hres2, List.getElem?_cons_succ]
          exact h0 h
        · intro h
          obtain ⟨r, hr, K, hK, hKp⟩ := h1 h
          refine ⟨r, by rw [hres2, List.getElem?_cons_succ]; exact hr, K, ?_, hKp⟩
          rw [← List.append_assoc]
          exact hK


/-! ## The pairs table computed for a kernel -/

/-- A successful `add_pairs_entry` rewrites row `index` and nothing else. -/
theorem add_pairs_entry_some (table : List (List Int)) (index : Nat) (pair : Int)
    (table2 : List (List Int)) (h : add_pairs_entry table index pair = some table2) :
    ∃ row, table[index]? = some row ∧ table2 = table.set index (add_pairs_row row pair) := by
  unfold add_pairs_entry at h
  cases hrow : table[index]? with
  | none =>
    rw [hrow] at h
    exact absurd h (by simp)
  | some row =>
    rw [hrow] at h
    exact ⟨row, rfl, (Option.some.inj h).symm⟩

/-- Every successful `add_pairs_entry` of `compute_pairs` adds an entry
described by `pairs_entry`; so a property of the table kept by these additions
holds of the table computed. -/
theorem compute_pairs_invariant (self : Grammar) (kernel : Kernel)
    (Inv : List (List Int) → Prop)
    (hadd : ∀ table index pair table2, Inv table → pairs_entry self kernel index pair →
      add_pairs_entry table index pair = some table2 → Inv table2)
    (table table2 : List (List Int)) (hinv : Inv table)
    (h : compute_pairs self kernel table = some table2) : Inv table2 := by
  unfold compute_pairs at h
  obtain ⟨shifted, hshift, hclosure⟩ := Option.bind_eq_some.1 h
  have hs : Inv shifted := by
    refine foldlM_invariant (compute_pairs_shift self) Inv kernel.pairs ?_ table shifted hinv hshift
    intro b code b2 hcode hb hstep
    unfold compute_pairs_shift at hstep
    obtain ⟨decoded, hdec, hstep⟩ := Option.bind_eq_some.1 hstep
    obtain ⟨production, hprod, hstep⟩ := Option.bind_eq_some.1 hstep
    cases hcomp : production_get_component production decoded.2 with
    | none =>
      rw [hcomp] at hstep
      cases hstep
      exact hb
    | some component =>
      rw [hcomp] at hstep
      obtain ⟨index, hindex, hstep⟩ := Option.bind_eq_some.1 hstep
      exact hadd b index _ b2 hb
        ⟨code, decoded, production, hcode, hdec, hprod, Or.inl ⟨component, hcomp, hindex, rfl⟩⟩
        hstep
  refine foldlM_invariant (compute_pairs_closure self) Inv kernel.pairs ?_ shifted table2 hs
    hclosure
  intro b code b2 hcode hb hstep
  unfold compute_pairs_closure at hstep
  obtain ⟨decoded, hdec, hstep⟩ := Option.bind_eq_some.1 hstep
  obtain ⟨production, hprod, hstep⟩ := Option.bind_eq_some.1 hstep
  unfold compute_pairs_for_kernel_item at hstep
  cases hcomp : production_get_component production decoded.2 with
  | none =>
    rw [hcomp] at hstep
    cases hstep
    exact hb
  | some component =>
    cases component with
    | terminal t =>
      rw [hcomp] at hstep
      cases hstep
      exact hb
    | nonterminal B =>
      rw [hcomp] at hstep
      simp only at hstep
      cases hgen : self.generates[B]? with
      | none =>
        rw [hgen] at hstep
        exact absurd hstep (by simp)
      | some generates =>
        rw [hgen] at hstep
        simp only at hstep
        refine foldlM_invariant _ Inv (List.range self.nonterminal_count) ?_ b b2 hb hstep
        intro c i c2 hi hc hstep2
        simp only at hstep2
        by_cases hcond : B = i ∨ generates_cell generates i = true
        · rw [if_pos hcond] at hstep2
          cases hpbn : self.productions_by_nonterminal[i]? with
          | none =>
            rw [hpbn] at hstep2
            exact absurd hstep2 (by simp)
          | some entry =>
            cases entry with
            | none =>
              rw [hpbn] at hstep2
              exact absurd hstep2 (by simp)
            | some probes =>
              rw [hpbn] at hstep2
              simp only at hstep2
              refine foldlM_invariant (add_probe_entry self) Inv probes ?_ c c2 hc hstep2
              intro d probe d2 hprobe hd hstep3
              unfold add_probe_entry at hstep3
              obtain ⟨index, hindex, hstep3⟩ := Option.bind_eq_some.1 hstep3
              exact hadd d index _ d2 hd
                ⟨code, decoded, production, hcode, hdec, hprod,
                  Or.inr ⟨B, generates, i, probes, probe, hcomp, hgen, List.mem_range.1 hi, hcond,
                    hpbn, hprobe, hindex, rfl⟩⟩
                hstep3
        · rw [if_neg hcond] at hstep2
          cases hstep2
          exact hc


/-- A property of the table kept by `add_pairs_entry` is kept by the body of
the probe loop. -/
theorem add_probe_entry_keeps (self : Grammar) (Inv : List (List Int) → Prop)
    (hadd : ∀ table index pair table2, Inv table →
      add_pairs_entry table index pair = some table2 → Inv table2)
    (table : List (List Int)) (probe : Production) (table2 : List (List Int)) (hinv : Inv table)
    (h : add_probe_entry self table probe = some table2) : Inv table2 := by
  unfold add_probe_entry at h
  obtain ⟨index, _, h⟩ := Option.bind_eq_some.1 h
  exact hadd table index _ table2 hinv h

/-- A property of the table kept by `add_pairs_entry` is kept by
`compute_pairs_for_kernel_item`. -/
theorem compute_pairs_for_kernel_item_keeps (self : Grammar) (Inv : List (List Int) → Prop)
    (hadd : ∀ table index pair table2, Inv table →
      add_pairs_entry table index pair = some table2 → Inv table2)
    (production : Production) (offset : Int) (table table2 : List (List Int))
    (hinv : Inv table)
    (h : compute_pairs_for_kernel_item self production offset table = some table2) :
    Inv table2 := by
  unfold compute_pairs_for_kernel_item at h
  cases hcomp : production_get_component production offset with
  | none =>
    rw [hcomp] at h
    cases h
    exact hinv
  | some component =>
    cases component with
    | terminal t =>
      rw [hcomp] at h
      cases h
      exact hinv
    | nonterminal B =>
      rw [hcomp] at h
      simp only at h
      cases hgen : self.generates[B]? with
      | none =>
        rw [hgen] at h
        exact absurd h (by simp)
      | some generates =>
        rw [hgen] at h
        simp only at h
        refine foldlM_invariant _ Inv (List.range self.nonterminal_count) ?_ table table2 hinv h
        intro c i c2 _ hc hstep2
        simp only at hstep2
        by_cases hcond : B = i ∨ generates_cell generates i = true
        · rw [if_pos hcond] at hstep2
          cases hpbn : self.productions_by_nonterminal[i]? with
          | none =>
            rw [hpbn] at hstep2
            exact absurd hstep2 (by simp)
          | some entry =>
            cases entry with
            | none =>
              rw [hpbn] at hstep2
              exact absurd hstep2 (by simp)
            | some probes =>
              rw [hpbn] at hstep2
              simp only at hstep2
              exact foldlM_invariant (add_probe_entry self) Inv probes
                (fun d probe d2 _ hd hs => add_probe_entry_keeps self Inv hadd d probe d2 hd hs)
                c c2 hc hstep2
        · rw [if_neg hcond] at hstep2
          cases hstep2
          exact hc

/-- A property of the table kept by `add_pairs_entry` is kept by the body of
the first loop of `compute_pairs`. -/
theorem compute_pairs_shift_keeps (self : Grammar) (Inv : List (List Int) → Prop)
    (hadd : ∀ table index pair table2, Inv table →
      add_pairs_entry table index pair = some table2 → Inv table2)
    (table : List (List Int)) (code : Int) (table2 : List (List Int)) (hinv : Inv table)
    (h : compute_pairs_shift self table code = some table2) : Inv table2 := by
  unfold compute_pairs_shift at h
  obtain ⟨decoded, _, h⟩ := Option.bind_eq_some.1 h
  obtain ⟨production, _, h⟩ := Option.bind_eq_some.1 h
  cases hcomp : production_get_component production decoded.2 with
  | none =>
    rw [hcomp] at h
    cases h
    exact hinv
  | some component =>
    rw [hcomp] at h
    obtain ⟨index, _, h⟩ := Option.bind_eq_some.1 h
    exact hadd table index _ table2 hinv h

/-- A property of the table kept by `add_pairs_entry` is kept by the body of
the second loop of `compute_pairs`. -/
theorem compute_pairs_closure_keeps (self : Grammar) (Inv : List (List Int) → Prop)
    (hadd : ∀ table index pair table2, Inv table →
      add_pairs_entry table index pair = some table2 → Inv table2)
    (table : List (List Int)) (code : Int) (table2 : List (List Int)) (hinv : Inv table)
    (h : compute_pairs_closure self table code = some table2) : Inv table2 := by
  unfold compute_pairs_closure at h
  obtain ⟨decoded, _, h⟩ := Option.bind_eq_some.1 h
  obtain ⟨production, _, h⟩ := Option.bind_eq_some.1 h
  exact compute_pairs_for_kernel_item_keeps self Inv hadd production decoded.2 table table2 hinv h

/-- After `add_pairs_entry`, the row holds the pair. -/
theorem add_pairs_entry_has (table : List (List Int)) (index : Nat) (pair : Int)
    (table2 : List (List Int)) (h : add_pairs_entry table index pair = some table2) :
    table_has table2 index pair := by
  obtain ⟨row, hrow, ht⟩ := add_pairs_entry_some table index pair table2 h
  obtain ⟨hlt, _⟩ := List.getElem?_eq_some.1 hrow
  refine ⟨add_pairs_row row pair, ?_, (mem_add_pairs_row row pair pair).2 (Or.inr rfl)⟩
  rw [ht, List.getElem?_set_self hlt]

/-- The entries of the table after `add_pairs_entry`: the old ones and the new
pair. -/
theorem add_pairs_entry_has_iff (table : List (List Int)) (index : Nat) (pair : Int)
    (table2 : List (List Int)) (h : add_pairs_entry table index pair = some table2)
    (c : Nat) (x : Int) :
    table_has table2 c x ↔ table_has table c x ∨ (c = index ∧ x = pair) := by
  obtain ⟨row, hrow, ht⟩ := add_pairs_entry_some table index pair table2 h
  obtain ⟨hlt, _⟩ := List.getElem?_eq_some.1 hrow
  unfold table_has
  by_cases hc : c = index
  · subst hc
    rw [ht, List.getElem?_set_self hlt, hrow]
    constructor
    · rintro ⟨r, hr, hx⟩
      have hrr : add_pairs_row row pair = r := Option.some.inj hr
      rw [← hrr] at hx
      rcases (mem_add_pairs_row row pair x).1 hx with hx | hx
      · exact Or.inl ⟨row, rfl, hx⟩
      · exact Or.inr ⟨rfl, hx⟩
    · rintro (⟨r, hr, hx⟩ | ⟨_, hx⟩)
      · have hrr : row = r := Option.some.inj hr
        rw [← hrr] at hx
        exact ⟨_, rfl, (mem_add_pairs_row row pair x).2 (Or.inl hx)⟩
      · exact ⟨_, rfl, (mem_add_pairs_row row pair x).2 (Or.inr hx)⟩
  · rw [ht, List.getElem?_set_ne (fun h => hc h.symm)]
    constructor
    · exact Or.inl
    · rintro (h | ⟨h, _⟩)
      · exact h
      · exact absurd h hc

/-- `add_pairs_entry` keeps the entries of the table. -/
theorem add_pairs_entry_mono (c : Nat) (x : Int) (table : List (List Int)) (index : Nat)
    (pair : Int) (table2 : List (List Int)) (hx : table_has table c x)
    (h : add_pairs_entry table index pair = some table2) : table_has table2 c x :=
  (add_pairs_entry_has_iff table index pair table2 h c x).2 (Or.inl hx)


/-- Soundness of `compute_pairs`: every entry of the table computed was in the
table before or is a `pairs_entry` of the kernel. -/
theorem compute_pairs_sound (self : Grammar) (kernel : Kernel) (table table2 : List (List Int))
    (h : compute_pairs self kernel table = some table2) (c : Nat) (x : Int)
    (hx : table_has table2 c x) : table_has table c x ∨ pairs_entry self kernel c x := by
  have hinv := compute_pairs_invariant self kernel
    (fun t => ∀ c x, table_has t c x → table_has table c x ∨ pairs_entry self kernel c x)
    (fun t index pair t2 ht hentry hadd c x hx => by
      rcases (add_pairs_entry_has_iff t index pair t2 hadd c x).1 hx with hx | ⟨hc, hxp⟩
      · exact ht c x hx
      · subst hc
        subst hxp
        exact Or.inr hentry)
    table table2 (fun c x hx => Or.inl hx) h
  exact hinv c x hx

/-- `compute_pairs` keeps the entries of the table. -/
theorem compute_pairs_mono (self : Grammar) (kernel : Kernel) (table table2 : List (List Int))
    (h : compute_pairs self kernel table = some table2) (c : Nat) (x : Int)
    (hx : table_has table c x) : table_has table2 c x :=
  compute_pairs_invariant self kernel (fun t => table_has t c x)
    (fun t index pair t2 ht _ hadd => add_pairs_entry_mono c x t index pair t2 ht hadd)
    table table2 hx h

/-- Completeness of `compute_pairs`: every `pairs_entry` of the kernel is in
the table computed. -/
theorem compute_pairs_complete (self : Grammar) (kernel : Kernel) (table table2 : List (List Int))
    (h : compute_pairs self kernel table = some table2) (c : Nat) (x : Int)
    (hx : pairs_entry self kernel c x) : table_has table2 c x := by
  have hmono : ∀ t index pair t2, table_has t c x →
      add_pairs_entry t index pair = some t2 → table_has t2 c x :=
    fun t index pair t2 ht hadd => add_pairs_entry_mono c x t index pair t2 ht hadd
  unfold compute_pairs at h
  obtain ⟨shifted, hshift, hclosure⟩ := Option.bind_eq_some.1 h
  obtain ⟨code, decoded, production, hcode, hdec, hprod, hcase⟩ := hx
  rcases hcase with ⟨component, hcomp, hindex, hpair⟩ | ⟨B, generates, i, probes, probe, hcomp,
    hgen, hi, hcond, hpbn, hprobe, hindex, hpair⟩
  · -- the first loop adds the entry at `code`; everything after keeps it
    have h1 : table_has shifted c x := by
      refine foldlM_reaches (compute_pairs_shift self)
        (fun a t => a = code → table_has t c x) kernel.pairs ?_ ?_ table shifted hshift code hcode
        rfl
      · intro b a b2 _ hstep ha
        subst ha
        unfold compute_pairs_shift at hstep
        rw [hdec] at hstep
        simp only [Option.some_bind] at hstep
        rw [hprod] at hstep
        simp only [Option.some_bind] at hstep
        rw [hcomp] at hstep
        simp only at hstep
        rw [hindex] at hstep
        simp only [Option.some_bind] at hstep
        rw [hpair]
        exact add_pairs_entry_has b c _ b2 hstep
      · intro b a b2 y _ hstep hq hy
        exact compute_pairs_shift_keeps self (fun t => table_has t c x) hmono b a b2 (hq hy) hstep
    exact foldlM_invariant (compute_pairs_closure self) (fun t => table_has t c x) kernel.pairs
      (fun b a b2 _ hb hstep =>
        compute_pairs_closure_keeps self (fun t => table_has t c x) hmono b a b2 hb hstep)
      shifted table2 h1 hclosure
  · -- the second loop adds the entry at `code`, nonterminal `i`, production `probe`
    refine foldlM_reaches (compute_pairs_closure self)
      (fun a t => a = code → table_has t c x) kernel.pairs ?_ ?_ shifted table2 hclosure code hcode
      rfl
    · intro b a b2 _ hstep ha
      subst ha
      unfold compute_pairs_closure at hstep
      rw [hdec] at hstep
      simp only [Option.some_bind] at hstep
      rw [hprod] at hstep
      simp only [Option.some_bind] at hstep
      unfold compute_pairs_for_kernel_item at hstep
      rw [hcomp] at hstep
      simp only at hstep
      rw [hgen] at hstep
      simp only at hstep
      refine foldlM_reaches _ (fun j t => j = i → table_has t c x)
        (List.range self.nonterminal_count) ?_ ?_ b b2 hstep i (List.mem_range.2 hi) rfl
      · intro d j d2 _ hstep2 hj
        subst hj
        simp only at hstep2
        rw [if_pos hcond, hpbn] at hstep2
        simp only at hstep2
        refine foldlM_reaches (add_probe_entry self) (fun q t => q = probe → table_has t c x)
          probes ?_ ?_ d d2 hstep2 probe hprobe rfl
        · intro e q e2 _ hstep3 hq
          subst hq
          unfold add_probe_entry at hstep3
          rw [hindex] at hstep3
          simp only [Option.some_bind] at hstep3
          rw [hpair]
          exact add_pairs_entry_has e c _ e2 hstep3
        · intro e q e2 y _ hstep3 hq hy
          exact add_probe_entry_keeps self (fun t => table_has t c x) hmono e q e2 (hq hy) hstep3
      · intro d j d2 y _ hstep2 hq hy
        simp only at hstep2
        by_cases hcond2 : B = j ∨ generates_cell generates j = true
        · rw [if_pos hcond2] at hstep2
          cases hpbn2 : self.productions_by_nonterminal[j]? with
          | none =>
            rw [hpbn2] at hstep2
            exact absurd hstep2 (by simp)
          | some entry =>
            cases entry with
            | none =>
              rw [hpbn2] at hstep2
              exact absurd hstep2 (by simp)
            | some probes2 =>
              rw [hpbn2] at hstep2
              simp only at hstep2
              exact foldlM_invariant (add_probe_entry self) (fun t => table_has t c x) probes2
                (fun e q e2 _ he hs =>
                  add_probe_entry_keeps self (fun t => table_has t c x) hmono e q e2 he hs)
                d d2 (hq hy) hstep2
        · rw [if_neg hcond2] at hstep2
          cases hstep2
          exact hq hy
    · intro b a b2 y _ hstep hq hy
      exact compute_pairs_closure_keeps self (fun t => table_has t c x) hmono b a b2 (hq hy) hstep


/-- `compute_pairs` keeps the number of rows, and keeps every row strictly
descending. -/
theorem compute_pairs_rows (self : Grammar) (kernel : Kernel) (table table2 : List (List Int))
    (h : compute_pairs self kernel table = some table2) :
    table2.length = table.length ∧
    ((∀ row, row ∈ table → row.Pairwise (fun a b => b < a)) →
      ∀ row, row ∈ table2 → row.Pairwise (fun a b => b < a)) := by
  constructor
  · refine compute_pairs_invariant self kernel (fun t => t.length = table.length) ?_ table table2
      rfl h
    intro t index pair t2 ht _ hadd
    obtain ⟨row, _, ht2⟩ := add_pairs_entry_some t index pair t2 hadd
    rw [ht2, List.length_set, ht]
  · intro hdesc
    refine compute_pairs_invariant self kernel
      (fun t => ∀ row, row ∈ t → row.Pairwise (fun a b => b < a)) ?_ table table2 hdesc h
    intro t index pair t2 ht _ hadd
    obtain ⟨row, hrow, ht2⟩ := add_pairs_entry_some t index pair t2 hadd
    intro r hr
    rw [ht2] at hr
    rcases List.mem_or_eq_of_mem_set hr with hr | hr
    · exact ht r hr
    · rw [hr]
      exact pairwise_add_pairs_row row pair (ht row (List.getElem?_mem hrow))

/-- The pairs table computed for a kernel from the empty table: one row for
every component index, every row strictly descending, and row `c` holds exactly
the `pairs_entry` items of the kernel for `c`. -/
theorem compute_pairs_empty (self : Grammar) (kernel : Kernel) (table : List (List Int))
    (h : compute_pairs self kernel (List.replicate (grammar_get_component_count self) [])
      = some table) :
    table.length = grammar_get_component_count self ∧
    (∀ row, row ∈ table → row.Pairwise (fun a b => b < a)) ∧
    (∀ c x, table_has table c x ↔ pairs_entry self kernel c x) := by
  obtain ⟨hlen, hdesc⟩ := compute_pairs_rows self kernel _ table h
  refine ⟨by rw [hlen, List.length_replicate], ?_, ?_⟩
  · apply hdesc
    intro row hrow
    rw [(List.mem_replicate.1 hrow).2]
    exact List.Pairwise.nil
  · intro c x
    constructor
    · intro hx
      rcases compute_pairs_sound self kernel _ table h c x hx with ⟨row, hrow, hmem⟩ | hx
      · have := List.getElem?_mem hrow
        rw [(List.mem_replicate.1 this).2] at hmem
        exact absurd hmem (List.not_mem_nil x)
      · exact hx
    · exact compute_pairs_complete self kernel _ table h c x

/-! ## The work-list loop -/

/-- One iteration of the work-list loop: the pairs table of kernel `i` is
computed, new kernels `t` are appended, and kernel `i` receives the goto table
`gt` translating the rows of the pairs table. -/
theorem compute_lr0_kernels_step_spec (self : Grammar) (i : Nat) (kernel : Kernel)
    (self2 : Grammar) (h : compute_lr0_kernels_step self i kernel = some self2) :
    ∃ table t gt,
      compute_pairs self kernel (List.replicate (grammar_get_component_count self) [])
        = some table ∧
      self2 = { self with
        kernels := (self.kernels ++ t).set i { kernel with goto_table := some gt } } ∧
      (∀ K, K ∈ t → K.goto_table = none ∧ K.pairs ∈ table ∧ K.pairs ≠ []) ∧
      ((self.kernels.map Kernel.pairs).Nodup → ((self.kernels ++ t).map Kernel.pairs).Nodup) ∧
      gt.length = table.length ∧
      (∀ j, j < t.length → ∃ c : Nat, gt[c]? = some ((self.kernels.length + j : Nat) : Int)) ∧
      ∀ (c : Nat) (row : List Int), table[c]? = some row →
        (row = [] → gt[c]? = some (-1)) ∧
        (row ≠ [] → ∃ r : Nat, gt[c]? = some (r : Int) ∧
          ∃ K, (self.kernels ++ t)[r]? = some K ∧ K.pairs = row) := by
  unfold compute_lr0_kernels_step at h
  obtain ⟨table, htable, hself2⟩ := Option.map_eq_some'.1 h
  obtain ⟨t, ht, hnew, hnodup, hlen, htarget, hrows⟩ := intern_pairs_table_spec self table
  refine ⟨table, t, (intern_pairs_table self table).2, htable, ?_, hnew, hnodup, hlen, htarget,
    hrows⟩
  rw [← hself2]
  simp only [ht]

/-- A property of the grammar and the loop index that every iteration keeps
holds when the work-list loop ends, at an index past the last kernel. -/
theorem compute_lr0_kernels_loop_invariant (Inv : Grammar → Nat → Prop)
    (hstep : ∀ self i kernel self2, Inv self i → self.kernels[i]? = some kernel →
      compute_lr0_kernels_step self i kernel = some self2 → Inv self2 (i + 1))
    (fuel : Nat) (self : Grammar) (i : Nat) (self2 : Grammar) (hinv : Inv self i)
    (h : compute_lr0_kernels_loop fuel self i = some self2) :
    ∃ n, Inv self2 n ∧ self2.kernels.length ≤ n := by
  induction fuel generalizing self i with
  | zero => simp [compute_lr0_kernels_loop] at h
  | succ fuel ih =>
    unfold compute_lr0_kernels_loop at h
    cases hk : self.kernels[i]? with
    | none =>
      rw [hk] at h
      simp only at h
      cases h
      exact ⟨i, hinv, List.getElem?_eq_none_iff.1 hk⟩
    | some kernel =>
      rw [hk] at h
      simp only at h
      obtain ⟨stepped, hs, hrest⟩ := Option.bind_eq_some.1 h
      exact ih stepped (i + 1) (hstep self i kernel stepped hinv hk hs) hrest


/-- Setting the goto table of kernel `i` leaves the item arrays as they are. -/
theorem map_pairs_set (ks : List Kernel) (i : Nat) (kernel : Kernel) (gt : Option (List Int))
    (hk : ks[i]? = some kernel) :
    (ks.set i { kernel with goto_table := gt }).map Kernel.pairs = ks.map Kernel.pairs := by
  apply List.ext_getElem?
  intro j
  rw [List.getElem?_map, List.getElem?_map, List.getElem?_set]
  by_cases hij : i = j
  · subst hij
    obtain ⟨hlt, _⟩ := List.getElem?_eq_some.1 hk
    rw [if_pos rfl, if_pos hlt, hk]
    rfl
  · rw [if_neg hij]

/-- The kernels after one iteration of the work-list loop: the item arrays of
the kernels before, followed by those of the new kernels. -/
theorem compute_lr0_kernels_step_pairs (self : Grammar) (i : Nat) (kernel : Kernel)
    (t : List Kernel) (gt : Option (List Int)) (hk : self.kernels[i]? = some kernel) :
    ((self.kernels ++ t).set i { kernel with goto_table := gt }).map Kernel.pairs
      = self.kernels.map Kernel.pairs ++ t.map Kernel.pairs := by
  have hk2 : (self.kernels ++ t)[i]? = some kernel := by
    obtain ⟨hlt, _⟩ := List.getElem?_eq_some.1 hk
    rw [List.getElem?_append_left hlt]
    exact hk
  rw [map_pairs_set _ i kernel gt hk2, List.map_append]

/-- Invariants of the work-list loop that hold for every grammar: the fields
other than the kernel table are fixed, kernel 0 keeps its items, item arrays
are strictly descending and pairwise distinct. -/
theorem compute_lr0_kernels_loop_basic (fuel : Nat) (self : Grammar) (i : Nat)
    (self2 : Grammar) (first : List Int)
    (h : compute_lr0_kernels_loop fuel self i = some self2)
    (hfirst : (self.kernels.map Kernel.pairs)[0]? = some first)
    (hdesc : ∀ K, K ∈ self.kernels → K.pairs.Pairwise (fun a b => b < a))
    (hnodup : (self.kernels.map Kernel.pairs).Nodup) :
    self2 = { self with kernels := self2.kernels } ∧
    (self2.kernels.map Kernel.pairs)[0]? = some first ∧
    (∀ K, K ∈ self2.kernels → K.pairs.Pairwise (fun a b => b < a)) ∧
    (self2.kernels.map Kernel.pairs).Nodup := by
  refine Exists.elim (compute_lr0_kernels_loop_invariant
    (fun g _ => g = { self with kernels := g.kernels } ∧
      (g.kernels.map Kernel.pairs)[0]? = some first ∧
      (∀ K, K ∈ g.kernels → K.pairs.Pairwise (fun a b => b < a)) ∧
      (g.kernels.map Kernel.pairs).Nodup)
    ?_ fuel self i self2 ⟨rfl, hfirst, hdesc, hnodup⟩ h) (fun n hn => hn.1)
  intro g j kernel g2 ⟨hframe, hf, hd, hn⟩ hk hstep
  obtain ⟨table, t, gt, htable, hg2, hnew, hnodup2, _, _, _⟩ :=
    compute_lr0_kernels_step_spec g j kernel g2 hstep
  obtain ⟨_, hrows, _⟩ := compute_pairs_empty g kernel table htable
  have hpairs := compute_lr0_kernels_step_pairs g j kernel t (some gt) hk
  have hks : g2.kernels = (g.kernels ++ t).set j { kernel with goto_table := some gt } := by
    rw [hg2]
  refine ⟨?_, ?_, ?_, ?_⟩
  · rw [hg2]
    simp only
    rw [hframe]
  · rw [hks, hpairs]
    obtain ⟨hlt, _⟩ := List.getElem?_eq_some.1 hf
    rw [List.getElem?_append_left hlt]
    exact hf
  · intro K hK
    have hKp : K.pairs ∈ g2.kernels.map Kernel.pairs := List.mem_map_of_mem _ hK
    rw [hks, hpairs, List.mem_append] at hKp
    rcases hKp with hKp | hKp
    · obtain ⟨K2, hK2, hK2p⟩ := List.mem_map.1 hKp
      rw [← hK2p]
      exact hd K2 hK2
    · obtain ⟨K2, hK2, hK2p⟩ := List.mem_map.1 hKp
      rw [← hK2p]
      exact hrows _ (hnew K2 hK2).2.1
  · rw [hks, hpairs, ← List.map_append]
    exact hnodup2 hn


/-! ## Invariants of the kernels built -/

/-- The state in which the work-list loop starts, for a grammar without
kernels: the start kernel alone. -/
theorem intern_start_kernel (self : Grammar) (hempty : self.kernels = []) :
    (intern_kernel self [encode self 0 0]).1
      = { self with kernels := [kernel_alloc [encode self 0 0]] } := by
  have hs : intern_kernel_search [encode self 0 0] self.kernels 0 = none := by
    rw [hempty]
    rfl
  rw [intern_kernel_miss self [encode self 0 0] (by simp) hs, hempty]
  rfl

/-- The invariants of the work-list loop, for `compute_lr0_kernels` on a
grammar without kernels. -/
theorem compute_lr0_kernels_basic (fuel : Nat) (self self2 : Grammar)
    (hempty : self.kernels = []) (h : compute_lr0_kernels fuel self = some self2) :
    self2 = { self with kernels := self2.kernels } ∧
    (self2.kernels.map Kernel.pairs)[0]? = some [encode self 0 0] ∧
    (∀ K, K ∈ self2.kernels → K.pairs.Pairwise (fun a b => b < a)) ∧
    (self2.kernels.map Kernel.pairs).Nodup := by
  unfold compute_lr0_kernels at h
  rw [intern_start_kernel self hempty] at h
  have hb := compute_lr0_kernels_loop_basic fuel _ 0 self2 [encode self 0 0] h
    (by simp [kernel_alloc])
    (by
      intro K hK
      simp only [List.mem_singleton] at hK
      rw [hK]
      simp [kernel_alloc])
    (by simp)
  exact hb

/-- Where a pointer is as wide as an `int`: after `compute_lr0_kernels` (on the
grammar as `grammar_alloc` passes it, the kernel table still empty) the kernels
are pairwise distinct: for kernel indices i != j the item arrays differ, in
length or in some element. -/
theorem kernels_pairwise_distinct_exact (fuel : Nat) (self self2 : Grammar)
    (hempty : self.kernels = []) (h : compute_lr0_kernels fuel self = some self2)
    (i j : Nat) (Ki Kj : Kernel) (hij : i ≠ j) (hi : self2.kernels[i]? = some Ki)
    (hj : self2.kernels[j]? = some Kj) :
    Ki.pairs ≠ Kj.pairs ∧
    (Ki.pairs.length ≠ Kj.pairs.length ∨ ∃ n : Nat, Ki.pairs[n]? ≠ Kj.pairs[n]?) := by
  obtain ⟨_, _, _, hnodup⟩ := compute_lr0_kernels_basic fuel self self2 hempty h
  have hne : Ki.pairs ≠ Kj.pairs := by
    intro heq
    obtain ⟨hil, hiv⟩ := List.getElem?_eq_some.1 hi
    obtain ⟨hjl, hjv⟩ := List.getElem?_eq_some.1 hj
    have hil2 : i < (self2.kernels.map Kernel.pairs).length := by simpa using hil
    have hjl2 : j < (self2.kernels.map Kernel.pairs).length := by simpa using hjl
    have hsame : (self2.kernels.map Kernel.pairs)[i] = (self2.kernels.map Kernel.pairs)[j] := by
      rw [List.getElem_map, List.getElem_map, hiv, hjv, heq]
    exact hij ((List.Nodup.getElem_inj_iff hnodup).1 hsame)
  refine ⟨hne, ?_⟩
  by_contra hcon
  rw [not_or] at hcon
  obtain ⟨hlen, hall⟩ := hcon
  apply hne
  apply List.ext_getElem?
  intro n
  by_contra hn
  exact hall ⟨n, hn⟩

/-- Counterexample to C5 as stated: scenario C makes `grammar_alloc` return a
grammar whose kernel 1 holds the items [7, 6], and 7 < 6 fails, so the array is
not ascending. -/
theorem kernel_items_ascending_counterexample :
    grammar_alloc 20 scenario_c 2 3 = some (some scenario_c_built) ∧
    (scenario_c_built.kernels.map Kernel.pairs)[1]? = some [7, 6] ∧
    ¬ (∀ K, K ∈ scenario_c_built.kernels →
        ∀ i, i + 1 < K.pairs.length → K.pairs.getD i 0 < K.pairs.getD (i + 1) 0) := by
  refine ⟨by decide, by decide, ?_⟩
  intro hall
  have := hall { pairs := [7, 6], goto_table := some [-1, -1, -1, 4, -1] } (by decide) 0
    (by decide)
  exact absurd this (by decide)

/-- C5, amended: after `compute_lr0_kernels` (on the grammar as `grammar_alloc`
passes it, the kernel table still empty) the item array of every kernel is
strictly descending, pairs[i] > pairs[i+1] for every adjacent pair, and
therefore holds no duplicate. -/
theorem kernel_items_descending (fuel : Nat) (self self2 : Grammar)
    (hempty : self.kernels = []) (h : compute_lr0_kernels fuel self = some self2)
    (K : Kernel) (hK : K ∈ self2.kernels) :
    (∀ i, i + 1 < K.pairs.length → K.pairs.getD (i + 1) 0 < K.pairs.getD i 0) ∧
    K.pairs.Pairwise (fun a b => b < a) ∧ K.pairs.Nodup := by
  obtain ⟨_, _, hdesc, _⟩ := compute_lr0_kernels_basic fuel self self2 hempty h
  have hp := hdesc K hK
  refine ⟨?_, hp, hp.imp (fun hab => by omega)⟩
  intro i hi
  rw [List.getD_eq_getElem _ _ hi, List.getD_eq_getElem _ _ (by omega : i < K.pairs.length)]
  exact List.pairwise_iff_getElem.1 hp i (i + 1) (by omega) hi (by omega)

/-- Witness of C5 amended on scenario C, kernel 1. -/
theorem kernel_items_descending_witness :
    (∀ i, i + 1 < ([7, 6] : List Int).length →
      ([7, 6] : List Int).getD (i + 1) 0 < ([7, 6] : List Int).getD i 0) ∧
    ([7, 6] : List Int).Pairwise (fun a b => b < a) ∧ ([7, 6] : List Int).Nodup :=
  kernel_items_descending 20 scenario_c_indexed scenario_c_built (by decide) (by decide)
    { pairs := [7, 6], goto_table := some [-1, -1, -1, 4, -1] } (by decide)

/-- C6: after `compute_lr0_kernels` on any grammar (as `grammar_alloc` passes
it, the kernel table still empty), `kernel_count >= 1` and kernel 0 has exactly
one item, `encode 0 0`. -/
theorem start_kernel (fuel : Nat) (self self2 : Grammar)
    (hempty : self.kernels = []) (h : compute_lr0_kernels fuel self = some self2) :
    1 ≤ self2.kernel_count ∧
    ∃ K0, self2.kernels[0]? = some K0 ∧ K0.pairs.length = 1 ∧ K0.pairs = [encode self2 0 0] := by
  obtain ⟨hframe, hfirst, _, _⟩ := compute_lr0_kernels_basic fuel self self2 hempty h
  rw [List.getElem?_map] at hfirst
  obtain ⟨K0, hK0, hp⟩ := Option.map_eq_some'.1 hfirst
  have henc : encode self2 0 0 = encode self 0 0 := by
    rw [hframe]
    rfl
  refine ⟨?_, K0, hK0, by rw [hp]; rfl, by rw [hp, henc]⟩
  obtain ⟨hlt, _⟩ := List.getElem?_eq_some.1 hK0
  exact hlt

/-- Witness of C6 on scenario C. -/
theorem start_kernel_witness :
    1 ≤ scenario_c_built.kernel_count ∧
    ∃ K0, scenario_c_built.kernels[0]? = some K0 ∧ K0.pairs.length = 1 ∧
      K0.pairs = [encode scenario_c_built 0 0] :=
  start_kernel 20 scenario_c_indexed scenario_c_built (by decide) (by decide)


/-! ## The productions-by-nonterminal table -/

/-- The loop of `compute_productions_by_nonterminal`, from a table that groups
the productions `done` already seen: the table keeps its `nonterminal_count`
entries and groups `done ++ rest`, each group in the order of the input. -/
theorem productions_by_nonterminal_fold (N : Nat) (rest : List Production) :
    ∀ (done : List Production) (table table2 : List (Option (List Production))),
      table.length = N →
      (∀ i, i < N → table[i]? = some
        (if done.filter (fun q => decide (q.nonterminal_index = i)) = [] then none
         else some (done.filter (fun q => decide (q.nonterminal_index = i))))) →
      rest.foldlM productions_by_nonterminal_step table = some table2 →
      table2.length = N ∧
      ∀ i, i < N → table2[i]? = some
        (if (done ++ rest).filter (fun q => decide (q.nonterminal_index = i)) = [] then none
         else some ((done ++ rest).filter (fun q => decide (q.nonterminal_index = i)))) := by
  induction rest with
  | nil =>
    intro done table table2 hlen htab h
    simp only [List.foldlM_nil] at h
    cases h
    rw [List.append_nil]
    exact ⟨hlen, htab⟩
  | cons q rest ih =>
    intro done table table2 hlen htab h
    rw [List.foldlM_cons] at h
    obtain ⟨t1, hstep, hrest⟩ := Option.bind_eq_some.1 h
    have hgoal := ih (done ++ [q]) t1 table2
    rw [List.append_assoc, List.singleton_append] at hgoal
    unfold productions_by_nonterminal_step production_get_nonterminal_index at hstep
    simp only at hstep
    cases hentry : table[q.nonterminal_index]? with
    | none =>
      rw [hentry] at hstep
      exact absurd hstep (by simp)
    | some entry =>
      obtain ⟨hlt, _⟩ := List.getElem?_eq_some.1 hentry
      have hqN : q.nonterminal_index < N := by omega
      have hold := htab q.nonterminal_index hqN
      rw [hentry] at hold
      have hentry2 := Option.some.inj hold
      have ht1 : t1 = table.set q.nonterminal_index
          (some (done.filter (fun p => decide (p.nonterminal_index = q.nonterminal_index))
            ++ [q])) := by
        rw [hentry] at hstep
        cases entry with
        | none =>
          simp only at hstep
          by_cases hf : done.filter (fun p => decide (p.nonterminal_index = q.nonterminal_index))
              = []
          · rw [hf]
            exact (Option.some.inj hstep).symm
          · rw [if_neg hf] at hentry2
            exact absurd hentry2 (by simp)
        | some array =>
          simp only at hstep
          by_cases hf : done.filter (fun p => decide (p.nonterminal_index = q.nonterminal_index))
              = []
          · rw [if_pos hf] at hentry2
            exact absurd hentry2 (by simp)
          · rw [if_neg hf] at hentry2
            rw [← Option.some.inj hentry2]
            exact (Option.some.inj hstep).symm
      apply hgoal
      · rw [ht1, List.length_set, hlen]
      · intro i hi
        by_cases hiq : q.nonterminal_index = i
        · subst hiq
          rw [ht1, List.getElem?_set_self hlt, List.filter_append]
          simp
        · rw [ht1, List.getElem?_set_ne hiq, htab i hi, List.filter_append]
          have : [q].filter (fun p => decide (p.nonterminal_index = i)) = [] := by
            simp [hiq]
          rw [this, List.append_nil]
      · exact hrest

/-- `compute_productions_by_nonterminal` groups the productions by left-hand
side: entry `i` of the table is `NULL` when no production has left-hand side
`i`, and otherwise the productions with left-hand side `i`, in their order. -/
theorem compute_productions_by_nonterminal_spec (N : Nat) (productions : List Production)
    (table : List (Option (List Production)))
    (h : compute_productions_by_nonterminal N productions = some table) :
    table.length = N ∧
    ∀ i, i < N → table[i]? = some
      (if productions.filter (fun q => decide (q.nonterminal_index = i)) = [] then none
       else some (productions.filter (fun q => decide (q.nonterminal_index = i)))) := by
  have := productions_by_nonterminal_fold N productions [] (List.replicate N none) table
    (by simp) (by
      intro i hi
      simp [hi]) h
  rw [List.nil_append] at this
  exact this


/-- In a grammar whose productions carry their position as index, a production
is found at its index. -/
theorem production_at_index (productions : List Production)
    (hindex : productions.map Production.index = List.range productions.length)
    (q : Production) (hq : q ∈ productions) : productions[q.index]? = some q := by
  obtain ⟨n, hn⟩ := List.mem_iff_getElem?.1 hq
  obtain ⟨hlt, _⟩ := List.getElem?_eq_some.1 hn
  have h1 : (productions.map Production.index)[n]? = some q.index := by
    rw [List.getElem?_map, hn]
    rfl
  rw [hindex, List.getElem?_range hlt] at h1
  rw [← Option.some.inj h1]
  exact hn

/-- The entries of the productions-by-nonterminal table are productions of the
grammar, with the left-hand side of their row. -/
theorem productions_by_nonterminal_mem (N : Nat) (productions : List Production)
    (table : List (Option (List Production)))
    (h : compute_productions_by_nonterminal N productions = some table)
    (i : Nat) (probes : List Production) (hrow : table[i]? = some (some probes))
    (q : Production) : q ∈ probes ↔ q ∈ productions ∧ q.nonterminal_index = i := by
  obtain ⟨hlen, htab⟩ := compute_productions_by_nonterminal_spec N productions table h
  obtain ⟨hlt, _⟩ := List.getElem?_eq_some.1 hrow
  have hrow2 := htab i (by omega)
  rw [hrow] at hrow2
  have hrow3 := Option.some.inj hrow2
  by_cases hf : productions.filter (fun q => decide (q.nonterminal_index = i)) = []
  · rw [if_pos hf] at hrow3
    exact absurd hrow3 (by simp)
  · rw [if_neg hf] at hrow3
    rw [Option.some.inj hrow3, List.mem_filter]
    simp

/-- The production at a natural index. -/
theorem production_at_nat (self : Grammar) (p : Nat) :
    production_at self (p : Int) = self.productions[p]? := by
  unfold production_at
  rw [if_neg (by omega)]
  rfl

/-- The symbol at a natural offset. -/
theorem production_get_component_nat (production : Production) (k : Nat) :
    production_get_component production (k : Int) = production.components[k]? := by
  unfold production_get_component
  rw [if_neg (by omega)]
  rfl

/-- Decoding a valid item. -/
theorem decode_item (self : Grammar) (p k : Nat) (production : Production)
    (hp : self.productions[p]? = some production) :
    decode self (encode self (p : Int) (k : Int)) = some ((p : Int), (k : Int)) := by
  obtain ⟨hlt, _⟩ := List.getElem?_eq_some.1 hp
  have hP0 : self.production_count ≠ 0 := by
    unfold Grammar.production_count
    omega
  have hpP : (p : Int) < (self.production_count : Int) := by
    unfold Grammar.production_count
    omega
  obtain ⟨hd, hm⟩ := tdiv_tmod_encode_aux (self.production_count : Int) p k (by omega) hpP
    (by omega)
  unfold decode encode
  rw [if_neg hP0, hd, hm]
  congr 2
  omega

/-- The entries added for a kernel of valid items are valid items, when the
productions-by-nonterminal table lists productions found at their index. -/
theorem pairs_entry_valid (self : Grammar) (kernel : Kernel)
    (hk : ∀ c, c ∈ kernel.pairs → item_valid self c)
    (hpbn : ∀ (i : Nat) (probes : List Production) (q : Production),
      self.productions_by_nonterminal[i]? = some (some probes) →
      q ∈ probes → self.productions[q.index]? = some q)
    (index : Nat) (x : Int) (hx : pairs_entry self kernel index x) : item_valid self x := by
  obtain ⟨code, decoded, production, hcode, hdec, hprod, hcase⟩ := hx
  obtain ⟨p, k, hpk, production2, hp2, hklen⟩ := hk code hcode
  rw [hpk, decode_item self p k production2 hp2] at hdec
  have hdecoded := (Option.some.inj hdec).symm
  subst hdecoded
  simp only at hprod hcase
  rw [production_at_nat, hp2] at hprod
  have hsame := Option.some.inj hprod
  subst hsame
  rcases hcase with ⟨component, hcomp, _, hpair⟩ | ⟨B, generates, i, probes, probe, _, _, _, _,
    hrow, hprobe, hindex, hpair⟩
  · rw [production_get_component_nat] at hcomp
    obtain ⟨hlt, _⟩ := List.getElem?_eq_some.1 hcomp
    refine ⟨p, k + 1, ?_, production2, hp2, hlt⟩
    rw [hpair]
    push_cast
    rfl
  · have hq := hpbn i probes probe hrow hprobe
    refine ⟨probe.index, 1, ?_, probe, hq, ?_⟩
    · rw [hpair]
      rfl
    · cases hc : production_get_component probe 0 with
      | none =>
        rw [hc] at hindex
        exact absurd hindex (by simp [component_index, component_is_nonterminal])
      | some X =>
        have := production_get_component_nat probe 0
        simp only [Nat.cast_zero] at this
        rw [this] at hc
        obtain ⟨hlt, _⟩ := List.getElem?_eq_some.1 hc
        exact hlt


/-- A property of encoded items that passes from the items of a kernel to the
entries of its pairs table holds of all items of all kernels when the
work-list loop ends. -/
theorem compute_lr0_kernels_loop_items (self : Grammar) (P : Int → Prop)
    (hentry : ∀ kernel index x, (∀ c, c ∈ kernel.pairs → P c) →
      pairs_entry self kernel index x → P x)
    (fuel : Nat) (ks : List Kernel) (i : Nat) (self2 : Grammar)
    (hks : ∀ K, K ∈ ks → ∀ c, c ∈ K.pairs → P c)
    (h : compute_lr0_kernels_loop fuel { self with kernels := ks } i = some self2) :
    self2 = { self with kernels := self2.kernels } ∧
    ∀ K, K ∈ self2.kernels → ∀ c, c ∈ K.pairs → P c := by
  refine Exists.elim (compute_lr0_kernels_loop_invariant
    (fun g _ => g = { self with kernels := g.kernels } ∧
      ∀ K, K ∈ g.kernels → ∀ c, c ∈ K.pairs → P c)
    ?_ fuel { self with kernels := ks } i self2 ⟨rfl, hks⟩ h) (fun n hn => hn.1)
  intro g j kernel g2 ⟨hframe, hitems⟩ hk hstep
  obtain ⟨table, t, gt, htable, hg2, hnew, _, _, _, _⟩ :=
    compute_lr0_kernels_step_spec g j kernel g2 hstep
  obtain ⟨_, _, hhas⟩ := compute_pairs_empty g kernel table htable
  have hpairs := compute_lr0_kernels_step_pairs g j kernel t (some gt) hk
  have hkernels : g2.kernels = (g.kernels ++ t).set j { kernel with goto_table := some gt } := by
    rw [hg2]
  have hpe : pairs_entry g kernel = pairs_entry self kernel := by
    rw [hframe]
    rfl
  refine ⟨?_, ?_⟩
  · rw [hg2]
    simp only
    rw [hframe]
  · intro K hK c hc
    have hKp : K.pairs ∈ g2.kernels.map Kernel.pairs := List.mem_map_of_mem _ hK
    rw [hkernels, hpairs, List.mem_append] at hKp
    rcases hKp with hKp | hKp
    · obtain ⟨K2, hK2, hK2p⟩ := List.mem_map.1 hKp
      rw [← hK2p] at hc
      exact hitems K2 hK2 c hc
    · obtain ⟨K2, hK2, hK2p⟩ := List.mem_map.1 hKp
      rw [← hK2p] at hc
      obtain ⟨n, hn⟩ := List.mem_iff_getElem?.1 (hnew K2 hK2).2.1
      have hx : pairs_entry g kernel n c := (hhas n c).1 ⟨K2.pairs, hn, hc⟩
      rw [hpe] at hx
      exact hentry kernel n c (hitems kernel (List.getElem?_mem hk)) hx

/-- `compute_generates` changes nothing but the `generates` table. -/
theorem compute_generates_frame (fuel : Nat) (self generated : Grammar)
    (h : compute_generates fuel self = some generated) :
    generated = { self with generates := generated.generates } := by
  unfold compute_generates at h
  obtain ⟨generates, _, hg⟩ := Option.map_eq_some'.1 h
  rw [← hg]

/-! ## Construction -/

/-- A successful `grammar_alloc`: the stages it went through. -/
theorem grammar_alloc_some (fuel : Nat) (productions : List Production) (T N : Nat)
    (g : Grammar) (h : grammar_alloc fuel productions T N = some (some g)) :
    ∃ table generated,
      compute_productions_by_nonterminal N productions = some table ∧
      verify_productions_by_nonterminal
        { productions := productions, terminal_count := T, nonterminal_count := N,
          productions_by_nonterminal := table, generates := [], kernels := [] } = some 0 ∧
      compute_generates fuel
        { productions := productions, terminal_count := T, nonterminal_count := N,
          productions_by_nonterminal := table, generates := [], kernels := [] }
        = some generated ∧
      compute_lr0_kernels fuel generated = some g ∧
      (compute_propagates fuel g).isSome = true := by
  unfold grammar_alloc at h
  obtain ⟨table, htable, h⟩ := Option.bind_eq_some.1 h
  simp only at h
  obtain ⟨verified, hverified, h⟩ := Option.bind_eq_some.1 h
  by_cases hv : verified < 0
  · rw [if_pos hv] at h
    exact absurd h (by simp)
  · rw [if_neg hv] at h
    obtain ⟨generated, hgenerated, h⟩ := Option.bind_eq_some.1 h
    obtain ⟨built, hbuilt, h⟩ := Option.bind_eq_some.1 h
    obtain ⟨firsts, hfirsts, h⟩ := Option.bind_eq_some.1 h
    have hg : built = g := Option.some.inj (Option.some.inj h)
    subst hg
    refine ⟨table, generated, htable, ?_, hgenerated, hbuilt, by rw [hfirsts]; rfl⟩
    -- the verification returned 0, as it returns 0 or -1
    have hval : verified = 0 ∨ verified = -1 := by
      refine foldlM_invariant _ (fun r => r = 0 ∨ r = -1) (List.range N) ?_ 0 verified
        (Or.inl rfl) hverified
      intro b a b2 _ hb hstep
      simp only at hstep
      cases hrow : table[a]? with
      | none =>
        rw [hrow] at hstep
        exact absurd hstep (by simp)
      | some entry =>
        rw [hrow] at hstep
        cases entry with
        | none =>
          simp only at hstep
          exact Or.inr (Option.some.inj hstep).symm
        | some probes =>
          simp only at hstep
          rw [← Option.some.inj hstep]
          exact hb
    rcases hval with hval | hval
    · rw [← hval]
      exact hverified
    · rw [hval] at hv
      exact absurd (by decide) hv

/-- C7: after `compute_lr0_kernels` on a valid grammar (production 0 present,
every symbol index in range, every nonterminal has a production), that is in
the grammar `grammar_alloc` returns, every encoded item of every kernel decodes
to a pair (p, k) with 0 <= p < production_count and 0 <= k <= |rhs(p)|. -/
theorem kernel_items_valid (fuel : Nat) (productions : List Production) (T N : Nat)
    (g : Grammar) (hvalid : valid_grammar productions T N)
    (h : grammar_alloc fuel productions T N = some (some g))
    (K : Kernel) (hK : K ∈ g.kernels) (c : Int) (hc : c ∈ K.pairs) :
    ∃ p k : Int, decode g c = some (p, k) ∧ 0 ≤ p ∧ p < (g.production_count : Int) ∧ 0 ≤ k ∧
      ∃ production, g.productions[p.toNat]? = some production ∧
        k ≤ (production.components.length : Int) := by
  obtain ⟨hP, hindex, _, _⟩ := hvalid
  obtain ⟨table, generated, htable, _, hgenerated, hbuilt, _⟩ :=
    grammar_alloc_some fuel productions T N g h
  have hgen := compute_generates_frame fuel _ generated hgenerated
  simp only at hgen
  -- the invariant of the loop: every item is valid
  have hprods : generated.productions = productions := by rw [hgen]
  have hpbn : generated.productions_by_nonterminal = table := by rw [hgen]
  have hkernels : generated.kernels = [] := by rw [hgen]
  have hstart := intern_start_kernel generated hkernels
  unfold compute_lr0_kernels at hbuilt
  rw [hstart] at hbuilt
  obtain ⟨p0, hp0⟩ : ∃ p0, generated.productions[0]? = some p0 := by
    rw [hprods]
    exact ⟨productions[0], List.getElem?_eq_getElem (by omega)⟩
  obtain ⟨hframe, hitems⟩ := compute_lr0_kernels_loop_items generated (item_valid generated)
    (fun kernel index x hk hx => pairs_entry_valid generated kernel hk
      (fun i probes q hrow hq => by
        rw [hpbn] at hrow
        rw [hprods]
        exact production_at_index productions hindex q
          ((productions_by_nonterminal_mem N productions table htable i probes hrow q).1 hq).1)
      index x hx)
    fuel [kernel_alloc [encode generated 0 0]] 0 g
    (by
      intro K0 hK0 c0 hc0
      simp only [List.mem_singleton] at hK0
      rw [hK0] at hc0
      simp only [kernel_alloc, List.mem_singleton] at hc0
      exact ⟨0, 0, by rw [hc0]; rfl, p0, hp0, Nat.zero_le _⟩)
    hbuilt
  obtain ⟨p, k, hpk, production, hprod, hklen⟩ := hitems K hK c hc
  have hdec : decode g c = decode generated c := by
    rw [hframe]
    rfl
  have hgp : g.productions = generated.productions := by rw [hframe]
  obtain ⟨hlt, _⟩ := List.getElem?_eq_some.1 hprod
  refine ⟨p, k, ?_, by omega, ?_, by omega, production, ?_, by omega⟩
  · rw [hdec, hpk]
    exact decode_item generated p k production hprod
  · unfold Grammar.production_count
    rw [hgp]
    omega
  · rw [hgp]
    simpa using hprod

/-- Witness of C7 on scenario C: the item 6 of kernel 1. -/
theorem kernel_items_valid_witness :
    ∃ p k : Int, decode scenario_c_built 6 = some (p, k) ∧ 0 ≤ p ∧
      p < (scenario_c_built.production_count : Int) ∧ 0 ≤ k ∧
      ∃ production, scenario_c_built.productions[p.toNat]? = some production ∧
        k ≤ (production.components.length : Int) :=
  kernel_items_valid 20 scenario_c 2 3 scenario_c_built (by unfold valid_grammar; decide)
    (by decide) { pairs := [7, 6], goto_table := some [-1, -1, -1, 4, -1] } (by decide) 6
    (by decide)


/-! ## The `generates` table -/

/-- A loop invariant together with what each iteration establishes for its own
element. -/
theorem foldlM_reaches_inv {α β : Type} (f : β → α → Option β) (Inv : β → Prop)
    (Q : α → β → Prop) (l : List α)
    (hinv : ∀ b a b2, a ∈ l → Inv b → f b a = some b2 → Inv b2)
    (hstep : ∀ b a b2, a ∈ l → Inv b → f b a = some b2 → Q a b2)
    (hkeep : ∀ b a b2 x, a ∈ l → Inv b → f b a = some b2 → Q x b → Q x b2)
    (b b2 : β) (hb : Inv b) (h : l.foldlM f b = some b2) :
    Inv b2 ∧ ∀ a, a ∈ l → Q a b2 := by
  induction l generalizing b with
  | nil =>
    simp only [List.foldlM_nil] at h
    cases h
    exact ⟨hb, fun a ha => absurd ha (List.not_mem_nil a)⟩
  | cons a l ih =>
    rw [List.foldlM_cons] at h
    obtain ⟨b1, hfa, hrest⟩ := Option.bind_eq_some.1 h
    have hb1 : Inv b1 := hinv b a b1 (List.mem_cons_self a l) hb hfa
    obtain ⟨hI, hQ⟩ := ih (fun b a2 b3 ha2 => hinv b a2 b3 (List.mem_cons_of_mem a ha2))
      (fun b a2 b3 ha2 => hstep b a2 b3 (List.mem_cons_of_mem a ha2))
      (fun b a2 b3 y ha2 => hkeep b a2 b3 y (List.mem_cons_of_mem a ha2)) b1 hb1 hrest
    refine ⟨hI, ?_⟩
    intro x hx
    rcases List.mem_cons.1 hx with hx | hx
    · subst hx
      have hq : Q x b1 := hstep b x b1 (List.mem_cons_self x l) hb hfa
      have := foldlM_invariant f (fun t => Inv t ∧ Q x t) l
        (fun b a2 b3 ha2 hIQ hf2 =>
          ⟨hinv b a2 b3 (List.mem_cons_of_mem _ ha2) hIQ.1 hf2,
            hkeep b a2 b3 x (List.mem_cons_of_mem _ ha2) hIQ.1 hf2 hIQ.2⟩)
        b1 b2 ⟨hb1, hq⟩ hrest
      exact this.2
    · exact hQ x hx

/-- Nothing extends a table of the right shape to itself. -/
theorem generates_extends_refl (N : Nat) (t : List (Option (List Bool)))
    (ht : generates_shape N t) : generates_extends N t t :=
  ⟨ht, fun _ _ h => h, fun i j k hij hjk hnew => by
    rcases hnew with h | h
    · exact absurd hij h
    · exact absurd hjk h⟩

/-- Runs of calls of `mark_generates` compose. -/
theorem generates_extends_trans (N : Nat) (t1 t2 t3 : List (Option (List Bool)))
    (h12 : generates_extends N t1 t2) (h23 : generates_extends N t2 t3) :
    generates_extends N t1 t3 := by
  obtain ⟨_, hm12, hp12⟩ := h12
  obtain ⟨hs3, hm23, hp23⟩ := h23
  refine ⟨hs3, fun x y h => hm23 x y (hm12 x y h), ?_⟩
  intro i j k hij hjk hnew
  by_cases h2 : generates_rel t2 i j ∧ generates_rel t2 j k
  · exact hm23 i k (hp12 i j k h2.1 h2.2 hnew)
  · rw [not_and_or] at h2
    exact hp23 i j k hij hjk h2

/-- A cell that is set lies inside the table. -/
theorem generates_rel_lt (N : Nat) (t : List (Option (List Bool))) (ht : generates_shape N t)
    (x y : Nat) (h : generates_rel t x y) : x < N ∧ y < N := by
  obtain ⟨htl, htr⟩ := ht
  obtain ⟨row, hrow, hcell⟩ := h
  obtain ⟨hlt, _⟩ := List.getElem?_eq_some.1 hrow
  refine ⟨by rw [← htl]; exact hlt, ?_⟩
  cases row with
  | none => simp [generates_cell] at hcell
  | some cells =>
    have hlen := htr x cells hrow
    unfold generates_cell at hcell
    simp only at hcell
    by_contra hy
    rw [List.getD_eq_default _ _ (by omega)] at hcell
    exact absurd hcell (by simp)

/-- Setting a cell: the table keeps its shape and gains exactly that cell. -/
theorem set_generates_spec (N : Nat) (t t2 : List (Option (List Bool))) (a b : Nat)
    (ht : generates_shape N t) (h : set_generates N t a b = some t2) :
    generates_shape N t2 ∧
    ∀ x y, generates_rel t2 x y ↔ generates_rel t x y ∨ (x = a ∧ y = b) := by
  obtain ⟨htl, htr⟩ := ht
  unfold set_generates at h
  cases hrow : t[a]? with
  | none =>
    rw [hrow] at h
    exact absurd h (by simp)
  | some row =>
    rw [hrow] at h
    simp only at h
    obtain ⟨halt, _⟩ := List.getElem?_eq_some.1 hrow
    have hcells : (row.getD (List.replicate N false)).length = N := by
      cases row with
      | none => simp
      | some cells => exact htr a cells hrow
    by_cases hb : b < (row.getD (List.replicate N false)).length
    · rw [if_pos hb] at h
      have ht2 := (Option.some.inj h).symm
      subst ht2
      constructor
      · unfold generates_shape
        constructor
        · rw [List.length_set]
          exact htl
        · intro x cells hx
          rw [List.getElem?_set] at hx
          by_cases hax : a = x
          · rw [if_pos hax, if_pos halt] at hx
            rw [← Option.some.inj (Option.some.inj hx), List.length_set]
            exact hcells
          · rw [if_neg hax] at hx
            exact htr x cells hx
      · intro x y
        unfold generates_rel
        by_cases hax : a = x
        · subst hax
          rw [List.getElem?_set_self halt, hrow]
          constructor
          · rintro ⟨r, hr, hcell⟩
            rw [← Option.some.inj hr] at hcell
            unfold generates_cell at hcell
            simp only at hcell
            by_cases hby : b = y
            · exact Or.inr ⟨rfl, hby.symm⟩
            · left
              refine ⟨row, rfl, ?_⟩
              rw [List.getD_eq_getElem?_getD, List.getElem?_set_ne hby] at hcell
              cases row with
              | none =>
                simp at hcell
              | some cells =>
                unfold generates_cell
                simp only
                rw [List.getD_eq_getElem?_getD]
                exact hcell
          · rintro (⟨r, hr, hcell⟩ | ⟨_, hy⟩)
            · refine ⟨_, rfl, ?_⟩
              rw [← Option.some.inj hr] at hcell
              unfold generates_cell
              simp only
              cases row with
              | none => simp [generates_cell] at hcell
              | some cells =>
                unfold generates_cell at hcell
                simp only at hcell
                by_cases hby : b = y
                · subst hby
                  rw [List.getD_eq_getElem?_getD, List.getElem?_set_self hb]
                  rfl
                · rw [List.getD_eq_getElem?_getD, List.getElem?_set_ne hby,
                    ← List.getD_eq_getElem?_getD]
                  exact hcell
            · refine ⟨_, rfl, ?_⟩
              subst hy
              unfold generates_cell
              simp only
              rw [List.getD_eq_getElem?_getD, List.getElem?_set_self hb]
              rfl
        · rw [List.getElem?_set_ne hax]
          constructor
          · exact Or.inl
          · rintro (h | ⟨h, _⟩)
            · exact h
            · exact absurd h.symm hax
    · rw [if_neg hb] at h
      exact absurd h (by simp)


/-- The first loop of `mark_generates`, given what the recursive calls do:
every nonterminal that generated `a` before the loop generates `b` after it. -/
theorem mark_generates_loop1 (fuel N a b : Nat)
    (hmark : ∀ gen x y gen2, generates_shape N gen →
      mark_generates fuel N gen x y = some gen2 →
      generates_extends N gen gen2 ∧ generates_rel gen2 x y ∧ generates_sound gen gen2 x y)
    (marked propagated : List (Option (List Bool))) (hs : generates_shape N marked)
    (hab : generates_rel marked a b)
    (h : (List.range N).foldlM
      (fun (table : List (Option (List Bool))) (index : Nat) =>
        match table[index]? with
        | none => none
        | some row =>
          if generates_cell row a then mark_generates fuel N table index b
          else some table)
      marked = some propagated) :
    generates_extends N marked propagated ∧
    (∀ index, generates_rel marked index a → generates_rel propagated index b) ∧
    ∀ S : Nat → Nat → Prop, (∀ x y z, S x y → S y z → S x z) →
      (∀ x y, generates_rel marked x y → S x y) →
      ∀ x y, generates_rel propagated x y → S x y := by
  have key := foldlM_reaches_inv _
    (fun cur => generates_extends N marked cur ∧
      ∀ S : Nat → Nat → Prop, (∀ x y z, S x y → S y z → S x z) →
        (∀ x y, generates_rel marked x y → S x y) → ∀ x y, generates_rel cur x y → S x y)
    (fun index cur => generates_rel marked index a → generates_rel cur index b)
    (List.range N) ?_ ?_ ?_ marked propagated
    ⟨generates_extends_refl N marked hs, fun S _ hS => hS⟩ h
  · obtain ⟨⟨hext, hsound⟩, hreach⟩ := key
    refine ⟨hext, ?_, hsound⟩
    intro index hia
    exact hreach index (List.mem_range.2 (generates_rel_lt N marked hs index a hia).1) hia
  · -- the invariant
    intro cur index cur2 _ ⟨hext, hsound⟩ hstep
    cases hrow : cur[index]? with
    | none =>
      rw [hrow] at hstep
      exact absurd hstep (by simp)
    | some row =>
      rw [hrow] at hstep
      simp only at hstep
      by_cases hcell : generates_cell row a = true
      · rw [if_pos hcell] at hstep
        obtain ⟨hext2, _, hsound2⟩ := hmark cur index b cur2 hext.1 hstep
        refine ⟨generates_extends_trans N marked cur cur2 hext hext2, ?_⟩
        intro S htrans hS
        have hcur := hsound S htrans hS
        exact hsound2 S htrans hcur
          (htrans index a b (hcur index a ⟨row, hrow, hcell⟩) (hS a b hab))
      · rw [if_neg hcell] at hstep
        cases hstep
        exact ⟨hext, hsound⟩
  · -- what the iteration at `index` establishes
    intro cur index cur2 _ ⟨hext, _⟩ hstep hia
    obtain ⟨row, hrow, hcell⟩ := hext.2.1 index a hia
    rw [hrow] at hstep
    simp only at hstep
    rw [if_pos hcell] at hstep
    exact (hmark cur index b cur2 hext.1 hstep).2.1
  · -- later iterations keep it
    intro cur index cur2 x _ ⟨hext, _⟩ hstep hq hxa
    cases hrow : cur[index]? with
    | none =>
      rw [hrow] at hstep
      exact absurd hstep (by simp)
    | some row =>
      rw [hrow] at hstep
      simp only at hstep
      by_cases hcell : generates_cell row a = true
      · rw [if_pos hcell] at hstep
        exact (hmark cur index b cur2 hext.1 hstep).1.2.1 x b (hq hxa)
      · rw [if_neg hcell] at hstep
        cases hstep
        exact hq hxa

/-- The second loop of `mark_generates`, given what the recursive calls do:
`a` generates after the loop every nonterminal that `b` generated before it. -/
theorem mark_generates_loop2 (fuel N a b : Nat)
    (hmark : ∀ gen x y gen2, generates_shape N gen →
      mark_generates fuel N gen x y = some gen2 →
      generates_extends N gen gen2 ∧ generates_rel gen2 x y ∧ generates_sound gen gen2 x y)
    (propagated final : List (Option (List Bool))) (hs : generates_shape N propagated)
    (hab : generates_rel propagated a b)
    (h : (List.range N).foldlM
      (fun (table : List (Option (List Bool))) (index : Nat) =>
        match table[b]? with
        | some (some cells) =>
          if cells.getD index false then mark_generates fuel N table a index
          else some table
        | _ => none)
      propagated = some final) :
    generates_extends N propagated final ∧
    (∀ index, generates_rel propagated b index → generates_rel final a index) ∧
    ∀ S : Nat → Nat → Prop, (∀ x y z, S x y → S y z → S x z) →
      (∀ x y, generates_rel propagated x y → S x y) →
      ∀ x y, generates_rel final x y → S x y := by
  have key := foldlM_reaches_inv _
    (fun cur => generates_extends N propagated cur ∧
      ∀ S : Nat → Nat → Prop, (∀ x y z, S x y → S y z → S x z) →
        (∀ x y, generates_rel propagated x y → S x y) → ∀ x y, generates_rel cur x y → S x y)
    (fun index cur => generates_rel propagated b index → generates_rel cur a index)
    (List.range N) ?_ ?_ ?_ propagated final
    ⟨generates_extends_refl N propagated hs, fun S _ hS => hS⟩ h
  · obtain ⟨⟨hext, hsound⟩, hreach⟩ := key
    refine ⟨hext, ?_, hsound⟩
    intro index hbi
    exact hreach index (List.mem_range.2 (generates_rel_lt N propagated hs b index hbi).2) hbi
  · -- the invariant
    intro cur index cur2 _ ⟨hext, hsound⟩ hstep
    cases hrow : cur[b]? with
    | none =>
      rw [hrow] at hstep
      exact absurd hstep (by simp)
    | some row =>
      cases row with
      | none =>
        rw [hrow] at hstep
        exact absurd hstep (by simp)
      | some cells =>
        rw [hrow] at hstep
        simp only at hstep
        by_cases hcell : cells.getD index false = true
        · rw [if_pos hcell] at hstep
          obtain ⟨hext2, _, hsound2⟩ := hmark cur a index cur2 hext.1 hstep
          refine ⟨generates_extends_trans N propagated cur cur2 hext hext2, ?_⟩
          intro S htrans hS
          have hcur := hsound S htrans hS
          exact hsound2 S htrans hcur
            (htrans a b index (hS a b hab) (hcur b index ⟨some cells, hrow, hcell⟩))
        · rw [if_neg hcell] at hstep
          cases hstep
          exact ⟨hext, hsound⟩
  · -- what the iteration at `index` establishes
    intro cur index cur2 _ ⟨hext, _⟩ hstep hbi
    obtain ⟨row, hrow, hcell⟩ := hext.2.1 b index hbi
    cases row with
    | none => simp [generates_cell] at hcell
    | some cells =>
      rw [hrow] at hstep
      simp only at hstep
      unfold generates_cell at hcell
      simp only at hcell
      rw [if_pos hcell] at hstep
      exact (hmark cur a index cur2 hext.1 hstep).2.1
  · -- later iterations keep it
    intro cur index cur2 x _ ⟨hext, _⟩ hstep hq hbx
    cases hrow : cur[b]? with
    | none =>
      rw [hrow] at hstep
      exact absurd hstep (by simp)
    | some row =>
      cases row with
      | none =>
        rw [hrow] at hstep
        exact absurd hstep (by simp)
      | some cells =>
        rw [hrow] at hstep
        simp only at hstep
        by_cases hcell : cells.getD index false = true
        · rw [if_pos hcell] at hstep
          exact (hmark cur a index cur2 hext.1 hstep).1.2.1 a x (hq hbx)
        · rw [if_neg hcell] at hstep
          cases hstep
          exact hq hbx


/-- What a call of `mark_generates` does: the cell (a, b) is set, the table
keeps its shape and its cells, every pair of cells (i, j), (j, k) with a new
member is followed by (i, k), and only cells forced by transitivity are set. -/
theorem mark_generates_spec (fuel N : Nat) :
    ∀ (gen : List (Option (List Bool))) (a b : Nat) (gen2 : List (Option (List Bool))),
      generates_shape N gen → mark_generates fuel N gen a b = some gen2 →
      generates_extends N gen gen2 ∧ generates_rel gen2 a b ∧ generates_sound gen gen2 a b := by
  induction fuel with
  | zero =>
    intro gen a b gen2 _ h
    simp [mark_generates] at h
  | succ fuel ih =>
    intro gen a b gen2 hs h
    unfold mark_generates at h
    cases hrow : gen[a]? with
    | none =>
      rw [hrow] at h
      exact absurd h (by simp)
    | some row =>
      rw [hrow] at h
      simp only at h
      by_cases hcell : generates_cell row b = true
      · -- the cell is set already
        rw [if_pos hcell] at h
        cases h
        exact ⟨generates_extends_refl N gen hs, ⟨row, hrow, hcell⟩, fun S _ hS _ => hS⟩
      · rw [if_neg hcell] at h
        obtain ⟨marked, hmarked, h⟩ := Option.bind_eq_some.1 h
        obtain ⟨propagated, hloop1, h⟩ := Option.bind_eq_some.1 h
        obtain ⟨hs1, hrel1⟩ := set_generates_spec N gen marked a b hs hmarked
        have hab1 : generates_rel marked a b := (hrel1 a b).2 (Or.inr ⟨rfl, rfl⟩)
        obtain ⟨hext1, hreach1, hsound1⟩ :=
          mark_generates_loop1 fuel N a b ih marked propagated hs1 hab1 hloop1
        have habp : generates_rel propagated a b := hext1.2.1 a b hab1
        -- the second loop, which is skipped when row `b` is `NULL`
        have hsecond : generates_extends N propagated gen2 ∧
            (∀ index, generates_rel propagated b index → generates_rel gen2 a index) ∧
            ∀ S : Nat → Nat → Prop, (∀ x y z, S x y → S y z → S x z) →
              (∀ x y, generates_rel propagated x y → S x y) →
              ∀ x y, generates_rel gen2 x y → S x y := by
          cases hrowb : propagated[b]? with
          | none =>
            rw [hrowb] at h
            exact absurd h (by simp)
          | some rowb =>
            cases rowb with
            | none =>
              rw [hrowb] at h
              simp only at h
              have hg : propagated = gen2 := Option.some.inj h
              rw [← hg]
              refine ⟨generates_extends_refl N propagated hext1.1, ?_, fun S _ hS => hS⟩
              rintro index ⟨r, hr, hc⟩
              rw [hrowb] at hr
              rw [← Option.some.inj hr] at hc
              simp [generates_cell] at hc
            | some cells =>
              rw [hrowb] at h
              simp only at h
              exact mark_generates_loop2 fuel N a b ih propagated gen2 hext1.1 habp h
        obtain ⟨hext2, hreach2, hsound2⟩ := hsecond
        have hext12 := generates_extends_trans N marked propagated gen2 hext1 hext2
        refine ⟨⟨hext2.1, ?_, ?_⟩, hext12.2.1 a b hab1, ?_⟩
        · intro x y hxy
          exact hext12.2.1 x y ((hrel1 x y).2 (Or.inl hxy))
        · intro i j k hij hjk hnew
          by_cases hboth : generates_rel marked i j ∧ generates_rel marked j k
          · -- both cells were there after the marking: one of them is (a, b)
            obtain ⟨hmij, hmjk⟩ := hboth
            rcases (hrel1 i j).1 hmij with hoij | ⟨hia, hjb⟩
            · rcases (hrel1 j k).1 hmjk with hojk | ⟨hja, hkb⟩
              · rcases hnew with hn | hn
                · exact absurd hoij hn
                · exact absurd hojk hn
              · -- (j, k) = (a, b): the first loop marks (i, b)
                subst hja
                subst hkb
                exact hext2.2.1 i k (hreach1 i hmij)
            · -- (i, j) = (a, b): the second loop marks (a, k)
              subst hia
              subst hjb
              exact hreach2 k (hext1.2.1 j k hmjk)
          · rw [not_and_or] at hboth
            exact hext12.2.2 i j k hij hjk hboth
        · intro S htrans hS hSab
          have hm : ∀ x y, generates_rel marked x y → S x y := by
            intro x y hxy
            rcases (hrel1 x y).1 hxy with h1 | ⟨hx, hy⟩
            · exact hS x y h1
            · rw [hx, hy]
              exact hSab
          exact hsound2 S htrans (hsound1 S htrans hm)


/-- What one iteration of `compute_generates` does, on a transitively closed
table within the transitive closure of the leftmost relation. -/
theorem compute_generates_step_spec (fuel N : Nat) (productions : List Production)
    (t t2 : List (Option (List Bool))) (q : Production) (hq : q ∈ productions)
    (hs : generates_shape N t)
    (hclosed : ∀ i j k, generates_rel t i j → generates_rel t j k → generates_rel t i k)
    (hsound : ∀ x y, generates_rel t x y → Relation.TransGen (leftmost productions) x y)
    (h : compute_generates_step fuel N t q = some t2) :
    (generates_shape N t2 ∧
      (∀ i j k, generates_rel t2 i j → generates_rel t2 j k → generates_rel t2 i k) ∧
      (∀ x y, generates_rel t2 x y → Relation.TransGen (leftmost productions) x y)) ∧
    (∀ x y, generates_rel t x y → generates_rel t2 x y) ∧
    q.components ≠ [] ∧
    ∀ b, q.components[0]? = some (Component.nonterminal b) →
      generates_rel t2 q.nonterminal_index b := by
  unfold compute_generates_step at h
  simp only at h
  obtain ⟨is_nonterminal, hisnt, h⟩ := Option.bind_eq_some.1 h
  have hcomp0 : production_get_component q 0 = q.components[0]? := by
    have := production_get_component_nat q 0
    simpa using this
  rw [hcomp0] at hisnt h
  cases hX : q.components[0]? with
  | none =>
    rw [hX] at hisnt
    exact absurd hisnt (by simp [component_is_nonterminal])
  | some X =>
    have hne : q.components ≠ [] := by
      intro hnil
      rw [hnil] at hX
      exact absurd hX (by simp)
    rw [hX] at hisnt h
    cases X with
    | terminal index =>
      have : is_nonterminal = false := by
        simp only [component_is_nonterminal, Option.some.injEq] at hisnt
        exact hisnt.symm
      subst this
      simp only [Bool.false_eq_true, if_false] at h
      have ht : t = t2 := Option.some.inj h
      subst ht
      exact ⟨⟨hs, hclosed, hsound⟩, fun _ _ hxy => hxy, hne, fun b hb => by
        exact absurd (Option.some.inj hb) (by simp)⟩
    | nonterminal index =>
      have : is_nonterminal = true := by
        simp only [component_is_nonterminal, Option.some.injEq] at hisnt
        exact hisnt.symm
      subst this
      simp only [if_true] at h
      obtain ⟨index2, hindex2, h⟩ := Option.bind_eq_some.1 h
      simp only [component_get_index, Option.some.injEq] at hindex2
      subst hindex2
      unfold production_get_nonterminal_index at h
      obtain ⟨⟨hs2, hmono, hpost⟩, hrel, hsnd⟩ :=
        mark_generates_spec fuel N t q.nonterminal_index index t2 hs h
      refine ⟨⟨hs2, ?_, ?_⟩, hmono, hne, ?_⟩
      · intro i j k hij hjk
        by_cases hold : generates_rel t i j ∧ generates_rel t j k
        · exact hmono i k (hclosed i j k hold.1 hold.2)
        · rw [not_and_or] at hold
          exact hpost i j k hij hjk hold
      · exact hsnd (Relation.TransGen (leftmost productions))
          (fun x y z hxy hyz => Relation.TransGen.trans hxy hyz) hsound
          (Relation.TransGen.single ⟨q, hq, rfl, hX⟩)
      · intro b hb
        have hbi : index = b := by
          have := Option.some.inj hb
          simpa using this
        rw [← hbi]
        exact hrel

/-- `compute_generates` leaves in the `generates` table the transitive closure
of the leftmost relation; it only returns when no production is empty. -/
theorem compute_generates_spec (fuel : Nat) (self generated : Grammar)
    (h : compute_generates fuel self = some generated) :
    generates_shape self.nonterminal_count generated.generates ∧
    (∀ q, q ∈ self.productions → q.components ≠ []) ∧
    ∀ a b, generates_rel generated.generates a b ↔
      Relation.TransGen (leftmost self.productions) a b := by
  unfold compute_generates at h
  obtain ⟨generates, hfold, hg⟩ := Option.map_eq_some'.1 h
  have hgen : generated.generates = generates := by rw [← hg]
  rw [hgen]
  have key := foldlM_reaches_inv (compute_generates_step fuel self.nonterminal_count)
    (fun t => generates_shape self.nonterminal_count t ∧
      (∀ i j k, generates_rel t i j → generates_rel t j k → generates_rel t i k) ∧
      (∀ x y, generates_rel t x y → Relation.TransGen (leftmost self.productions) x y))
    (fun q t => q.components ≠ [] ∧
      ∀ b, q.components[0]? = some (Component.nonterminal b) →
        generates_rel t q.nonterminal_index b)
    self.productions
    (fun t q t2 hq ⟨hs, hc, hsd⟩ hstep =>
      (compute_generates_step_spec fuel _ self.productions t t2 q hq hs hc hsd hstep).1)
    (fun t q t2 hq ⟨hs, hc, hsd⟩ hstep =>
      (compute_generates_step_spec fuel _ self.productions t t2 q hq hs hc hsd hstep).2.2)
    (fun t q t2 x hq ⟨hs, hc, hsd⟩ hstep hQ =>
      ⟨hQ.1, fun b hb =>
        (compute_generates_step_spec fuel _ self.productions t t2 q hq hs hc hsd hstep).2.1 _ _
          (hQ.2 b hb)⟩)
    (List.replicate self.nonterminal_count none) generates ?_ hfold
  · obtain ⟨⟨hs, hclosed, hsound⟩, hreach⟩ := key
    refine ⟨hs, fun q hq => (hreach q hq).1, ?_⟩
    intro a b
    constructor
    · exact hsound a b
    · intro hab
      induction hab with
      | single hl =>
        obtain ⟨q, hq, hqa, hqb⟩ := hl
        rw [← hqa]
        exact (hreach q hq).2 _ hqb
      | tail _ hl ih =>
        obtain ⟨q, hq, hqa, hqb⟩ := hl
        refine hclosed _ _ _ ih ?_
        rw [← hqa]
        exact (hreach q hq).2 _ hqb
  · have hempty : ∀ x y, ¬ generates_rel (List.replicate self.nonterminal_count none) x y := by
      rintro x y ⟨row, hrow, hcell⟩
      have := List.getElem?_mem hrow
      rw [(List.mem_replicate.1 this).2] at hcell
      simp [generates_cell] at hcell
    refine ⟨⟨by simp, ?_⟩, fun i j k h1 => absurd h1 (hempty i j), fun x y h1 =>
      absurd h1 (hempty x y)⟩
    intro a cells ha
    have := List.getElem?_mem ha
    exact absurd (List.mem_replicate.1 this).2 (by simp)


/-! ## The goto tables -/

/-- The work-list loop gives every kernel it has passed its goto table, as
`goto_processed` describes it; when it ends it has passed every kernel. -/
theorem compute_lr0_kernels_loop_goto (self : Grammar) (fuel : Nat) (ks : List Kernel)
    (i : Nat) (self2 : Grammar) (hproc : goto_processed self ks i)
    (h : compute_lr0_kernels_loop fuel { self with kernels := ks } i = some self2) :
    goto_processed self self2.kernels self2.kernels.length := by
  refine Exists.elim (compute_lr0_kernels_loop_invariant
    (fun g n => g = { self with kernels := g.kernels } ∧ goto_processed self g.kernels n)
    ?_ fuel { self with kernels := ks } i self2 ⟨rfl, hproc⟩ h)
    (fun n hn j K hj hK => hn.1.2 j K (by
      obtain ⟨hlt, _⟩ := List.getElem?_eq_some.1 hK
      omega) hK)
  intro g n kernel g2 ⟨hframe, hinv⟩ hk hstep
  obtain ⟨table, t, gt, htable, hg2, _, _, hgtlen, _, hrows⟩ :=
    compute_lr0_kernels_step_spec g n kernel g2 hstep
  obtain ⟨htlen, _, hhas⟩ := compute_pairs_empty g kernel table htable
  have hpairs := compute_lr0_kernels_step_pairs g n kernel t (some gt) hk
  have hkernels : g2.kernels = (g.kernels ++ t).set n { kernel with goto_table := some gt } := by
    rw [hg2]
  have hpe : pairs_entry g kernel = pairs_entry self kernel := by
    rw [hframe]
    rfl
  have hcount : grammar_get_component_count g = grammar_get_component_count self := by
    rw [hframe]
    rfl
  obtain ⟨hnlt, _⟩ := List.getElem?_eq_some.1 hk
  have hgrow : ∀ (r : Nat) (row : List Int), (g.kernels.map Kernel.pairs)[r]? = some row →
      (g2.kernels.map Kernel.pairs)[r]? = some row := by
    intro r row hr
    obtain ⟨hrlt, _⟩ := List.getElem?_eq_some.1 hr
    rw [hkernels, hpairs, List.getElem?_append_left hrlt]
    exact hr
  refine ⟨?_, ?_⟩
  · rw [hg2]
    simp only
    rw [hframe]
  · intro j K hj hK
    by_cases hjn : j = n
    · -- the kernel that has just received its goto table
      subst hjn
      rw [hkernels, List.getElem?_set_self (by rw [List.length_append]; omega)] at hK
      have hKeq := (Option.some.inj hK).symm
      subst hKeq
      refine ⟨gt, rfl, by rw [hgtlen, htlen, hcount], ?_⟩
      intro c hc
      have hclt : c < table.length := by rw [htlen, hcount]; exact hc
      have hrow : table[c]? = some table[c] := List.getElem?_eq_getElem hclt
      obtain ⟨hnil, hcons⟩ := hrows c table[c] hrow
      have hentry : ∀ x, x ∈ table[c] ↔
          pairs_entry self { kernel with goto_table := some gt } c x := by
        intro x
        have : pairs_entry self { kernel with goto_table := some gt } c x
            ↔ pairs_entry g kernel c x := by
          rw [hpe]
          exact Iff.rfl
        rw [this, ← hhas c x]
        constructor
        · intro hx
          exact ⟨table[c], hrow, hx⟩
        · rintro ⟨row, hr, hx⟩
          rw [hrow] at hr
          rw [Option.some.inj hr]
          exact hx
      by_cases hempty : table[c] = []
      · left
        refine ⟨hnil hempty, ?_⟩
        intro x hx
        have := (hentry x).2 hx
        rw [hempty] at this
        exact absurd this (List.not_mem_nil x)
      · right
        obtain ⟨r, hr, K2, hK2, hK2p⟩ := hcons hempty
        refine ⟨r, table[c], hr, ?_, hempty, hentry⟩
        rw [hkernels, hpairs, ← List.map_append, List.getElem?_map, hK2, ← hK2p]
        rfl
    · -- an earlier kernel keeps its goto table
      have hjlt : j < n := by omega
      rw [hkernels, List.getElem?_set_ne (fun h => hjn h.symm),
        List.getElem?_append_left (by omega)] at hK
      obtain ⟨gt2, hgt2, hlen2, hall⟩ := hinv j K hjlt hK
      refine ⟨gt2, hgt2, hlen2, ?_⟩
      intro c hc
      rcases hall c hc with hneg | ⟨r, row, hr, hrow, hne, hiff⟩
      · exact Or.inl hneg
      · exact Or.inr ⟨r, row, hr, hgrow r row hrow, hne, hiff⟩


/-! ## The pairs table against the closure of the specification -/

/-- The productions of every nonterminal reached, along the leftmost relation,
from the nonterminal after the dot of an item of the closure are in the
closure, with the dot at the start. -/
theorem lr0_closure_reaches (self : Grammar) (items : List Int)
    (hindex : self.productions.map Production.index = List.range self.productions.length)
    (p k B : Nat) (production : Production) (hpk : lr0_closure self items p k)
    (hp : self.productions[p]? = some production)
    (hB : production.components[k]? = some (Component.nonterminal B))
    (i : Nat) (hchain : Relation.ReflTransGen (leftmost self.productions) B i)
    (probe : Production) (hprobe : probe ∈ self.productions)
    (hlhs : probe.nonterminal_index = i) : lr0_closure self items probe.index 0 := by
  induction hchain generalizing probe with
  | refl =>
    exact lr0_closure.step p k B probe.index production probe hpk hp hB
      (production_at_index self.productions hindex probe hprobe) hlhs
  | tail _ hlast ih =>
    obtain ⟨q, hq, hqlhs, hq0⟩ := hlast
    have hqc := ih q hq hqlhs
    exact lr0_closure.step q.index 0 _ probe.index q probe hqc
      (production_at_index self.productions hindex q hq) hq0
      (production_at_index self.productions hindex probe hprobe) hlhs

/-- An item of the closure is an item of the kernel, or a production, with the
dot at the start, of a nonterminal reached along the leftmost relation from the
nonterminal after the dot of an item of the kernel. -/
theorem lr0_closure_cases (self : Grammar) (items : List Int) (p k : Nat)
    (h : lr0_closure self items p k) :
    (∃ code, code ∈ items ∧ decode self code = some ((p : Int), (k : Int))) ∨
    (k = 0 ∧ ∃ (code : Int) (p0 k0 B : Nat) (production0 probe : Production),
      code ∈ items ∧ decode self code = some ((p0 : Int), (k0 : Int)) ∧
      self.productions[p0]? = some production0 ∧
      production0.components[k0]? = some (Component.nonterminal B) ∧
      self.productions[p]? = some probe ∧
      Relation.ReflTransGen (leftmost self.productions) B probe.nonterminal_index) := by
  induction h with
  | kernel code p k hcode hdec => exact Or.inl ⟨code, hcode, hdec⟩
  | step p k B q production probe _ hp hB hq hlhs ih =>
    right
    refine ⟨rfl, ?_⟩
    rcases ih with ⟨code, hcode, hdec⟩ | ⟨hk0, code, p0, k0, B0, production0, probe0, hcode, hdec,
      hp0, hB0, hprobe0, hchain⟩
    · exact ⟨code, p, k, B, production, probe, hcode, hdec, hp, hB, hq, by
        rw [hlhs]⟩
    · subst hk0
      rw [hp] at hprobe0
      have hsame := Option.some.inj hprobe0
      subst hsame
      refine ⟨code, p0, k0, B0, production0, probe, hcode, hdec, hp0, hB0, hq, ?_⟩
      rw [hlhs]
      exact Relation.ReflTransGen.tail hchain ⟨production, List.getElem?_mem hp, rfl, hB⟩

/-- The entries of the pairs table of a kernel are the shift of the closure of
the kernel, in a grammar whose productions carry their position as index, whose
symbols are in range, whose productions-by-nonterminal table groups the
productions and whose `generates` table holds the transitive closure of the
leftmost relation. -/
theorem pairs_entry_iff_goto_items (self : Grammar) (kernel : Kernel)
    (hindex : self.productions.map Production.index = List.range self.productions.length)
    (hrange : ∀ q, q ∈ self.productions → q.nonterminal_index < self.nonterminal_count ∧
      ∀ X, X ∈ q.components →
        component_in_range self.terminal_count self.nonterminal_count X)
    (hpbn : compute_productions_by_nonterminal self.nonterminal_count self.productions
      = some self.productions_by_nonterminal)
    (hshape : generates_shape self.nonterminal_count self.generates)
    (hgen : ∀ a b, generates_rel self.generates a b ↔
      Relation.TransGen (leftmost self.productions) a b)
    (hk : ∀ c, c ∈ kernel.pairs → item_valid self c) (c : Nat) (x : Int) :
    pairs_entry self kernel c x ↔ goto_items self kernel.pairs c x := by
  constructor
  · rintro ⟨code, decoded, production, hcode, hdec, hprod, hcase⟩
    obtain ⟨p, k, hpk, production2, hp2, _⟩ := hk code hcode
    have hdec2 := decode_item self p k production2 hp2
    rw [← hpk, hdec] at hdec2
    have hdecoded := Option.some.inj hdec2
    subst hdecoded
    simp only at hprod hcase
    rw [production_at_nat, hp2] at hprod
    have hsame := Option.some.inj hprod
    subst hsame
    have hclosure : lr0_closure self kernel.pairs p k := lr0_closure.kernel code p k hcode hdec
    rcases hcase with ⟨component, hcomp, hci, hpair⟩ | ⟨B, generates, i, probes, probe, hcomp,
      hrow, _, hcond, hprobes, hprobe, hci, hpair⟩
    · rw [production_get_component_nat] at hcomp
      exact ⟨p, k, production2, component, hclosure, hp2, hcomp, hci, hpair⟩
    · rw [production_get_component_nat] at hcomp
      obtain ⟨hprobe_in, hprobe_lhs⟩ :=
        (productions_by_nonterminal_mem _ _ _ hpbn i probes hprobes probe).1 hprobe
      have hchain : Relation.ReflTransGen (leftmost self.productions) B i := by
        rcases hcond with hBi | hcell
        · rw [hBi]
        · exact Relation.TransGen.to_reflTransGen ((hgen B i).1 ⟨generates, hrow, hcell⟩)
      have hq := lr0_closure_reaches self kernel.pairs hindex p k B production2 hclosure hp2 hcomp
        i hchain probe hprobe_in hprobe_lhs
      have hcomp0 : production_get_component probe 0 = probe.components[0]? := by
        have := production_get_component_nat probe 0
        simpa using this
      rw [hcomp0] at hci
      cases hX : probe.components[0]? with
      | none =>
        rw [hX] at hci
        exact absurd hci (by simp [component_index, component_is_nonterminal])
      | some X =>
        rw [hX] at hci
        refine ⟨probe.index, 0, probe, X, hq,
          production_at_index self.productions hindex probe hprobe_in, hX, hci, ?_⟩
        rw [hpair]
        rfl
  · rintro ⟨p, k, production, X, hclosure, hp, hX, hci, hx⟩
    rcases lr0_closure_cases self kernel.pairs p k hclosure with ⟨code, hcode, hdec⟩ |
      ⟨hk0, code, p0, k0, B, production0, probe, hcode, hdec, hp0, hB, hprobe, hchain⟩
    · refine ⟨code, ((p : Int), (k : Int)), production, hcode, hdec, ?_, Or.inl ⟨X, ?_, hci, hx⟩⟩
      · rw [production_at_nat]
        exact hp
      · rw [production_get_component_nat]
        exact hX
    · subst hk0
      rw [hp] at hprobe
      have hsame := Option.some.inj hprobe
      subst hsame
      have hprod_in : production ∈ self.productions := List.getElem?_mem hp
      have hprod0_in : production0 ∈ self.productions := List.getElem?_mem hp0
      -- the row of the `generates` table for `B`
      have hBN : B < self.nonterminal_count :=
        (hrange production0 hprod0_in).2 _ (List.getElem?_mem hB)
      obtain ⟨hlen, _⟩ := hshape
      have hrow : self.generates[B]? = some self.generates[B] :=
        List.getElem?_eq_getElem (by omega)
      have hiN := (hrange production hprod_in).1
      have hcond : B = production.nonterminal_index ∨
          generates_cell self.generates[B] production.nonterminal_index = true := by
        rcases Relation.reflTransGen_iff_eq_or_transGen.1 hchain with heq | htrans
        · exact Or.inl heq.symm
        · right
          obtain ⟨row, hr, hcell⟩ := (hgen B production.nonterminal_index).2 htrans
          rw [hrow] at hr
          rw [Option.some.inj hr]
          exact hcell
      -- the row of the productions-by-nonterminal table
      obtain ⟨_, htab⟩ := compute_productions_by_nonterminal_spec _ _ _ hpbn
      have hentry := htab production.nonterminal_index hiN
      have hmem : production ∈ self.productions.filter
          (fun q => decide (q.nonterminal_index = production.nonterminal_index)) := by
        rw [List.mem_filter]
        exact ⟨hprod_in, by simp⟩
      rw [if_neg (List.ne_nil_of_mem hmem)] at hentry
      -- the index of the production is its position
      have hpidx : production.index = p := by
        have h1 := production_at_index self.productions hindex production hprod_in
        obtain ⟨n1, hn1⟩ := List.mem_iff_getElem?.1 hprod_in
        have h2 : (self.productions.map Production.index)[p]? = some production.index := by
          rw [List.getElem?_map, hp]
          rfl
        obtain ⟨hplt, _⟩ := List.getElem?_eq_some.1 hp
        rw [hindex, List.getElem?_range hplt] at h2
        exact (Option.some.inj h2).symm
      refine ⟨code, ((p0 : Int), (k0 : Int)), production0, hcode, hdec, ?_,
        Or.inr ⟨B, self.generates[B], production.nonterminal_index, _, production, ?_, hrow, hiN,
          hcond, hentry, hmem, ?_, ?_⟩⟩
      · rw [production_at_nat]
        exact hp0
      · rw [production_get_component_nat]
        exact hB
      · have hcomp0 : production_get_component production 0 = production.components[0]? := by
          have := production_get_component_nat production 0
          simpa using this
        rw [hcomp0, hX]
        exact hci
      · rw [hx]
        unfold production_get_index
        rw [hpidx]
        rfl


/-- C3: after `compute_lr0_kernels` on a valid grammar, that is in the grammar
`grammar_alloc` returns, for every kernel K and every component index c with
`K.goto_table[c] = S != -1`, S is the index of a kernel whose item array holds
exactly the items `encode p (k + 1)` for the items (p, k) of the LR(0) closure
of the items of K whose symbol `rhs(p)[k]` has component index c. -/
theorem goto_is_shift_of_closure (fuel : Nat) (productions : List Production) (T N : Nat)
    (g : Grammar) (hvalid : valid_grammar productions T N)
    (h : grammar_alloc fuel productions T N = some (some g))
    (i : Nat) (K : Kernel) (hK : g.kernels[i]? = some K)
    (gt : List Int) (hgt : K.goto_table = some gt)
    (c : Nat) (S : Int) (hS : gt[c]? = some S) (hne : S ≠ -1) :
    ∃ (r : Nat) (KS : Kernel), S = (r : Int) ∧ g.kernels[r]? = some KS ∧
      ∀ x, x ∈ KS.pairs ↔ goto_items g K.pairs c x := by
  obtain ⟨hP, hindex, hrange, _⟩ := hvalid
  obtain ⟨table, generated, htable, _, hgenerated, hbuilt, _⟩ :=
    grammar_alloc_some fuel productions T N g h
  have hgen := compute_generates_frame fuel _ generated hgenerated
  obtain ⟨hshape, _, hrel⟩ := compute_generates_spec fuel _ generated hgenerated
  simp only at hgen hshape hrel
  have hprods : generated.productions = productions := by rw [hgen]
  have hpbn : generated.productions_by_nonterminal = table := by rw [hgen]
  have hN : generated.nonterminal_count = N := by rw [hgen]
  have hT : generated.terminal_count = T := by rw [hgen]
  have hkernels : generated.kernels = [] := by rw [hgen]
  have hstart := intern_start_kernel generated hkernels
  unfold compute_lr0_kernels at hbuilt
  rw [hstart] at hbuilt
  obtain ⟨p0, hp0⟩ : ∃ p0, generated.productions[0]? = some p0 := by
    rw [hprods]
    exact ⟨productions[0], List.getElem?_eq_getElem (by omega)⟩
  -- every item of every kernel is valid
  obtain ⟨hframe, hitems⟩ := compute_lr0_kernels_loop_items generated (item_valid generated)
    (fun kernel index x hk hx => pairs_entry_valid generated kernel hk
      (fun i probes q hrow hq => by
        rw [hpbn] at hrow
        rw [hprods]
        exact production_at_index productions hindex q
          ((productions_by_nonterminal_mem N productions table htable i probes hrow q).1 hq).1)
      index x hx)
    fuel [kernel_alloc [encode generated 0 0]] 0 g
    (by
      intro K0 hK0 c0 hc0
      simp only [List.mem_singleton] at hK0
      rw [hK0] at hc0
      simp only [kernel_alloc, List.mem_singleton] at hc0
      exact ⟨0, 0, by rw [hc0]; rfl, p0, hp0, Nat.zero_le _⟩)
    hbuilt
  -- every kernel has its goto table
  have hproc := compute_lr0_kernels_loop_goto generated fuel [kernel_alloc [encode generated 0 0]]
    0 g (fun j K0 hj _ => absurd hj (Nat.not_lt_zero j)) hbuilt
  obtain ⟨hilt, _⟩ := List.getElem?_eq_some.1 hK
  obtain ⟨gt2, hgt2, hlen2, hall⟩ := hproc i K hilt hK
  rw [hgt] at hgt2
  have hgteq := Option.some.inj hgt2
  subst hgteq
  obtain ⟨hclt, _⟩ := List.getElem?_eq_some.1 hS
  rw [hlen2] at hclt
  -- the entries of the pairs table are the shift of the closure
  have hbridge : ∀ x, pairs_entry generated K c x ↔ goto_items g K.pairs c x := by
    intro x
    have h1 : pairs_entry generated K c x ↔ pairs_entry g K c x := by
      rw [hframe]
      exact Iff.rfl
    rw [h1]
    have hgp : g.productions = productions := by rw [hframe, hprods]
    have hgN : g.nonterminal_count = N := by rw [hframe, hN]
    have hgT : g.terminal_count = T := by rw [hframe, hT]
    have hgpbn : g.productions_by_nonterminal = table := by rw [hframe, hpbn]
    have hgg : g.generates = generated.generates := by rw [hframe]
    refine pairs_entry_iff_goto_items g K ?_ ?_ ?_ ?_ ?_ ?_ c x
    · rw [hgp]
      exact hindex
    · rw [hgp, hgN, hgT]
      exact hrange
    · rw [hgp, hgN, hgpbn]
      exact htable
    · rw [hgN, hgg]
      exact hshape
    · rw [hgp, hgg]
      exact hrel
    · intro c0 hc0
      have := hitems K (List.getElem?_mem hK) c0 hc0
      rw [hframe]
      exact this
  rcases hall c hclt with ⟨hneg, _⟩ | ⟨r, row, hr, hrow, _, hiff⟩
  · rw [hS] at hneg
    exact absurd (Option.some.inj hneg) hne
  · rw [hS] at hr
    rw [List.getElem?_map] at hrow
    obtain ⟨KS, hKS, hKSp⟩ := Option.map_eq_some'.1 hrow
    refine ⟨r, KS, Option.some.inj hr, hKS, ?_⟩
    intro x
    rw [hKSp, hiff x]
    exact hbridge x

/-- Witness of C3 on scenario C: the goto of kernel 0 on E (component index 1)
is kernel 1. -/
theorem goto_is_shift_of_closure_witness :
    ∃ (r : Nat) (KS : Kernel), (1 : Int) = (r : Int) ∧ scenario_c_built.kernels[r]? = some KS ∧
      ∀ x, x ∈ KS.pairs ↔ goto_items scenario_c_built [3] 1 x :=
  goto_is_shift_of_closure 20 scenario_c 2 3 scenario_c_built (by unfold valid_grammar; decide)
    (by decide) 0 { pairs := [3], goto_table := some [-1, 1, 2, -1, 3] } (by decide)
    [-1, 1, 2, -1, 3] rfl 1 1 (by decide) (by decide)


/-! ## The `generates` table after construction -/

/-- Counterexample to C11 as stated: for scenario C `grammar_alloc` returns a
grammar in which `generates[0][0]` is 0 (row 0 is [0, 1, 1]) and row 2 is not
allocated at all. -/
theorem generates_diagonal_counterexample :
    grammar_alloc 20 scenario_c 2 3 = some (some scenario_c_built) ∧
    scenario_c_built.generates[0]? = some (some [false, true, true]) ∧
    scenario_c_built.generates[2]? = some none ∧
    ¬ (∀ i, i < scenario_c_built.nonterminal_count →
        generates_rel scenario_c_built.generates i i) := by
  refine ⟨by decide, by decide, by decide, ?_⟩
  intro hall
  obtain ⟨row, hrow, hcell⟩ := hall 0 (by decide)
  have h0 : scenario_c_built.generates[0]? = some (some [false, true, true]) := by decide
  rw [h0] at hrow
  rw [← Option.some.inj hrow] at hcell
  exact absurd hcell (by decide)

/-- C11, amended: after `compute_generates`, `generates[i][i]` is set exactly
for the nonterminals i that come back to themselves by one or more leftmost
steps (some chain i = n0, n1, ..., nm = i, m >= 1, each n(t+1) the first
symbol of a production of n(t)); in every other case the cell is 0 or the row
is not allocated. -/
theorem generates_diagonal (fuel : Nat) (self generated : Grammar)
    (h : compute_generates fuel self = some generated) (i : Nat) :
    generates_rel generated.generates i i ↔
      Relation.TransGen (leftmost self.productions) i i :=
  (compute_generates_spec fuel self generated h).2.2 i i

/-- Witness of C11 amended on scenario C, nonterminal E (index 1), which is
left-recursive. -/
theorem generates_diagonal_witness :
    generates_rel scenario_c_indexed.generates 1 1 ↔
      Relation.TransGen (leftmost scenario_c_grouped.productions) 1 1 :=
  generates_diagonal 20 scenario_c_grouped scenario_c_indexed (by decide) 1

/-- C12: after `compute_generates` the `generates` matrix is transitively
closed: if `generates[i][j] != 0` and `generates[j][k] != 0` then
`generates[i][k] != 0`, a row that is not allocated counting as all zeros. -/
theorem generates_transitive (fuel : Nat) (self generated : Grammar)
    (h : compute_generates fuel self = some generated) (i j k : Nat)
    (hij : generates_rel generated.generates i j) (hjk : generates_rel generated.generates j k) :
    generates_rel generated.generates i k := by
  obtain ⟨_, _, hrel⟩ := compute_generates_spec fuel self generated h
  rw [hrel] at hij hjk ⊢
  exact Relation.TransGen.trans hij hjk

/-- Witness of C12 on scenario C: S' generates E and E generates T, so S'
generates T. -/
theorem generates_transitive_witness : generates_rel scenario_c_indexed.generates 0 2 :=
  generates_transitive 20 scenario_c_grouped scenario_c_indexed (by decide) 0 1 2
    ⟨some [false, true, true], by decide, by decide⟩
    ⟨some [false, true, true], by decide, by decide⟩

/-! ## Grouping and verification of the productions -/

/-- A loop whose iterations all succeed on states with the invariant, and keep
it, succeeds. -/
theorem foldlM_total {α β : Type} (f : β → α → Option β) (Inv : β → Prop) (l : List α)
    (hf : ∀ b a, a ∈ l → Inv b → ∃ b2, f b a = some b2 ∧ Inv b2)
    (b : β) (hb : Inv b) : ∃ b2, l.foldlM f b = some b2 ∧ Inv b2 := by
  induction l generalizing b with
  | nil => exact ⟨b, rfl, hb⟩
  | cons a l ih =>
    obtain ⟨b1, hb1, hinv1⟩ := hf b a (List.mem_cons_self a l) hb
    obtain ⟨b2, hb2, hinv2⟩ := ih (fun b a2 ha2 => hf b a2 (List.mem_cons_of_mem a ha2)) b1 hinv1
    refine ⟨b2, ?_, hinv2⟩
    rw [List.foldlM_cons, hb1]
    exact hb2

/-- `compute_productions_by_nonterminal` returns a table when every left-hand
side is a nonterminal index of the grammar. -/
theorem compute_productions_by_nonterminal_total (N : Nat) (productions : List Production)
    (hlhs : ∀ q, q ∈ productions → q.nonterminal_index < N) :
    ∃ table, compute_productions_by_nonterminal N productions = some table := by
  obtain ⟨table, htable, _⟩ := foldlM_total productions_by_nonterminal_step
    (fun t => t.length = N) productions
    (fun t q hq ht => by
      have hq2 : q.nonterminal_index < t.length := by
        rw [ht]
        exact hlhs q hq
      unfold productions_by_nonterminal_step production_get_nonterminal_index
      simp only
      rw [List.getElem?_eq_getElem hq2]
      cases t[q.nonterminal_index] with
      | none => exact ⟨_, rfl, by rw [List.length_set]; exact ht⟩
      | some array => exact ⟨_, rfl, by rw [List.length_set]; exact ht⟩)
    (List.replicate N none) (by simp)
  exact ⟨table, htable⟩

/-- The value of `verify_productions_by_nonterminal` on a table of
`nonterminal_count` entries: 0 when no entry is `NULL`, -1 otherwise. -/
theorem verify_productions_by_nonterminal_spec (self : Grammar)
    (hlen : self.productions_by_nonterminal.length = self.nonterminal_count) :
    ((∀ i, i < self.nonterminal_count → self.productions_by_nonterminal[i]? ≠ some none) →
      verify_productions_by_nonterminal self = some 0) ∧
    ((∃ i, i < self.nonterminal_count ∧ self.productions_by_nonterminal[i]? = some none) →
      verify_productions_by_nonterminal self = some (-1)) := by
  -- the loop over a prefix of the indices
  have key : ∀ n, n ≤ self.nonterminal_count →
      ((∀ i, i < n → self.productions_by_nonterminal[i]? ≠ some none) →
        (List.range n).foldlM
          (fun (result : Int) (index : Nat) =>
            match self.productions_by_nonterminal[index]? with
            | none => none
            | some none => some (-1)
            | some (some _) => some result) 0 = some 0) ∧
      ((∃ i, i < n ∧ self.productions_by_nonterminal[i]? = some none) →
        (List.range n).foldlM
          (fun (result : Int) (index : Nat) =>
            match self.productions_by_nonterminal[index]? with
            | none => none
            | some none => some (-1)
            | some (some _) => some result) 0 = some (-1)) := by
    intro n
    induction n with
    | zero =>
      intro _
      refine ⟨fun _ => rfl, ?_⟩
      rintro ⟨i, hi, _⟩
      exact absurd hi (Nat.not_lt_zero i)
    | succ n ih =>
      intro hn
      obtain ⟨ih0, ih1⟩ := ih (by omega)
      have hnlt : n < self.productions_by_nonterminal.length := by omega
      rw [List.range_succ, List.foldlM_append]
      constructor
      · intro hall
        rw [ih0 (fun i hi => hall i (by omega))]
        simp only [Option.some_bind, List.foldlM_cons, List.foldlM_nil]
        have hn2 := hall n (by omega)
        rw [List.getElem?_eq_getElem hnlt] at hn2 ⊢
        cases hrow : self.productions_by_nonterminal[n] with
        | none =>
          rw [hrow] at hn2
          exact absurd rfl hn2
        | some probes => rfl
      · rintro ⟨i, hi, hrow⟩
        by_cases hnull : self.productions_by_nonterminal[n]? = some none
        · -- whatever the result so far, entry `n` sets it to -1
          have hprev : ∃ r, (List.range n).foldlM
              (fun (result : Int) (index : Nat) =>
                match self.productions_by_nonterminal[index]? with
                | none => none
                | some none => some (-1)
                | some (some _) => some result) 0 = some r := by
            by_cases hex : ∃ i, i < n ∧ self.productions_by_nonterminal[i]? = some none
            · exact ⟨-1, ih1 hex⟩
            · refine ⟨0, ih0 ?_⟩
              intro i hi hrow
              exact hex ⟨i, hi, hrow⟩
          obtain ⟨r, hr⟩ := hprev
          rw [hr]
          simp only [Option.some_bind, List.foldlM_cons, List.foldlM_nil]
          rw [hnull]
          rfl
        · have hin : i < n := by
            by_contra hge
            have : i = n := by omega
            rw [this] at hrow
            exact hnull hrow
          rw [ih1 ⟨i, hin, hrow⟩]
          simp only [Option.some_bind, List.foldlM_cons, List.foldlM_nil]
          rw [List.getElem?_eq_getElem hnlt] at hnull ⊢
          cases hrow2 : self.productions_by_nonterminal[n] with
          | none =>
            rw [hrow2] at hnull
            exact absurd rfl hnull
          | some probes => rfl
  exact key self.nonterminal_count (le_refl _)


/-- C14: grammar construction rejects an empty nonterminal.  For productions
whose left-hand sides are nonterminal indices of the grammar,
`verify_productions_by_nonterminal`, on the table grouped from them, returns 0
when every nonterminal index in [0, N) has a production and -1 otherwise, and
in the second case `grammar_alloc` returns `NULL`. -/
theorem empty_nonterminal_rejected (fuel : Nat) (productions : List Production) (T N : Nat)
    (hlhs : ∀ q, q ∈ productions → q.nonterminal_index < N) :
    ∃ table, compute_productions_by_nonterminal N productions = some table ∧
      ((∀ i, i < N → ∃ q, q ∈ productions ∧ q.nonterminal_index = i) →
        verify_productions_by_nonterminal
          { productions := productions, terminal_count := T, nonterminal_count := N,
            productions_by_nonterminal := table, generates := [], kernels := [] } = some 0) ∧
      ((∃ i, i < N ∧ ∀ q, q ∈ productions → q.nonterminal_index ≠ i) →
        verify_productions_by_nonterminal
          { productions := productions, terminal_count := T, nonterminal_count := N,
            productions_by_nonterminal := table, generates := [], kernels := [] } = some (-1) ∧
        grammar_alloc fuel productions T N = some none) := by
  obtain ⟨table, htable⟩ := compute_productions_by_nonterminal_total N productions hlhs
  obtain ⟨hlen, hrows⟩ := compute_productions_by_nonterminal_spec N productions table htable
  obtain ⟨hzero, hminus⟩ := verify_productions_by_nonterminal_spec
    { productions := productions, terminal_count := T, nonterminal_count := N,
      productions_by_nonterminal := table, generates := [], kernels := [] } hlen
  simp only at hzero hminus
  -- an entry is `NULL` exactly when the nonterminal has no production
  have hnull : ∀ i, i < N → (table[i]? = some none ↔
      ∀ q, q ∈ productions → q.nonterminal_index ≠ i) := by
    intro i hi
    rw [hrows i hi]
    by_cases hf : productions.filter (fun q => decide (q.nonterminal_index = i)) = []
    · rw [if_pos hf]
      refine ⟨fun _ q hq hqi => ?_, fun _ => rfl⟩
      have : q ∈ productions.filter (fun q => decide (q.nonterminal_index = i)) := by
        rw [List.mem_filter]
        exact ⟨hq, by simpa using hqi⟩
      rw [hf] at this
      exact absurd this (List.not_mem_nil q)
    · rw [if_neg hf]
      refine ⟨fun h => absurd h (by simp), fun hall => ?_⟩
      obtain ⟨q, hq⟩ := List.exists_mem_of_ne_nil _ hf
      rw [List.mem_filter] at hq
      exact absurd (by simpa using hq.2) (hall q hq.1)
  refine ⟨table, htable, ?_, ?_⟩
  · intro hall
    apply hzero
    intro i hi hrow
    obtain ⟨q, hq, hqi⟩ := hall i hi
    exact (hnull i hi).1 hrow q hq hqi
  · rintro ⟨i, hi, hnone⟩
    have hv := hminus ⟨i, hi, (hnull i hi).2 hnone⟩
    refine ⟨hv, ?_⟩
    unfold grammar_alloc
    rw [htable]
    simp only [Option.some_bind]
    rw [hv]
    rfl

/-- Witness of C14: the productions of scenario C in a grammar declared with
four nonterminals; nonterminal 3 has no production. -/
theorem empty_nonterminal_rejected_witness :
    ∃ table, compute_productions_by_nonterminal 4 scenario_c = some table ∧
      ((∀ i, i < 4 → ∃ q, q ∈ scenario_c ∧ q.nonterminal_index = i) →
        verify_productions_by_nonterminal
          { productions := scenario_c, terminal_count := 2, nonterminal_count := 4,
            productions_by_nonterminal := table, generates := [], kernels := [] } = some 0) ∧
      ((∃ i, i < 4 ∧ ∀ q, q ∈ scenario_c → q.nonterminal_index ≠ i) →
        verify_productions_by_nonterminal
          { productions := scenario_c, terminal_count := 2, nonterminal_count := 4,
            productions_by_nonterminal := table, generates := [], kernels := [] } = some (-1) ∧
        grammar_alloc 20 scenario_c 2 4 = some none) :=
  empty_nonterminal_rejected 20 scenario_c 2 4 (by decide)

/-- The occurrences of a production in the groups of the nonterminals below
`N`. -/
theorem sum_count_filter (productions : List Production) (a : Production) (N : Nat) :
    ((List.range N).map (fun i =>
      List.count a (productions.filter (fun q => decide (q.nonterminal_index = i))))).sum
      = if a.nonterminal_index < N then List.count a productions else 0 := by
  induction N with
  | zero => simp
  | succ N ih =>
    rw [List.sum_range_succ, ih]
    by_cases hN : a.nonterminal_index = N
    · have hp : (fun q : Production => decide (q.nonterminal_index = N)) a = true := by
        simpa using hN
      rw [@List.count_filter _ _ _ (fun q : Production => decide (q.nonterminal_index = N)) a
        productions hp, if_neg (by omega), if_pos (by omega), Nat.zero_add]
    · have hnot : a ∉ productions.filter (fun q => decide (q.nonterminal_index = N)) := by
        rw [List.mem_filter]
        rintro ⟨_, h⟩
        exact hN (by simpa using h)
      rw [List.count_eq_zero.2 hnot, Nat.add_zero]
      by_cases hlt : a.nonterminal_index < N
      · rw [if_pos hlt, if_pos (by omega)]
      · rw [if_neg hlt, if_neg (by omega)]

/-- `compute_productions_by_nonterminal` only returns a table when every
left-hand side is a nonterminal index of the grammar. -/
theorem compute_productions_by_nonterminal_lhs (N : Nat) (productions : List Production)
    (table : List (Option (List Production)))
    (h : compute_productions_by_nonterminal N productions = some table) :
    ∀ q, q ∈ productions → q.nonterminal_index < N := by
  have key := foldlM_reaches_inv productions_by_nonterminal_step
    (fun t => t.length = N) (fun q _ => q.nonterminal_index < N) productions
    ?_ ?_ (fun _ _ _ _ _ _ _ hq => hq) (List.replicate N none) table (by simp) h
  · exact key.2
  · intro t q t2 _ ht hstep
    unfold productions_by_nonterminal_step production_get_nonterminal_index at hstep
    simp only at hstep
    cases hrow : t[q.nonterminal_index]? with
    | none =>
      rw [hrow] at hstep
      exact absurd hstep (by simp)
    | some entry =>
      rw [hrow] at hstep
      cases entry with
      | none =>
        simp only at hstep
        rw [← Option.some.inj hstep, List.length_set]
        exact ht
      | some array =>
        simp only at hstep
        rw [← Option.some.inj hstep, List.length_set]
        exact ht
  · intro t q t2 _ ht hstep
    unfold productions_by_nonterminal_step production_get_nonterminal_index at hstep
    simp only at hstep
    cases hrow : t[q.nonterminal_index]? with
    | none =>
      rw [hrow] at hstep
      exact absurd hstep (by simp)
    | some entry =>
      obtain ⟨hlt, _⟩ := List.getElem?_eq_some.1 hrow
      omega

/-- C15: `compute_productions_by_nonterminal` groups the productions by
left-hand side and keeps their order.  For every nonterminal index i, the array
`table[i]` (a `NULL` entry being the empty array) is the subsequence of the
input made of the productions with left-hand side i, in their original order;
so the arrays of the table, taken together, hold every production exactly as
often as the input does. -/
theorem productions_grouped_in_order (N : Nat) (productions : List Production)
    (table : List (Option (List Production)))
    (h : compute_productions_by_nonterminal N productions = some table) :
    table.length = N ∧
    (∀ i, i < N → ∃ row, table[i]? = some row ∧
      row.getD [] = productions.filter (fun q => decide (q.nonterminal_index = i)) ∧
      (row = none ↔ ∀ q, q ∈ productions → q.nonterminal_index ≠ i)) ∧
    (∀ i, i < N → List.Sublist
      (productions.filter (fun q => decide (q.nonterminal_index = i))) productions) ∧
    ((table.map (fun row => row.getD [])).flatten).Perm productions := by
  obtain ⟨hlen, hrows⟩ := compute_productions_by_nonterminal_spec N productions table h
  have hrow : ∀ i, i < N → ∃ row, table[i]? = some row ∧
      row.getD [] = productions.filter (fun q => decide (q.nonterminal_index = i)) ∧
      (row = none ↔ ∀ q, q ∈ productions → q.nonterminal_index ≠ i) := by
    intro i hi
    by_cases hf : productions.filter (fun q => decide (q.nonterminal_index = i)) = []
    · refine ⟨none, by rw [hrows i hi, if_pos hf], by rw [hf]; rfl, fun _ q hq hqi => ?_,
        fun _ => rfl⟩
      have : q ∈ productions.filter (fun q => decide (q.nonterminal_index = i)) := by
        rw [List.mem_filter]
        exact ⟨hq, by simpa using hqi⟩
      rw [hf] at this
      exact absurd this (List.not_mem_nil q)
    · refine ⟨some _, by rw [hrows i hi, if_neg hf], rfl, fun h0 => absurd h0 (by simp),
        fun hall => ?_⟩
      obtain ⟨q, hq⟩ := List.exists_mem_of_ne_nil _ hf
      rw [List.mem_filter] at hq
      exact absurd (by simpa using hq.2) (hall q hq.1)
  refine ⟨hlen, hrow, fun i _ => List.filter_sublist productions, ?_⟩
  -- the rows are the groups of the nonterminals 0 .. N - 1
  have hmap : table.map (fun row => row.getD [])
      = (List.range N).map
        (fun i => productions.filter (fun q => decide (q.nonterminal_index = i))) := by
    apply List.ext_getElem?
    intro i
    rw [List.getElem?_map, List.getElem?_map]
    by_cases hi : i < N
    · obtain ⟨row, hr, hget, _⟩ := hrow i hi
      rw [hr, List.getElem?_range hi]
      simp only [Option.map_some']
      rw [hget]
    · rw [List.getElem?_eq_none (by omega), List.getElem?_eq_none (by simp; omega)]
      rfl
  have hlhs := compute_productions_by_nonterminal_lhs N productions table h
  rw [hmap, List.perm_iff_count]
  intro a
  rw [List.count_flatten, List.map_map]
  have := sum_count_filter productions a N
  simp only [Function.comp_def]
  rw [this]
  by_cases ha : a.nonterminal_index < N
  · rw [if_pos ha]
  · rw [if_neg ha]
    symm
    rw [List.count_eq_zero]
    intro hmem
    exact ha (hlhs a hmem)

/-- Witness of C15 on scenario C. -/
theorem productions_grouped_in_order_witness :
    scenario_c_built.productions_by_nonterminal.length = 3 ∧
    (∀ i, i < 3 → ∃ row, scenario_c_built.productions_by_nonterminal[i]? = some row ∧
      row.getD [] = scenario_c.filter (fun q => decide (q.nonterminal_index = i)) ∧
      (row = none ↔ ∀ q, q ∈ scenario_c → q.nonterminal_index ≠ i)) ∧
    (∀ i, i < 3 → List.Sublist
      (scenario_c.filter (fun q => decide (q.nonterminal_index = i))) scenario_c) ∧
    ((scenario_c_built.productions_by_nonterminal.map (fun row => row.getD [])).flatten).Perm
      scenario_c :=
  productions_grouped_in_order 3 scenario_c scenario_c_built.productions_by_nonterminal
    (by decide)


/-! ## Termination of `compute_generates` -/

/-- A table with more cells set has fewer zero cells. -/
theorem generates_zeros_mono (N : Nat) (g g2 : List (Option (List Bool)))
    (hmono : ∀ x y, generates_rel g x y → generates_rel g2 x y) :
    generates_zeros N g2 ≤ generates_zeros N g := by
  unfold generates_zeros
  apply Finset.card_le_card
  intro xy hxy
  rw [Finset.mem_filter] at hxy ⊢
  exact ⟨hxy.1, fun h => hxy.2 (hmono _ _ h)⟩

/-- Setting a cell that was zero leaves strictly fewer zero cells. -/
theorem generates_zeros_lt (N : Nat) (g g2 : List (Option (List Bool)))
    (hmono : ∀ x y, generates_rel g x y → generates_rel g2 x y) (a b : Nat)
    (ha : a < N) (hb : b < N) (hold : ¬ generates_rel g a b) (hnew : generates_rel g2 a b) :
    generates_zeros N g2 < generates_zeros N g := by
  unfold generates_zeros
  apply Finset.card_lt_card
  rw [Finset.ssubset_iff_of_subset]
  · refine ⟨(a, b), ?_, ?_⟩
    · rw [Finset.mem_filter, Finset.mem_product, Finset.mem_range, Finset.mem_range]
      exact ⟨⟨ha, hb⟩, hold⟩
    · rw [Finset.mem_filter]
      rintro ⟨_, h⟩
      exact h hnew
  · intro xy hxy
    rw [Finset.mem_filter] at hxy ⊢
    exact ⟨hxy.1, fun h => hxy.2 (hmono _ _ h)⟩

/-- There are at most `N * N` zero cells. -/
theorem generates_zeros_le (N : Nat) (g : List (Option (List Bool))) :
    generates_zeros N g ≤ N * N := by
  unfold generates_zeros
  refine le_trans (Finset.card_filter_le _ _) ?_
  rw [Finset.card_product, Finset.card_range]

/-- `mark_generates` never frees a row: an allocated row stays allocated. -/
theorem mark_generates_allocated (fuel N : Nat) :
    ∀ (gen : List (Option (List Bool))) (a b : Nat) (gen2 : List (Option (List Bool))),
      mark_generates fuel N gen a b = some gen2 →
      ∀ x : Nat, (∃ cells : List Bool, gen[x]? = some (some cells)) →
        ∃ cells : List Bool, gen2[x]? = some (some cells) := by
  induction fuel with
  | zero =>
    intro gen a b gen2 h
    simp [mark_generates] at h
  | succ fuel ih =>
    intro gen a b gen2 h x hx
    unfold mark_generates at h
    cases hrow : gen[a]? with
    | none =>
      rw [hrow] at h
      exact absurd h (by simp)
    | some row =>
      rw [hrow] at h
      simp only at h
      by_cases hcell : generates_cell row b = true
      · rw [if_pos hcell] at h
        rw [← Option.some.inj h]
        exact hx
      · rw [if_neg hcell] at h
        obtain ⟨marked, hmarked, h⟩ := Option.bind_eq_some.1 h
        obtain ⟨propagated, hloop1, h⟩ := Option.bind_eq_some.1 h
        -- the marking
        have hm : ∃ cells : List Bool, marked[x]? = some (some cells) := by
          unfold set_generates at hmarked
          rw [hrow] at hmarked
          simp only at hmarked
          by_cases hb : b < (row.getD (List.replicate N false)).length
          · rw [if_pos hb] at hmarked
            rw [← Option.some.inj hmarked, List.getElem?_set]
            by_cases hax : a = x
            · obtain ⟨halt, _⟩ := List.getElem?_eq_some.1 hrow
              rw [if_pos hax, if_pos halt]
              exact ⟨_, rfl⟩
            · rw [if_neg hax]
              exact hx
          · rw [if_neg hb] at hmarked
            exact absurd hmarked (by simp)
        -- the first loop
        have hp : ∃ cells : List Bool, propagated[x]? = some (some cells) := by
          refine foldlM_invariant _ (fun t => ∃ cells : List Bool, t[x]? = some (some cells))
            (List.range N) ?_ marked propagated hm hloop1
          intro cur index cur2 _ hcur hstep
          cases hr : cur[index]? with
          | none =>
            rw [hr] at hstep
            exact absurd hstep (by simp)
          | some r =>
            rw [hr] at hstep
            simp only at hstep
            by_cases hc : generates_cell r a = true
            · rw [if_pos hc] at hstep
              exact ih cur index b cur2 hstep x hcur
            · rw [if_neg hc] at hstep
              rw [← Option.some.inj hstep]
              exact hcur
        -- the second loop
        cases hrowb : propagated[b]? with
        | none =>
          rw [hrowb] at h
          exact absurd h (by simp)
        | some rowb =>
          cases rowb with
          | none =>
            rw [hrowb] at h
            simp only at h
            rw [← Option.some.inj h]
            exact hp
          | some cells =>
            rw [hrowb] at h
            simp only at h
            refine foldlM_invariant _ (fun t => ∃ cells : List Bool, t[x]? = some (some cells))
              (List.range N) ?_ propagated gen2 hp h
            intro cur index cur2 _ hcur hstep
            cases hr : cur[b]? with
            | none =>
              rw [hr] at hstep
              exact absurd hstep (by simp)
            | some r =>
              cases r with
              | none =>
                rw [hr] at hstep
                exact absurd hstep (by simp)
              | some cs =>
                rw [hr] at hstep
                simp only at hstep
                by_cases hc : cs.getD index false = true
                · rw [if_pos hc] at hstep
                  exact ih cur a index cur2 hstep x hcur
                · rw [if_neg hc] at hstep
                  rw [← Option.some.inj hstep]
                  exact hcur


/-- `mark_generates` returns as soon as its fuel exceeds the number of zero
cells: a call that goes on past its first test sets a zero cell, and its inner
calls start from the table with that cell set. -/
theorem mark_generates_total (fuel N : Nat) :
    ∀ (gen : List (Option (List Bool))) (a b : Nat),
      generates_shape N gen → a < N → b < N → generates_zeros N gen < fuel →
      ∃ gen2, mark_generates fuel N gen a b = some gen2 := by
  induction fuel with
  | zero =>
    intro gen a b _ _ _ hz
    exact absurd hz (Nat.not_lt_zero _)
  | succ fuel ih =>
    intro gen a b hs ha hb hz
    have hlen : gen.length = N := hs.1
    unfold mark_generates
    rw [List.getElem?_eq_getElem (by omega : a < gen.length)]
    simp only
    by_cases hcell : generates_cell gen[a] b = true
    · rw [if_pos hcell]
      exact ⟨gen, rfl⟩
    · rw [if_neg hcell]
      have hrow : gen[a]? = some gen[a] := List.getElem?_eq_getElem (by omega)
      -- the marking succeeds and sets a zero cell
      have hcells : (gen[a].getD (List.replicate N false)).length = N := by
        cases hr : gen[a] with
        | none => simp
        | some cells =>
          rw [hr] at hrow
          exact hs.2 a cells hrow
      have hmarked : ∃ marked, set_generates N gen a b = some marked := by
        unfold set_generates
        rw [hrow]
        simp only
        rw [if_pos (by omega)]
        exact ⟨_, rfl⟩
      obtain ⟨marked, hmarked⟩ := hmarked
      obtain ⟨hs1, hrel1⟩ := set_generates_spec N gen marked a b hs hmarked
      have hold : ¬ generates_rel gen a b := by
        rintro ⟨r, hr, hc⟩
        rw [hrow] at hr
        rw [← Option.some.inj hr] at hc
        exact hcell hc
      have hzm : generates_zeros N marked < fuel := by
        have := generates_zeros_lt N gen marked (fun x y h => (hrel1 x y).2 (Or.inl h)) a b ha hb
          hold ((hrel1 a b).2 (Or.inr ⟨rfl, rfl⟩))
        omega
      rw [hmarked]
      simp only [Option.some_bind]
      -- the first loop
      obtain ⟨propagated, hloop1, hext1⟩ := foldlM_total
        (fun (table : List (Option (List Bool))) (index : Nat) =>
          match table[index]? with
          | none => none
          | some row =>
            if generates_cell row a then mark_generates fuel N table index b
            else some table)
        (fun cur => generates_extends N marked cur) (List.range N)
        (fun cur index hindex hcur => by
          have hilt : index < cur.length := by
            rw [hcur.1.1]
            exact List.mem_range.1 hindex
          simp only
          rw [List.getElem?_eq_getElem hilt]
          simp only
          by_cases hc : generates_cell cur[index] a = true
          · rw [if_pos hc]
            obtain ⟨cur2, hcur2⟩ := ih cur index b hcur.1 (List.mem_range.1 hindex) hb
              (lt_of_le_of_lt (generates_zeros_mono N marked cur hcur.2.1) hzm)
            exact ⟨cur2, hcur2, generates_extends_trans N marked cur cur2 hcur
              (mark_generates_spec fuel N cur index b cur2 hcur.1 hcur2).1⟩
          · rw [if_neg hc]
            exact ⟨cur, rfl, hcur⟩)
        marked (generates_extends_refl N marked hs1)
      rw [hloop1]
      simp only [Option.some_bind]
      have hblt : b < propagated.length := by
        rw [hext1.1.1]
        exact hb
      rw [List.getElem?_eq_getElem hblt]
      cases hrowb : propagated[b] with
      | none => exact ⟨propagated, rfl⟩
      | some cells =>
        simp only
        -- the second loop: row `b` stays allocated
        have hrowb2 : propagated[b]? = some (some cells) := by
          rw [List.getElem?_eq_getElem hblt, hrowb]
        obtain ⟨final, hloop2, _⟩ := foldlM_total
          (fun (table : List (Option (List Bool))) (index : Nat) =>
            match table[b]? with
            | some (some cells) =>
              if cells.getD index false then mark_generates fuel N table a index
              else some table
            | _ => none)
          (fun cur => generates_extends N propagated cur ∧
            ∃ cs : List Bool, cur[b]? = some (some cs)) (List.range N)
          (fun cur index hindex ⟨hcur, cs, hcs⟩ => by
            simp only
            rw [hcs]
            simp only
            by_cases hc : cs.getD index false = true
            · rw [if_pos hc]
              obtain ⟨cur2, hcur2⟩ := ih cur a index hcur.1 ha (List.mem_range.1 hindex)
                (lt_of_le_of_lt (generates_zeros_mono N marked cur
                  (fun x y h => hcur.2.1 x y (hext1.2.1 x y h))) hzm)
              exact ⟨cur2, hcur2, generates_extends_trans N propagated cur cur2 hcur
                (mark_generates_spec fuel N cur a index cur2 hcur.1 hcur2).1,
                mark_generates_allocated fuel N cur a index cur2 hcur2 b ⟨cs, hcs⟩⟩
            · rw [if_neg hc]
              exact ⟨cur, rfl, hcur, cs, hcs⟩)
          propagated ⟨generates_extends_refl N propagated hext1.1, cells, hrowb2⟩
        exact ⟨final, hloop2⟩


/-- A call of `mark_generates` that returns either finds its cell set and
changes nothing, or sets a cell that was zero. -/
theorem mark_generates_progress (fuel N : Nat) (gen : List (Option (List Bool))) (a b : Nat)
    (gen2 : List (Option (List Bool))) (hs : generates_shape N gen)
    (h : mark_generates fuel N gen a b = some gen2) :
    (generates_rel gen a b ∧ gen2 = gen) ∨
    (¬ generates_rel gen a b ∧ generates_rel gen2 a b ∧
      generates_zeros N gen2 < generates_zeros N gen) := by
  obtain ⟨⟨hs2, hmono, _⟩, hrel, _⟩ := mark_generates_spec fuel N gen a b gen2 hs h
  by_cases hold : generates_rel gen a b
  · left
    refine ⟨hold, ?_⟩
    cases fuel with
    | zero => simp [mark_generates] at h
    | succ fuel =>
      unfold mark_generates at h
      obtain ⟨row, hrow, hcell⟩ := hold
      rw [hrow] at h
      simp only at h
      rw [if_pos hcell] at h
      exact (Option.some.inj h).symm
  · right
    obtain ⟨ha, hb⟩ := generates_rel_lt N gen2 hs2 a b hrel
    exact ⟨hold, hrel, generates_zeros_lt N gen gen2 hmono a b ha hb hold hrel⟩

/-- `compute_generates` returns, for a grammar whose symbols are in range and
whose right-hand sides are not empty, as soon as the fuel exceeds the number of
cells of the matrix. -/
theorem compute_generates_total (fuel : Nat) (self : Grammar)
    (hrange : ∀ q, q ∈ self.productions → q.nonterminal_index < self.nonterminal_count ∧
      ∀ X, X ∈ q.components →
        component_in_range self.terminal_count self.nonterminal_count X)
    (hne : ∀ q, q ∈ self.productions → q.components ≠ [])
    (hfuel : self.nonterminal_count * self.nonterminal_count < fuel) :
    ∃ generated, compute_generates fuel self = some generated := by
  obtain ⟨generates, hfold, _⟩ := foldlM_total
    (compute_generates_step fuel self.nonterminal_count)
    (fun t => generates_shape self.nonterminal_count t) self.productions
    (fun t q hq ht => by
      obtain ⟨hlhs, hsym⟩ := hrange q hq
      have hcomp0 : production_get_component q 0 = q.components[0]? := by
        have := production_get_component_nat q 0
        simpa using this
      obtain ⟨X, rest, hX⟩ := List.exists_cons_of_ne_nil (hne q hq)
      have h0 : q.components[0]? = some X := by rw [hX, List.getElem?_cons_zero]
      have hXin : X ∈ q.components := by rw [hX]; exact List.mem_cons_self X rest
      unfold compute_generates_step
      simp only
      rw [hcomp0, h0]
      cases X with
      | terminal index => exact ⟨t, rfl, ht⟩
      | nonterminal index =>
        have hindex : index < self.nonterminal_count := hsym _ hXin
        obtain ⟨t2, ht2⟩ := mark_generates_total fuel self.nonterminal_count t
          q.nonterminal_index index ht hlhs hindex
          (lt_of_le_of_lt (generates_zeros_le _ t) hfuel)
        refine ⟨t2, ?_, (mark_generates_spec fuel _ t _ _ t2 ht ht2).1.1⟩
        simp only [component_is_nonterminal, component_get_index, Option.some_bind, if_true]
        exact ht2)
    (List.replicate self.nonterminal_count none)
    ⟨by simp, fun a cells ha => by
      have := List.getElem?_mem ha
      exact absurd (List.mem_replicate.1 this).2 (by simp)⟩
  refine ⟨{ self with generates := generates }, ?_⟩
  unfold compute_generates
  rw [hfold]
  rfl

/-! ## Termination of `mark_firsts` -/

/-- Marking an untried production leaves one untried production less. -/
theorem count_false_set (l : List Bool) (i : Nat) (h : l[i]? = some false) :
    (l.set i true).count false + 1 = l.count false := by
  induction l generalizing i with
  | nil => simp at h
  | cons a l ih =>
    cases i with
    | zero =>
      simp at h
      subst h
      simp
    | succ i =>
      simp at h
      have := ih i h
      simp only [List.set_cons_succ, List.count_cons]
      omega

/-- The row of a nonterminal in the productions-by-nonterminal table of an
indexed grammar: allocated, and holding the productions of the nonterminal. -/
theorem productions_by_nonterminal_row (self : Grammar) (hself : grammar_indexed self)
    (A : Nat) (hA : A < self.nonterminal_count) :
    ∃ probes, self.productions_by_nonterminal[A]? = some (some probes) ∧
      probes = self.productions.filter (fun q => decide (q.nonterminal_index = A)) ∧
      ∀ q, q ∈ probes ↔ q ∈ self.productions ∧ q.nonterminal_index = A := by
  obtain ⟨⟨_, _, _, hall⟩, hpbn⟩ := hself
  obtain ⟨_, hrows⟩ := compute_productions_by_nonterminal_spec _ _ _ hpbn
  have hrow := hrows A hA
  obtain ⟨q, hq, hqA⟩ := hall A hA
  have hmem : q ∈ self.productions.filter (fun q => decide (q.nonterminal_index = A)) := by
    rw [List.mem_filter]
    exact ⟨hq, by simpa using hqA⟩
  rw [if_neg (List.ne_nil_of_mem hmem)] at hrow
  refine ⟨_, hrow, rfl, ?_⟩
  intro p
  rw [List.mem_filter]
  simp

/-- `mark_firsts_with_table` returns as soon as its fuel exceeds the number of
untried productions: every recursive call comes after the marking of an untried
production.  The tables keep their sizes and no production becomes untried. -/
theorem mark_firsts_with_table_total (self : Grammar) (hself : grammar_indexed self)
    (hne : ∀ q, q ∈ self.productions → q.components ≠ []) (fuel : Nat) :
    ∀ (A : Nat) (tables : List Bool × List Bool), A < self.nonterminal_count →
      tables.1.length = self.terminal_count → tables.2.length = self.production_count →
      tables.2.count false < fuel →
      ∃ tables2, mark_firsts_with_table fuel self (some (Component.nonterminal A)) tables
          = some tables2 ∧
        tables2.1.length = self.terminal_count ∧ tables2.2.length = self.production_count ∧
        tables2.2.count false ≤ tables.2.count false := by
  induction fuel with
  | zero =>
    intro A tables _ _ _ hz
    exact absurd hz (Nat.not_lt_zero _)
  | succ fuel ih =>
    intro A tables hA hT hP hz
    obtain ⟨probes, hrow, _, hprobes⟩ := productions_by_nonterminal_row self hself A hA
    obtain ⟨⟨_, hindex, hrange, _⟩, _⟩ := hself
    unfold mark_firsts_with_table
    simp only [component_get_index, Option.some_bind]
    rw [hrow]
    simp only
    refine foldlM_total _
      (fun cur => cur.1.length = self.terminal_count ∧ cur.2.length = self.production_count ∧
        cur.2.count false ≤ tables.2.count false) probes ?_ tables ⟨hT, hP, le_refl _⟩
    intro cur probe hprobe ⟨hcT, hcP, hcz⟩
    obtain ⟨hin, _⟩ := (hprobes probe).1 hprobe
    have hat := production_at_index self.productions hindex probe hin
    obtain ⟨hplt, _⟩ := List.getElem?_eq_some.1 hat
    have hpi : probe.index < cur.2.length := by
      rw [hcP]
      exact hplt
    simp only [production_get_index]
    rw [List.getElem?_eq_getElem hpi]
    cases htried : cur.2[probe.index] with
    | true => exact ⟨cur, rfl, hcT, hcP, hcz⟩
    | false =>
      simp only
      have htried2 : cur.2[probe.index]? = some false := by
        rw [List.getElem?_eq_getElem hpi, htried]
      have hcount := count_false_set cur.2 probe.index htried2
      have hcomp0 : production_get_component probe 0 = probe.components[0]? := by
        have := production_get_component_nat probe 0
        simpa using this
      obtain ⟨X, rest, hX⟩ := List.exists_cons_of_ne_nil (hne probe hin)
      have h0 : probe.components[0]? = some X := by rw [hX, List.getElem?_cons_zero]
      have hXin : X ∈ probe.components := by rw [hX]; exact List.mem_cons_self X rest
      have hXr := (hrange probe hin).2 X hXin
      rw [hcomp0, h0]
      cases X with
      | terminal t =>
        simp only [component_is_nonterminal, component_get_index, Option.some_bind,
          Bool.false_eq_true, if_false]
        have ht : t < cur.1.length := by
          rw [hcT]
          exact hXr
        rw [if_pos ht]
        refine ⟨_, rfl, ?_, ?_, ?_⟩
        · simp only [List.length_set]
          exact hcT
        · simp only [List.length_set]
          exact hcP
        · simp only
          omega
      | nonterminal j =>
        simp only [component_is_nonterminal, Option.some_bind, if_true]
        obtain ⟨t2, ht2, h1, h2, h3⟩ := ih j (cur.1, cur.2.set probe.index true) hXr hcT
          (by simp only [List.length_set]; exact hcP) (by simp only; omega)
        refine ⟨t2, ht2, h1, h2, ?_⟩
        simp only at h3
        omega

/-! ## Correctness of `mark_firsts` -/

/-- Setting an entry keeps the entries that are set. -/
theorem set_true_mono (l : List Bool) (i j : Nat) (h : l[i]? = some true) :
    (l.set j true)[i]? = some true := by
  rw [List.getElem?_set]
  by_cases hji : j = i
  · obtain ⟨hlt, _⟩ := List.getElem?_eq_some.1 h
    rw [if_pos hji, if_pos (by omega)]
  · rw [if_neg hji]
    exact h

/-- An entry that is set after a setting was set before, or is the new one. -/
theorem set_true_inv (l : List Bool) (i j : Nat) (h : (l.set j true)[i]? = some true) :
    l[i]? = some true ∨ i = j := by
  rw [List.getElem?_set] at h
  by_cases hji : j = i
  · exact Or.inr hji.symm
  · rw [if_neg hji] at h
    exact Or.inl h

/-- A production dealt with stays dealt with when nothing is cleared. -/
theorem firsts_handled_mono (self : Grammar) (cur cur2 : List Bool × List Bool)
    (q : Production)
    (h1 : ∀ t : Nat, cur.1[t]? = some true → cur2.1[t]? = some true)
    (h2 : ∀ i : Nat, cur.2[i]? = some true → cur2.2[i]? = some true)
    (h : firsts_handled self cur q) : firsts_handled self cur2 q :=
  ⟨fun t ht => h1 t (h.1 t ht), fun C hC p hp hpC => h2 p.index (h.2 C hC p hp hpC)⟩

/-- One iteration of the loop of `mark_firsts_with_table` over the productions
of `A`, given what the recursive calls do: the progress made since the start
goes on, the production of the iteration is tried, and nothing tried is
cleared. -/
theorem mark_firsts_probe_post (self : Grammar)
    (hindex : self.productions.map Production.index = List.range self.productions.length)
    (fuel A : Nat)
    (ih : ∀ (C : Nat) (tables tables2 : List Bool × List Bool),
      mark_firsts_with_table fuel self (some (Component.nonterminal C)) tables = some tables2 →
      firsts_post self C tables tables2)
    (start cur cur2 : List Bool × List Bool) (probe : Production)
    (hprobe : probe ∈ self.productions) (hlhs : probe.nonterminal_index = A)
    (hcur : firsts_progress self A start cur)
    (hstep : (match cur.2[production_get_index probe]? with
      | none => none
      | some true => some cur
      | some false =>
        (component_is_nonterminal (production_get_component probe 0)).bind
          fun is_nonterminal =>
          if is_nonterminal then
            mark_firsts_with_table fuel self (production_get_component probe 0)
              (cur.1, cur.2.set (production_get_index probe) true)
          else
            (component_get_index (production_get_component probe 0)).bind fun terminal =>
            if terminal < cur.1.length then
              some (cur.1.set terminal true, cur.2.set (production_get_index probe) true)
            else none) = some cur2) :
    firsts_progress self A start cur2 ∧ cur2.2[probe.index]? = some true ∧
    (∀ i : Nat, cur.2[i]? = some true → cur2.2[i]? = some true) := by
  obtain ⟨hm1, hm2, hsound, hlen, hnew⟩ := hcur
  unfold production_get_index at hstep
  have hcomp0 : production_get_component probe 0 = probe.components[0]? := by
    have := production_get_component_nat probe 0
    simpa using this
  rw [hcomp0] at hstep
  -- a production with the index of `probe` is `probe`
  have hsame : ∀ q, q ∈ self.productions → q.index = probe.index → q = probe := by
    intro q hq hqi
    have h1 := production_at_index self.productions hindex q hq
    have h2 := production_at_index self.productions hindex probe hprobe
    rw [hqi, h2] at h1
    exact (Option.some.inj h1).symm
  cases htried : cur.2[probe.index]? with
  | none =>
    rw [htried] at hstep
    exact absurd hstep (by simp)
  | some tried =>
    rw [htried] at hstep
    cases tried with
    | true =>
      simp only at hstep
      have hc : cur = cur2 := Option.some.inj hstep
      subst hc
      exact ⟨⟨hm1, hm2, hsound, hlen, hnew⟩, htried, fun i h => h⟩
    | false =>
      simp only at hstep
      obtain ⟨hpilt, _⟩ := List.getElem?_eq_some.1 htried
      have hset_self : (cur.2.set probe.index true)[probe.index]? = some true := by
        rw [List.getElem?_set_self hpilt]
      cases h0 : probe.components[0]? with
      | none =>
        rw [h0] at hstep
        exact absurd hstep (by simp [component_is_nonterminal])
      | some X =>
        rw [h0] at hstep
        cases X with
        | terminal t =>
          simp only [component_is_nonterminal, component_get_index, Option.some_bind,
            Bool.false_eq_true, if_false] at hstep
          by_cases ht : t < cur.1.length
          · rw [if_pos ht] at hstep
            have hc := (Option.some.inj hstep).symm
            subst hc
            refine ⟨⟨?_, ?_, ?_, ?_, ?_⟩, hset_self, fun i h => set_true_mono _ i _ h⟩
            · intro x hx
              exact set_true_mono _ x _ (hm1 x hx)
            · intro i hi
              exact set_true_mono _ i _ (hm2 i hi)
            · intro x hx
              rcases set_true_inv _ x t hx with hx | hx
              · exact hsound x hx
              · right
                rw [hx]
                exact ⟨A, probe, Relation.ReflTransGen.refl, hprobe, hlhs, h0⟩
            · simp only [List.length_set]
              exact hlen
            · intro q hq hq2 hq0
              rcases set_true_inv _ q.index probe.index hq2 with hq2 | hq2
              · exact firsts_handled_mono self cur _ q (fun x hx => set_true_mono _ x _ hx)
                  (fun i hi => set_true_mono _ i _ hi) (hnew q hq hq2 hq0)
              · have hqp := hsame q hq hq2
                subst hqp
                constructor
                · intro t2 ht2
                  rw [h0] at ht2
                  have : t = t2 := by
                    have := Option.some.inj ht2
                    simpa using this
                  subst this
                  simp only
                  rw [List.getElem?_set_self ht]
                · intro C hC
                  rw [h0] at hC
                  exact absurd (Option.some.inj hC) (by simp)
          · rw [if_neg ht] at hstep
            exact absurd hstep (by simp)
        | nonterminal C =>
          simp only [component_is_nonterminal, Option.some_bind, if_true] at hstep
          obtain ⟨⟨im1, im2, isound, ilen, inew⟩, iall⟩ := ih C _ cur2 hstep
          simp only at im1 im2 isound ilen inew
          have hleft : leftmost self.productions A C := ⟨probe, hprobe, hlhs, h0⟩
          have hmono2 : ∀ i : Nat, cur.2[i]? = some true → cur2.2[i]? = some true :=
            fun i hi => im2 i (set_true_mono _ i _ hi)
          refine ⟨⟨?_, ?_, ?_, ?_, ?_⟩, im2 _ hset_self, hmono2⟩
          · intro x hx
            exact im1 x (hm1 x hx)
          · intro i hi
            exact hmono2 i (hm2 i hi)
          · intro x hx
            rcases isound x hx with hx | ⟨B, q, hchain, hq, hqB, hq0⟩
            · exact hsound x hx
            · right
              exact ⟨B, q, Relation.ReflTransGen.head hleft hchain, hq, hqB, hq0⟩
          · rw [ilen]
            exact hlen
          · intro q hq hq2 hq0
            by_cases hmid : (cur.2.set probe.index true)[q.index]? = some true
            · rcases set_true_inv _ q.index probe.index hmid with hq3 | hq3
              · exact firsts_handled_mono self cur cur2 q im1 hmono2 (hnew q hq hq3 hq0)
              · have hqp := hsame q hq hq3
                subst hqp
                constructor
                · intro t2 ht2
                  rw [h0] at ht2
                  exact absurd (Option.some.inj ht2) (by simp)
                · intro C2 hC2 p hp hpC
                  rw [h0] at hC2
                  have : C = C2 := by
                    have := Option.some.inj hC2
                    simpa using this
                  subst this
                  exact iall p hp hpC
            · exact inew q hq hq2 hmid


/-- What a call of `mark_firsts_with_table` on the nonterminal `A` does,
`firsts_post`, in an indexed grammar. -/
theorem mark_firsts_with_table_post (self : Grammar) (hself : grammar_indexed self)
    (fuel : Nat) :
    ∀ (A : Nat) (tables tables2 : List Bool × List Bool),
      mark_firsts_with_table fuel self (some (Component.nonterminal A)) tables = some tables2 →
      firsts_post self A tables tables2 := by
  obtain ⟨⟨_, hindex, _, _⟩, hpbn⟩ := hself
  induction fuel with
  | zero =>
    intro A tables tables2 h
    simp [mark_firsts_with_table] at h
  | succ fuel ih =>
    intro A tables tables2 h
    unfold mark_firsts_with_table at h
    simp only [component_get_index, Option.some_bind] at h
    cases hrow : self.productions_by_nonterminal[A]? with
    | none =>
      rw [hrow] at h
      exact absurd h (by simp)
    | some entry =>
      cases entry with
      | none =>
        rw [hrow] at h
        exact absurd h (by simp)
      | some probes =>
        rw [hrow] at h
        simp only at h
        have hmem := productions_by_nonterminal_mem _ _ _ hpbn A probes hrow
        have key := foldlM_reaches_inv _
          (fun cur => firsts_progress self A tables cur)
          (fun (probe : Production) (cur : List Bool × List Bool) =>
            cur.2[probe.index]? = some true)
          probes
          (fun cur probe cur2 hprobe hcur hstep =>
            (mark_firsts_probe_post self hindex fuel A ih tables cur cur2 probe
              ((hmem probe).1 hprobe).1 ((hmem probe).1 hprobe).2 hcur hstep).1)
          (fun cur probe cur2 hprobe hcur hstep =>
            (mark_firsts_probe_post self hindex fuel A ih tables cur cur2 probe
              ((hmem probe).1 hprobe).1 ((hmem probe).1 hprobe).2 hcur hstep).2.1)
          (fun cur probe cur2 x hprobe hcur hstep hx =>
            (mark_firsts_probe_post self hindex fuel A ih tables cur cur2 probe
              ((hmem probe).1 hprobe).1 ((hmem probe).1 hprobe).2 hcur hstep).2.2 _ hx)
          tables tables2
          ⟨fun _ ht => ht, fun _ hi => hi, fun _ ht => Or.inl ht, rfl,
            fun q _ h1 h2 => absurd h1 h2⟩
          h
        exact ⟨key.1, fun q hq hqA => key.2 q ((hmem q).2 ⟨hq, hqA⟩)⟩

/-- After a call of `mark_firsts_with_table` that started with no production
tried, the productions of every nonterminal reached from `A` along the leftmost
relation are tried. -/
theorem mark_firsts_reached_tried (self : Grammar) (A : Nat)
    (tables tables2 : List Bool × List Bool)
    (hfresh : ∀ i : Nat, tables.2[i]? ≠ some true)
    (hpost : firsts_post self A tables tables2) (B : Nat)
    (hchain : Relation.ReflTransGen (leftmost self.productions) A B) :
    ∀ q, q ∈ self.productions → q.nonterminal_index = B → tables2.2[q.index]? = some true := by
  obtain ⟨⟨_, _, _, _, hnew⟩, hall⟩ := hpost
  induction hchain with
  | refl => exact hall
  | tail _ hlast ih =>
    obtain ⟨p, hp, hpB, hp0⟩ := hlast
    intro q hq hqC
    have hhandled := hnew p hp (ih p hp hpB) (hfresh p.index)
    exact hhandled.2 _ hp0 q hq hqC

/-- C13: in a grammar with no empty right-hand side (indexed and valid), for
every nonterminal A, `mark_firsts` returns, and it sets `table[t]` to 1 for
exactly the terminals t for which there is a chain of nonterminals
A = B0, ..., Bn, each B(i+1) the leftmost symbol of a production of Bi, and a
production of Bn with leftmost symbol t; the other entries of the table are
left as they were. -/
theorem mark_firsts_correct (self : Grammar) (hself : grammar_indexed self)
    (hne : ∀ q, q ∈ self.productions → q.components ≠ []) (A : Nat)
    (hA : A < self.nonterminal_count) (table : List Bool)
    (hT : table.length = self.terminal_count) :
    (∃ table2, mark_firsts (self.production_count + 1) self
      (some (Component.nonterminal A)) table = some table2) ∧
    ∀ fuel table2, mark_firsts fuel self (some (Component.nonterminal A)) table = some table2 →
      table2.length = table.length ∧
      ∀ t, t < table.length →
        (first_terminal self.productions A t → table2[t]? = some true) ∧
        (¬ first_terminal self.productions A t → table2[t]? = table[t]?) := by
  constructor
  · obtain ⟨tables2, h2, _⟩ := mark_firsts_with_table_total self hself hne
      (self.production_count + 1) A (table, List.replicate self.production_count false) hA hT
      (by simp) (by simp only [List.count_replicate_self]; omega)
    refine ⟨tables2.1, ?_⟩
    unfold mark_firsts
    rw [h2]
    rfl
  · intro fuel table2 h
    unfold mark_firsts at h
    obtain ⟨tables2, h2, h3⟩ := Option.map_eq_some'.1 h
    subst h3
    have hpost := mark_firsts_with_table_post self hself fuel A _ tables2 h2
    have hfresh : ∀ i : Nat,
        (table, List.replicate self.production_count false).2[i]? ≠ some true := by
      intro i hi
      have := List.getElem?_mem hi
      exact absurd (List.mem_replicate.1 this).2 (by simp)
    have hreach := mark_firsts_reached_tried self A _ tables2 hfresh hpost
    obtain ⟨⟨hm1, _, hsound, hlen, hnew⟩, _⟩ := hpost
    simp only at hm1 hsound hlen hnew
    refine ⟨hlen, ?_⟩
    intro t ht
    constructor
    · rintro ⟨B, q, hchain, hq, hqB, hq0⟩
      have htried := hreach B hchain q hq hqB
      exact (hnew q hq htried (hfresh q.index)).1 t hq0
    · intro hnot
      have ht2 : t < tables2.1.length := by rw [hlen]; exact ht
      rw [List.getElem?_eq_getElem ht2, List.getElem?_eq_getElem ht]
      congr 1
      cases hv : table[t] with
      | true =>
        have := hm1 t (by rw [List.getElem?_eq_getElem ht, hv])
        rw [List.getElem?_eq_getElem ht2] at this
        exact Option.some.inj this
      | false =>
        cases hv2 : tables2.1[t] with
        | false => rfl
        | true =>
          rcases hsound t (by rw [List.getElem?_eq_getElem ht2, hv2]) with hold | hfirst
          · rw [List.getElem?_eq_getElem ht, hv] at hold
            exact absurd (Option.some.inj hold) (by simp)
          · exact absurd hfirst hnot

/-- Witness of C13 on scenario C: FIRST(E) from the empty table. -/
theorem mark_firsts_correct_witness :
    (∃ table2, mark_firsts (scenario_c_built.production_count + 1) scenario_c_built
      (some (Component.nonterminal 1)) [false, false] = some table2) ∧
    ∀ fuel table2,
      mark_firsts fuel scenario_c_built (some (Component.nonterminal 1)) [false, false]
        = some table2 →
      table2.length = ([false, false] : List Bool).length ∧
      ∀ t, t < ([false, false] : List Bool).length →
        (first_terminal scenario_c_built.productions 1 t → table2[t]? = some true) ∧
        (¬ first_terminal scenario_c_built.productions 1 t →
          table2[t]? = ([false, false] : List Bool)[t]?) :=
  mark_firsts_correct scenario_c_built (by unfold grammar_indexed valid_grammar; decide)
    (by decide) 1 (by decide) [false, false] (by decide)


/-! ## Empty productions -/

/-- C16, the code at the failing input: on scenario D, whose production 1 is
empty, the closure loop of `compute_pairs_for_kernel_item` hands the `NULL`
first symbol of production 1 to `component_index`, so computing the pairs table
of kernel 0 is an undefined run instead of a run that adds no entry; the same
`NULL` reaches `component_is_nonterminal` in `compute_generates`, so
`grammar_alloc` returns nothing, whatever the fuel. -/
theorem empty_production_undefined :
    production_get_component
      { index := 1, nonterminal_index := 1, components := [] } 0 = none ∧
    component_index scenario_d_indexed none = none ∧
    compute_pairs scenario_d_indexed { pairs := [2], goto_table := none }
      (List.replicate (grammar_get_component_count scenario_d_indexed) []) = none ∧
    ∀ fuel, grammar_alloc fuel scenario_d 1 2 = none := by
  refine ⟨by decide, by decide, by decide, ?_⟩
  intro fuel
  have hstep : ∀ t, compute_generates_step fuel 2 t
      { index := 1, nonterminal_index := 1, components := [] } = none := by
    intro t
    rfl
  have hgen : ∀ self : Grammar, self.productions = scenario_d → self.nonterminal_count = 2 →
      compute_generates fuel self = none := by
    intro self hp hn
    unfold compute_generates
    rw [hp, hn]
    unfold scenario_d
    rw [List.foldlM_cons]
    cases compute_generates_step fuel 2 (List.replicate 2 none)
        { index := 0, nonterminal_index := 0, components := [Component.nonterminal 1] } with
    | none => rfl
    | some t =>
      simp only [Option.bind_eq_bind, Option.some_bind]
      rw [List.foldlM_cons, hstep t]
      rfl
  unfold grammar_alloc
  have htable : compute_productions_by_nonterminal 2 scenario_d
      = some scenario_d_indexed.productions_by_nonterminal := by decide
  rw [htable]
  simp only [Option.some_bind]
  have hverify : verify_productions_by_nonterminal
      { productions := scenario_d, terminal_count := 1, nonterminal_count := 2,
        productions_by_nonterminal := scenario_d_indexed.productions_by_nonterminal,
        generates := [], kernels := [] } = some 0 := by decide
  rw [hverify]
  simp only [Option.some_bind]
  rw [hgen _ rfl rfl]
  rfl


/-! ## Termination of the work-list loop -/

/-- Two strictly descending arrays with the same elements are the same array. -/
theorem descending_eq_of_toFinset (l1 l2 : List Int)
    (h1 : l1.Pairwise (fun a b => b < a)) (h2 : l2.Pairwise (fun a b => b < a))
    (h : l1.toFinset = l2.toFinset) : l1 = l2 := by
  have hanti : IsAntisymm Int (fun a b => b < a) :=
    ⟨fun a b hab hba => absurd hab (lt_asymm hba)⟩
  have hn1 : l1.Nodup := h1.imp (fun hab => by omega)
  have hn2 : l2.Nodup := h2.imp (fun hab => by omega)
  exact List.eq_of_perm_of_sorted (List.perm_of_nodup_nodup_toFinset_eq hn1 hn2 h) h1 h2

/-- The valid items are as many as `item_count` says. -/
theorem valid_items_length (self : Grammar) : (valid_items self).length = item_count self := by
  unfold valid_items item_count
  rw [List.length_flatMap]
  congr 1
  apply List.map_congr_left
  intro q _
  simp only [Function.comp, List.length_map, List.length_range]

/-- A valid item is among the valid items, in a grammar whose productions carry
their position as index. -/
theorem item_valid_mem (self : Grammar)
    (hindex : self.productions.map Production.index = List.range self.productions.length)
    (c : Int) (hc : item_valid self c) : c ∈ valid_items self := by
  obtain ⟨p, k, hpk, production, hp, hk⟩ := hc
  unfold valid_items
  rw [List.mem_flatMap]
  refine ⟨production, List.getElem?_mem hp, ?_⟩
  rw [List.mem_map]
  refine ⟨k, List.mem_range.2 (Nat.lt_succ_of_le hk), ?_⟩
  have hidx : production.index = p := by
    have h2 : (self.productions.map Production.index)[p]? = some production.index := by
      rw [List.getElem?_map, hp]
      rfl
    obtain ⟨hplt, _⟩ := List.getElem?_eq_some.1 hp
    rw [hindex, List.getElem?_range hplt] at h2
    exact (Option.some.inj h2).symm
  rw [hpk, hidx]

/-- Sound kernels are at most as many as the non-empty sets of valid items. -/
theorem kernels_sound_length (self : Grammar)
    (hindex : self.productions.map Production.index = List.range self.productions.length)
    (ks : List Kernel) (hks : kernels_sound self ks) :
    ks.length ≤ 2 ^ item_count self - 1 := by
  obtain ⟨hvalid, hdesc, hnonempty, hnodup⟩ := hks
  -- the sets of items of the kernels are pairwise distinct
  have hsets : ((ks.map Kernel.pairs).map List.toFinset).Nodup := by
    apply List.Nodup.map_on _ hnodup
    intro x hx y hy hxy
    obtain ⟨Kx, hKx, rfl⟩ := List.mem_map.1 hx
    obtain ⟨Ky, hKy, rfl⟩ := List.mem_map.1 hy
    exact descending_eq_of_toFinset _ _ (hdesc Kx hKx) (hdesc Ky hKy) hxy
  have hcard := List.toFinset_card_of_nodup hsets
  rw [List.length_map, List.length_map] at hcard
  rw [← hcard]
  -- each is a non-empty set of valid items
  have hsub : ((ks.map Kernel.pairs).map List.toFinset).toFinset
      ⊆ (valid_items self).toFinset.powerset.erase ∅ := by
    intro s hs
    rw [List.mem_toFinset, List.mem_map] at hs
    obtain ⟨l, hl, rfl⟩ := hs
    obtain ⟨K, hK, rfl⟩ := List.mem_map.1 hl
    rw [Finset.mem_erase, Finset.mem_powerset]
    constructor
    · intro hempty
      exact hnonempty K hK ((List.toFinset_eq_empty_iff _).1 hempty)
    · intro c hc
      rw [List.mem_toFinset] at hc ⊢
      exact item_valid_mem self hindex c (hvalid K hK c hc)
  refine le_trans (Finset.card_le_card hsub) ?_
  rw [Finset.card_erase_of_mem (Finset.empty_mem_powerset _), Finset.card_powerset]
  have hle : (valid_items self).toFinset.card ≤ item_count self := by
    rw [← valid_items_length]
    exact List.toFinset_card_le _
  have := Nat.pow_le_pow_right (by decide : 0 < 2) hle
  omega


/-- `add_pairs_entry` succeeds on a row of the table and keeps the number of
rows. -/
theorem add_pairs_entry_total (table : List (List Int)) (index : Nat) (pair : Int)
    (h : index < table.length) :
    ∃ table2, add_pairs_entry table index pair = some table2 ∧
      table2.length = table.length := by
  unfold add_pairs_entry
  rw [List.getElem?_eq_getElem h]
  exact ⟨_, rfl, by rw [List.length_set]⟩

/-- The component index of a symbol in range is below the component count. -/
theorem component_index_total (self : Grammar) (X : Component)
    (hX : component_in_range self.terminal_count self.nonterminal_count X) :
    ∃ index, component_index self (some X) = some index ∧
      index < grammar_get_component_count self := by
  unfold grammar_get_component_count
  cases X with
  | nonterminal j =>
    have hj : j < self.nonterminal_count := hX
    exact ⟨j, rfl, by omega⟩
  | terminal t =>
    have ht : t < self.terminal_count := hX
    exact ⟨self.nonterminal_count + t, rfl, by omega⟩

/-- `compute_pairs` is defined for a kernel of valid items of an indexed valid
grammar without empty right-hand side whose `generates` table has its rows. -/
theorem compute_pairs_total (self : Grammar) (hself : grammar_indexed self)
    (hne : ∀ q, q ∈ self.productions → q.components ≠ [])
    (hgen : self.generates.length = self.nonterminal_count) (kernel : Kernel)
    (hk : ∀ c, c ∈ kernel.pairs → item_valid self c) (table : List (List Int))
    (htable : table.length = grammar_get_component_count self) :
    ∃ table2, compute_pairs self kernel table = some table2 := by
  have hrange := hself.1.2.2.1
  -- the first loop
  obtain ⟨shifted, hshift, hslen⟩ := foldlM_total (compute_pairs_shift self)
    (fun t => t.length = grammar_get_component_count self) kernel.pairs
    (fun t code hcode ht => by
      obtain ⟨p, k, hpk, production, hp, _⟩ := hk code hcode
      unfold compute_pairs_shift
      rw [hpk, decode_item self p k production hp]
      simp only [Option.some_bind]
      rw [production_at_nat, hp]
      simp only [Option.some_bind]
      rw [production_get_component_nat]
      cases hX : production.components[k]? with
      | none => exact ⟨t, rfl, ht⟩
      | some X =>
        simp only
        obtain ⟨index, hindex, hlt⟩ := component_index_total self X
          ((hrange production (List.getElem?_mem hp)).2 X (List.getElem?_mem hX))
        rw [hindex]
        simp only [Option.some_bind]
        obtain ⟨t2, ht2, hlen2⟩ := add_pairs_entry_total t index
          (encode self (p : Int) ((k : Int) + 1)) (by rw [ht]; exact hlt)
        exact ⟨t2, ht2, by rw [hlen2, ht]⟩)
    table htable
  -- the second loop
  obtain ⟨closed, hclosed, _⟩ := foldlM_total (compute_pairs_closure self)
    (fun t => t.length = grammar_get_component_count self) kernel.pairs
    (fun t code hcode ht => by
      obtain ⟨p, k, hpk, production, hp, _⟩ := hk code hcode
      unfold compute_pairs_closure
      rw [hpk, decode_item self p k production hp]
      simp only [Option.some_bind]
      rw [production_at_nat, hp]
      simp only [Option.some_bind]
      unfold compute_pairs_for_kernel_item
      rw [production_get_component_nat]
      cases hX : production.components[k]? with
      | none => exact ⟨t, rfl, ht⟩
      | some X =>
        cases X with
        | terminal j => exact ⟨t, rfl, ht⟩
        | nonterminal B =>
          simp only
          have hB : B < self.nonterminal_count :=
            (hrange production (List.getElem?_mem hp)).2 _ (List.getElem?_mem hX)
          rw [List.getElem?_eq_getElem (by omega : B < self.generates.length)]
          simp only
          refine foldlM_total _ (fun t => t.length = grammar_get_component_count self)
            (List.range self.nonterminal_count) ?_ t ht
          intro u i hi hu
          simp only
          by_cases hcond : B = i ∨ generates_cell self.generates[B] i = true
          · rw [if_pos hcond]
            obtain ⟨probes, hrow, _, hprobes⟩ :=
              productions_by_nonterminal_row self hself i (List.mem_range.1 hi)
            rw [hrow]
            simp only
            refine foldlM_total (add_probe_entry self)
              (fun t => t.length = grammar_get_component_count self) probes ?_ u hu
            intro v probe hprobe hv
            obtain ⟨hin, _⟩ := (hprobes probe).1 hprobe
            obtain ⟨X, rest, hX2⟩ := List.exists_cons_of_ne_nil (hne probe hin)
            have h0 : production_get_component probe 0 = some X := by
              have := production_get_component_nat probe 0
              simp only [Nat.cast_zero] at this
              rw [this, hX2, List.getElem?_cons_zero]
            obtain ⟨index, hindex, hlt⟩ := component_index_total self X
              ((hrange probe hin).2 X (by rw [hX2]; exact List.mem_cons_self X rest))
            unfold add_probe_entry
            rw [h0, hindex]
            simp only [Option.some_bind]
            obtain ⟨v2, hv2, hlen2⟩ := add_pairs_entry_total v index
              (encode self (production_get_index probe) 1) (by rw [hv]; exact hlt)
            exact ⟨v2, hv2, by rw [hlen2, hv]⟩
          · rw [if_neg hcond]
            exact ⟨u, rfl, hu⟩)
    shifted hslen
  refine ⟨closed, ?_⟩
  unfold compute_pairs
  rw [hshift]
  exact hclosed


/-- One iteration of the work-list loop keeps the kernels sound, changes
nothing but the kernel table and does not shorten it. -/
theorem compute_lr0_kernels_step_sound (self : Grammar) (hself : grammar_indexed self)
    (g : Grammar) (hframe : g = { self with kernels := g.kernels })
    (hks : kernels_sound self g.kernels) (i : Nat) (kernel : Kernel)
    (hk : g.kernels[i]? = some kernel) (g2 : Grammar)
    (hstep : compute_lr0_kernels_step g i kernel = some g2) :
    g2 = { self with kernels := g2.kernels } ∧ kernels_sound self g2.kernels ∧
    g.kernels.length ≤ g2.kernels.length := by
  obtain ⟨⟨_, hindex, _, _⟩, hpbn⟩ := hself
  obtain ⟨hvalid, hdesc, hnonempty, hnodup⟩ := hks
  obtain ⟨table, t, gt, htable, hg2, hnew, hnodup2, _, _, _⟩ :=
    compute_lr0_kernels_step_spec g i kernel g2 hstep
  obtain ⟨_, hrows, hhas⟩ := compute_pairs_empty g kernel table htable
  have hpairs := compute_lr0_kernels_step_pairs g i kernel t (some gt) hk
  have hkernels : g2.kernels = (g.kernels ++ t).set i { kernel with goto_table := some gt } := by
    rw [hg2]
  have hpe : pairs_entry g kernel = pairs_entry self kernel := by
    rw [hframe]
    rfl
  -- a kernel after the iteration is a kernel before it or a new one
  have hcases : ∀ K, K ∈ g2.kernels →
      (∃ K2, K2 ∈ g.kernels ∧ K2.pairs = K.pairs) ∨ (∃ K2, K2 ∈ t ∧ K2.pairs = K.pairs) := by
    intro K hK
    have hKp : K.pairs ∈ g2.kernels.map Kernel.pairs := List.mem_map_of_mem _ hK
    rw [hkernels, hpairs, List.mem_append] at hKp
    rcases hKp with hKp | hKp
    · exact Or.inl (List.mem_map.1 hKp)
    · exact Or.inr (List.mem_map.1 hKp)
  refine ⟨?_, ⟨?_, ?_, ?_, ?_⟩, ?_⟩
  · rw [hg2]
    simp only
    rw [hframe]
  · intro K hK c hc
    rcases hcases K hK with ⟨K2, hK2, hK2p⟩ | ⟨K2, hK2, hK2p⟩
    · rw [← hK2p] at hc
      exact hvalid K2 hK2 c hc
    · rw [← hK2p] at hc
      obtain ⟨n, hn⟩ := List.mem_iff_getElem?.1 (hnew K2 hK2).2.1
      have hx : pairs_entry g kernel n c := (hhas n c).1 ⟨K2.pairs, hn, hc⟩
      rw [hpe] at hx
      exact pairs_entry_valid self kernel (hvalid kernel (List.getElem?_mem hk))
        (fun j probes q hrow hq => production_at_index self.productions hindex q
          ((productions_by_nonterminal_mem _ _ _ hpbn j probes hrow q).1 hq).1)
        n c hx
  · intro K hK
    rcases hcases K hK with ⟨K2, hK2, hK2p⟩ | ⟨K2, hK2, hK2p⟩
    · rw [← hK2p]
      exact hdesc K2 hK2
    · rw [← hK2p]
      exact hrows _ (hnew K2 hK2).2.1
  · intro K hK
    rcases hcases K hK with ⟨K2, hK2, hK2p⟩ | ⟨K2, hK2, hK2p⟩
    · rw [← hK2p]
      exact hnonempty K2 hK2
    · rw [← hK2p]
      exact (hnew K2 hK2).2.2
  · rw [hkernels, hpairs, ← List.map_append]
    exact hnodup2 hnodup
  · rw [hkernels, List.length_set, List.length_append]
    omega

/-- The work-list loop returns when the fuel left and the index of the kernel
at hand add up to more than the number of non-empty sets of valid items: the
kernels are never more than these sets, and every iteration moves to the next
kernel. -/
theorem compute_lr0_kernels_loop_total (self : Grammar) (hself : grammar_indexed self)
    (hne : ∀ q, q ∈ self.productions → q.components ≠ [])
    (hgen : self.generates.length = self.nonterminal_count) (fuel : Nat) :
    ∀ (g : Grammar) (i : Nat), g = { self with kernels := g.kernels } →
      kernels_sound self g.kernels → i ≤ g.kernels.length →
      2 ^ item_count self ≤ fuel + i →
      ∃ g2, compute_lr0_kernels_loop fuel g i = some g2 := by
  induction fuel with
  | zero =>
    intro g i _ hks hi hfuel
    have := kernels_sound_length self hself.1.2.1 g.kernels hks
    have hpos : 0 < 2 ^ item_count self := Nat.pow_pos (by decide)
    omega
  | succ fuel ih =>
    intro g i hframe hks hi hfuel
    unfold compute_lr0_kernels_loop
    cases hk : g.kernels[i]? with
    | none => exact ⟨g, rfl⟩
    | some kernel =>
      simp only
      have hg : grammar_indexed g := by
        rw [hframe]
        exact hself
      have hgne : ∀ q, q ∈ g.productions → q.components ≠ [] := by
        rw [hframe]
        exact hne
      have hggen : g.generates.length = g.nonterminal_count := by
        rw [hframe]
        exact hgen
      have hkv : ∀ c, c ∈ kernel.pairs → item_valid g c := by
        intro c hc
        have := hks.1 kernel (List.getElem?_mem hk) c hc
        rw [hframe]
        exact this
      obtain ⟨table, htable⟩ := compute_pairs_total g hg hgne hggen kernel hkv
        (List.replicate (grammar_get_component_count g) []) (by simp)
      have hstep : ∃ g2, compute_lr0_kernels_step g i kernel = some g2 := by
        unfold compute_lr0_kernels_step
        rw [htable]
        exact ⟨_, rfl⟩
      obtain ⟨g2, hg2⟩ := hstep
      rw [hg2]
      simp only [Option.some_bind]
      obtain ⟨hframe2, hks2, hlen2⟩ :=
        compute_lr0_kernels_step_sound self hself g hframe hks i kernel hk g2 hg2
      obtain ⟨hilt, _⟩ := List.getElem?_eq_some.1 hk
      exact ih g2 (i + 1) hframe2 hks2 (by omega) (by omega)

/-- The start kernel alone is a sound kernel table, in a valid grammar. -/
theorem kernels_sound_start (self : Grammar) (hP : 1 ≤ self.productions.length) :
    kernels_sound self [kernel_alloc [encode self 0 0]] := by
  refine ⟨?_, ?_, ?_, by simp⟩
  · intro K hK c hc
    simp only [List.mem_singleton] at hK
    rw [hK] at hc
    simp only [kernel_alloc, List.mem_singleton] at hc
    exact ⟨0, 0, by rw [hc]; rfl, self.productions[0], List.getElem?_eq_getElem (by omega),
      Nat.zero_le _⟩
  · intro K hK
    simp only [List.mem_singleton] at hK
    rw [hK]
    simp [kernel_alloc]
  · intro K hK
    simp only [List.mem_singleton] at hK
    rw [hK]
    simp [kernel_alloc]

/-! ## More fuel does not change a result -/

/-- Two loops agree when their bodies agree on every state of a set of states
that the second body does not leave. -/
theorem foldlM_congr_inv {α β : Type} (f g : β → α → Option β) (Inv : β → Prop) (l : List α)
    (hfg : ∀ b a, a ∈ l → Inv b → f b a = g b a)
    (hinv : ∀ b a r, a ∈ l → Inv b → g b a = some r → Inv r)
    (b : β) (hb : Inv b) : l.foldlM f b = l.foldlM g b := by
  induction l generalizing b with
  | nil => rfl
  | cons a l ih =>
    rw [List.foldlM_cons, List.foldlM_cons, hfg b a (List.mem_cons_self a l) hb]
    cases hg : g b a with
    | none => rfl
    | some r =>
      simp only [Option.bind_eq_bind, Option.some_bind]
      exact ih (fun b2 a2 ha2 => hfg b2 a2 (List.mem_cons_of_mem a ha2))
        (fun b2 a2 r2 ha2 => hinv b2 a2 r2 (List.mem_cons_of_mem a ha2)) r
        (hinv b a r (List.mem_cons_self a l) hb hg)

/-- With more fuel than zero cells, one more unit of fuel does not change the
outcome of `mark_generates`, whether it is a table or an undefined run: the
calls never nest deeper than the number of zero cells. -/
theorem mark_generates_stable (fuel N : Nat) :
    ∀ (gen : List (Option (List Bool))) (a b : Nat),
      generates_shape N gen → generates_zeros N gen < fuel →
      mark_generates (fuel + 1) N gen a b = mark_generates fuel N gen a b := by
  induction fuel with
  | zero =>
    intro gen a b _ hz
    exact absurd hz (Nat.not_lt_zero _)
  | succ fuel ih =>
    intro gen a b hs hz
    rw [mark_generates, mark_generates]
    cases hrow : gen[a]? with
    | none => rfl
    | some row =>
      simp only
      by_cases hcell : generates_cell row b = true
      · rw [if_pos hcell, if_pos hcell]
      · rw [if_neg hcell, if_neg hcell]
        cases hset : set_generates N gen a b with
        | none => rfl
        | some marked =>
          simp only [Option.some_bind]
          obtain ⟨hsm, hrelm⟩ := set_generates_spec N gen marked a b hs hset
          have hnew : generates_rel marked a b := (hrelm a b).2 (Or.inr ⟨rfl, rfl⟩)
          have hold : ¬ generates_rel gen a b := by
            rintro ⟨row2, hrow2, hcell2⟩
            rw [hrow] at hrow2
            rw [Option.some.inj hrow2] at hcell
            exact hcell hcell2
          obtain ⟨ha, hb⟩ := generates_rel_lt N marked hsm a b hnew
          have hzm : generates_zeros N marked < fuel :=
            Nat.lt_of_lt_of_le
              (generates_zeros_lt N gen marked (fun x y hxy => (hrelm x y).2 (Or.inl hxy))
                a b ha hb hold hnew)
              (Nat.le_of_lt_succ hz)
          have hkeep : ∀ (t r : List (Option (List Bool))) (x y : Nat),
              (generates_shape N t ∧ generates_zeros N t < fuel) →
              mark_generates fuel N t x y = some r →
              generates_shape N r ∧ generates_zeros N r < fuel := by
            intro t r x y ht hr
            obtain ⟨⟨hsr, hmono, _⟩, _, _⟩ := mark_generates_spec fuel N t x y r ht.1 hr
            exact ⟨hsr, Nat.lt_of_le_of_lt (generates_zeros_mono N t r hmono) ht.2⟩
          have hinv1 : ∀ (t : List (Option (List Bool))) (index : Nat)
              (r : List (Option (List Bool))), index ∈ List.range N →
              (generates_shape N t ∧ generates_zeros N t < fuel) →
              (match t[index]? with
                | none => none
                | some row =>
                  if generates_cell row a then mark_generates fuel N t index b
                  else some t) = some r →
              generates_shape N r ∧ generates_zeros N r < fuel := by
            intro t index r _ ht hr
            cases hti : t[index]? with
            | none =>
              rw [hti] at hr
              exact absurd hr (by simp)
            | some row2 =>
              rw [hti] at hr
              simp only at hr
              by_cases hc : generates_cell row2 a = true
              · rw [if_pos hc] at hr
                exact hkeep t r index b ht hr
              · rw [if_neg hc] at hr
                rw [← Option.some.inj hr]
                exact ht
          have hloop1 := foldlM_congr_inv
            (fun (table : List (Option (List Bool))) (index : Nat) =>
              match table[index]? with
              | none => none
              | some row =>
                if generates_cell row a then mark_generates (fuel + 1) N table index b
                else some table)
            (fun (table : List (Option (List Bool))) (index : Nat) =>
              match table[index]? with
              | none => none
              | some row =>
                if generates_cell row a then mark_generates fuel N table index b
                else some table)
            (fun t => generates_shape N t ∧ generates_zeros N t < fuel) (List.range N)
            (fun t index _ ht => by
              beta_reduce
              cases t[index]? with
              | none => rfl
              | some row2 =>
                simp only
                by_cases hc : generates_cell row2 a = true
                · rw [if_pos hc, if_pos hc]
                  exact ih t index b ht.1 ht.2
                · rw [if_neg hc, if_neg hc])
            hinv1 marked ⟨hsm, hzm⟩
          rw [hloop1]
          cases hl1 : (List.range N).foldlM
            (fun (table : List (Option (List Bool))) (index : Nat) =>
              match table[index]? with
              | none => none
              | some row =>
                if generates_cell row a then mark_generates fuel N table index b
                else some table) marked with
          | none => rfl
          | some propagated =>
            simp only [Option.some_bind]
            have hprop := foldlM_invariant _
              (fun t => generates_shape N t ∧ generates_zeros N t < fuel) (List.range N)
              hinv1 marked propagated ⟨hsm, hzm⟩ hl1
            cases hpb : propagated[b]? with
            | none => rfl
            | some rowb =>
              cases rowb with
              | none => rfl
              | some cells =>
                simp only
                exact foldlM_congr_inv _ _
                  (fun t => generates_shape N t ∧ generates_zeros N t < fuel) (List.range N)
                  (fun t index _ ht => by
                    cases t[b]? with
                    | none => rfl
                    | some row2 =>
                      cases row2 with
                      | none => rfl
                      | some cs =>
                        simp only
                        by_cases hc : cs.getD index false = true
                        · rw [if_pos hc, if_pos hc]
                          exact ih t a index ht.1 ht.2
                        · rw [if_neg hc, if_neg hc])
                  (fun t index r _ ht hr => by
                    cases htb : t[b]? with
                    | none =>
                      rw [htb] at hr
                      exact absurd hr (by simp)
                    | some row2 =>
                      cases row2 with
                      | none =>
                        rw [htb] at hr
                        exact absurd hr (by simp)
                      | some cs =>
                        rw [htb] at hr
                        simp only at hr
                        by_cases hc : cs.getD index false = true
                        · rw [if_pos hc] at hr
                          exact hkeep t r a index ht hr
                        · rw [if_neg hc] at hr
                          rw [← Option.some.inj hr]
                          exact ht)
                  propagated hprop

/-- With more fuel than cells in the matrix, the outcome of `compute_generates`
is the same for every amount of fuel, whatever the grammar. -/
theorem compute_generates_stable (self : Grammar) (fuel fuel2 : Nat)
    (hfuel : self.nonterminal_count * self.nonterminal_count < fuel) (hle : fuel ≤ fuel2) :
    compute_generates fuel2 self = compute_generates fuel self := by
  induction hle with
  | refl => rfl
  | @step m hm ih =>
    rw [← ih]
    unfold compute_generates
    congr 1
    refine foldlM_congr_inv _ _ (fun t => generates_shape self.nonterminal_count t)
      self.productions (fun t q _ ht => ?_) (fun t q r _ ht hr => ?_)
      (List.replicate self.nonterminal_count none)
      ⟨by simp, fun a cells ha => by
        have := List.getElem?_mem ha
        exact absurd (List.mem_replicate.1 this).2 (by simp)⟩
    · unfold compute_generates_step
      simp only
      cases component_is_nonterminal (production_get_component q 0) with
      | none => rfl
      | some is_nonterminal =>
        simp only [Option.some_bind]
        by_cases hnt : is_nonterminal = true
        · rw [if_pos hnt, if_pos hnt]
          cases component_get_index (production_get_component q 0) with
          | none => rfl
          | some index =>
            simp only [Option.some_bind]
            exact mark_generates_stable m self.nonterminal_count t _ _ ht
              (Nat.lt_of_le_of_lt (generates_zeros_le _ t) (Nat.lt_of_lt_of_le hfuel hm))
        · rw [if_neg hnt, if_neg hnt]
    · unfold compute_generates_step at hr
      simp only at hr
      obtain ⟨is_nonterminal, _, hr⟩ := Option.bind_eq_some.1 hr
      by_cases hnt : is_nonterminal = true
      · rw [if_pos hnt] at hr
        obtain ⟨index, _, hr⟩ := Option.bind_eq_some.1 hr
        exact (mark_generates_spec m self.nonterminal_count t _ _ r ht hr).1.1
      · rw [if_neg hnt] at hr
        rw [← Option.some.inj hr]
        exact ht


/-- A run of `mark_firsts_with_table` leaves no more untried productions than
it found, whatever the grammar. -/
theorem mark_firsts_with_table_untried (fuel : Nat) (self : Grammar) :
    ∀ (nonterminal : Option Component) (tables tables2 : List Bool × List Bool),
      mark_firsts_with_table fuel self nonterminal tables = some tables2 →
      tables2.2.count false ≤ tables.2.count false := by
  induction fuel with
  | zero =>
    intro nonterminal tables tables2 h
    simp [mark_firsts_with_table] at h
  | succ fuel ih =>
    intro nonterminal tables tables2 h
    rw [mark_firsts_with_table] at h
    obtain ⟨index, _, h⟩ := Option.bind_eq_some.1 h
    cases hrow : self.productions_by_nonterminal[index]? with
    | none =>
      rw [hrow] at h
      exact absurd h (by simp)
    | some row =>
      cases row with
      | none =>
        rw [hrow] at h
        exact absurd h (by simp)
      | some probes =>
        rw [hrow] at h
        simp only at h
        refine foldlM_invariant _ (fun t => t.2.count false ≤ tables.2.count false) probes
          (fun t probe r _ ht hr => ?_) tables tables2 (le_refl _) h
        beta_reduce at hr ⊢
        cases htried : t.2[production_get_index probe]? with
        | none =>
          rw [htried] at hr
          exact absurd hr (by simp)
        | some tried =>
          rw [htried] at hr
          cases tried with
          | true =>
            rw [← Option.some.inj hr]
            exact ht
          | false =>
            simp only at hr
            have hset := count_false_set t.2 (production_get_index probe) htried
            obtain ⟨is_nonterminal, _, hr⟩ := Option.bind_eq_some.1 hr
            by_cases hnt : is_nonterminal = true
            · rw [if_pos hnt] at hr
              have := ih _ _ r hr
              simp only at this
              omega
            · rw [if_neg hnt] at hr
              obtain ⟨terminal, _, hr⟩ := Option.bind_eq_some.1 hr
              by_cases hlt : terminal < t.1.length
              · rw [if_pos hlt] at hr
                rw [← Option.some.inj hr]
                simp only
                omega
              · rw [if_neg hlt] at hr
                exact absurd hr (by simp)

/-- With more fuel than untried productions, one more unit of fuel does not
change the outcome of `mark_firsts_with_table`, whether it is a pair of tables
or an undefined run: the calls never nest deeper than the number of untried
productions.  This holds for every grammar. -/
theorem mark_firsts_with_table_stable (fuel : Nat) (self : Grammar) :
    ∀ (nonterminal : Option Component) (tables : List Bool × List Bool),
      tables.2.count false < fuel →
      mark_firsts_with_table (fuel + 1) self nonterminal tables
        = mark_firsts_with_table fuel self nonterminal tables := by
  induction fuel with
  | zero =>
    intro nonterminal tables hz
    exact absurd hz (Nat.not_lt_zero _)
  | succ fuel ih =>
    intro nonterminal tables hz
    rw [mark_firsts_with_table, mark_firsts_with_table]
    cases component_get_index nonterminal with
    | none => rfl
    | some index =>
      simp only [Option.some_bind]
      cases self.productions_by_nonterminal[index]? with
      | none => rfl
      | some row =>
        cases row with
        | none => rfl
        | some probes =>
          simp only
          refine foldlM_congr_inv _ _ (fun t => t.2.count false < fuel + 1) probes
            (fun t probe _ ht => ?_) (fun t probe r _ ht hr => ?_) tables hz
          · beta_reduce
            cases htried : t.2[production_get_index probe]? with
            | none => rfl
            | some tried =>
              cases tried with
              | true => rfl
              | false =>
                simp only
                have hset := count_false_set t.2 (production_get_index probe) htried
                cases component_is_nonterminal (production_get_component probe 0) with
                | none => rfl
                | some is_nonterminal =>
                  simp only [Option.some_bind]
                  by_cases hnt : is_nonterminal = true
                  · rw [if_pos hnt, if_pos hnt]
                    exact ih _ _ (by simp only; omega)
                  · rw [if_neg hnt, if_neg hnt]
          · have hcount : r.2.count false ≤ t.2.count false := by
              beta_reduce at hr
              cases htried : t.2[production_get_index probe]? with
              | none =>
                rw [htried] at hr
                exact absurd hr (by simp)
              | some tried =>
                rw [htried] at hr
                cases tried with
                | true =>
                  rw [← Option.some.inj hr]
                | false =>
                  simp only at hr
                  have hset := count_false_set t.2 (production_get_index probe) htried
                  obtain ⟨is_nonterminal, _, hr⟩ := Option.bind_eq_some.1 hr
                  by_cases hnt : is_nonterminal = true
                  · rw [if_pos hnt] at hr
                    have := mark_firsts_with_table_untried fuel self _ _ r hr
                    simp only at this
                    omega
                  · rw [if_neg hnt] at hr
                    obtain ⟨terminal, _, hr⟩ := Option.bind_eq_some.1 hr
                    by_cases hlt : terminal < t.1.length
                    · rw [if_pos hlt] at hr
                      rw [← Option.some.inj hr]
                      simp only
                      omega
                    · rw [if_neg hlt] at hr
                      exact absurd hr (by simp)
            exact Nat.lt_of_le_of_lt hcount ht

/-- With more fuel than productions, the outcome of `mark_firsts` is the same
for every amount of fuel, whatever the grammar, the symbol and the table. -/
theorem mark_firsts_stable (self : Grammar) (nonterminal : Option Component)
    (table : List Bool) (fuel fuel2 : Nat)
    (hfuel : self.production_count < fuel) (hle : fuel ≤ fuel2) :
    mark_firsts fuel2 self nonterminal table = mark_firsts fuel self nonterminal table := by
  induction hle with
  | refl => rfl
  | @step m hm ih =>
    rw [← ih]
    unfold mark_firsts
    rw [mark_firsts_with_table_stable m self nonterminal _ (by
      simp only [List.count_replicate_self, Grammar.production_count] at hfuel ⊢
      have := List.count_le_length false (List.replicate self.productions.length false)
      simp only [List.length_replicate] at this
      have hm2 : fuel ≤ m := hm
      omega)]


/-- With at least as much fuel as there are sets of valid items, counting the
kernels already handled, one more unit of fuel does not change the outcome of
the work-list loop, whether it is a grammar or an undefined run. -/
theorem compute_lr0_kernels_loop_stable (self : Grammar) (hself : grammar_indexed self)
    (fuel : Nat) :
    ∀ (g : Grammar) (i : Nat), g = { self with kernels := g.kernels } →
      kernels_sound self g.kernels → i ≤ g.kernels.length →
      2 ^ item_count self ≤ fuel + i →
      compute_lr0_kernels_loop (fuel + 1) g i = compute_lr0_kernels_loop fuel g i := by
  induction fuel with
  | zero =>
    intro g i _ hks hi hfuel
    have := kernels_sound_length self hself.1.2.1 g.kernels hks
    have hpos : 0 < 2 ^ item_count self := Nat.pow_pos (by decide)
    omega
  | succ fuel ih =>
    intro g i hframe hks hi hfuel
    rw [compute_lr0_kernels_loop, compute_lr0_kernels_loop]
    cases hk : g.kernels[i]? with
    | none => rfl
    | some kernel =>
      simp only
      cases hstep : compute_lr0_kernels_step g i kernel with
      | none => rfl
      | some g2 =>
        simp only [Option.some_bind]
        obtain ⟨hframe2, hks2, hlen2⟩ :=
          compute_lr0_kernels_step_sound self hself g hframe hks i kernel hk g2 hstep
        obtain ⟨hilt, _⟩ := List.getElem?_eq_some.1 hk
        exact ih g2 (i + 1) hframe2 hks2 (by omega) (by omega)

/-- With at least as much fuel as there are sets of valid items, the outcome
of `compute_lr0_kernels` on a valid grammar is the same for every amount of
fuel. -/
theorem compute_lr0_kernels_stable (self : Grammar) (hself : grammar_indexed self)
    (hk : self.kernels = []) (fuel fuel2 : Nat)
    (hfuel : 2 ^ item_count self ≤ fuel) (hle : fuel ≤ fuel2) :
    compute_lr0_kernels fuel2 self = compute_lr0_kernels fuel self := by
  induction hle with
  | refl => rfl
  | @step m hm ih =>
    rw [← ih]
    unfold compute_lr0_kernels
    rw [intern_start_kernel self hk]
    have hm2 : fuel ≤ m := hm
    exact compute_lr0_kernels_loop_stable self hself m
      { self with kernels := [kernel_alloc [encode self 0 0]] } 0 rfl
      (kernels_sound_start self hself.1.1) (Nat.zero_le _) (by omega)


/-! ## Termination -/

/-- C19: `compute_generates` terminates for every grammar, also with
self-referential or mutually left-recursive nonterminals.  A call of
`mark_generates` that does not return at once sets a cell of the N x N matrix
that was zero, so the calls nest at most N * N deep: with fuel above N * N the
outcome of `compute_generates` is the same for every amount of fuel, whatever
the grammar, and it is a grammar when the symbols are in range and no
right-hand side is empty (the run is then defined). -/
theorem compute_generates_terminates (self : Grammar) (fuel : Nat)
    (hfuel : self.nonterminal_count * self.nonterminal_count < fuel) :
    (∀ fuel2, fuel ≤ fuel2 → compute_generates fuel2 self = compute_generates fuel self) ∧
    ((∀ q, q ∈ self.productions → q.nonterminal_index < self.nonterminal_count ∧
        ∀ X, X ∈ q.components →
          component_in_range self.terminal_count self.nonterminal_count X) →
      (∀ q, q ∈ self.productions → q.components ≠ []) →
      ∃ generated, compute_generates fuel self = some generated) ∧
    (∀ (f : Nat) (gen : List (Option (List Bool))) (a b : Nat)
      (gen2 : List (Option (List Bool))),
      generates_shape self.nonterminal_count gen →
      mark_generates f self.nonterminal_count gen a b = some gen2 →
      (generates_rel gen a b ∧ gen2 = gen) ∨
      (¬ generates_rel gen a b ∧ generates_rel gen2 a b ∧
        generates_zeros self.nonterminal_count gen2
          < generates_zeros self.nonterminal_count gen)) ∧
    (∀ gen, generates_zeros self.nonterminal_count gen
      ≤ self.nonterminal_count * self.nonterminal_count) := by
  refine ⟨fun fuel2 hle => compute_generates_stable self fuel fuel2 hfuel hle,
    fun hrange hne => compute_generates_total fuel self hrange hne hfuel, ?_, ?_⟩
  · intro f gen a b gen2 hs h
    exact mark_generates_progress f self.nonterminal_count gen a b gen2 hs h
  · intro gen
    exact generates_zeros_le self.nonterminal_count gen

/-- Witness of C19 on scenario C, whose nonterminal E is left-recursive: fuel
10 exceeds 3 * 3. -/
theorem compute_generates_terminates_witness :
    ∃ generated, compute_generates 10 scenario_c_grouped = some generated :=
  (compute_generates_terminates scenario_c_grouped 10 (by decide)).2.1 (by decide) (by decide)

/-- C18: `mark_firsts` terminates for every grammar, left-recursive ones
included.  Each recursive call of `mark_firsts_with_table` comes after the
marking of a production that was untried, and no production becomes untried
again, so the calls nest at most as deep as there are untried productions,
`production_count` at the start: with fuel above `production_count` the
outcome of `mark_firsts` is the same for every amount of fuel, whatever the
grammar, and it is a table on an indexed valid grammar without empty right-hand
side (the run is then defined). -/
theorem mark_firsts_terminates (self : Grammar) (fuel : Nat)
    (hfuel : self.production_count < fuel) :
    (∀ (nonterminal : Option Component) (table : List Bool) (fuel2 : Nat), fuel ≤ fuel2 →
      mark_firsts fuel2 self nonterminal table = mark_firsts fuel self nonterminal table) ∧
    (∀ (f : Nat) (nonterminal : Option Component) (tables : List Bool × List Bool),
      tables.2.count false < f →
      mark_firsts_with_table (f + 1) self nonterminal tables
        = mark_firsts_with_table f self nonterminal tables) ∧
    (∀ (f : Nat) (nonterminal : Option Component) (tables tables2 : List Bool × List Bool),
      mark_firsts_with_table f self nonterminal tables = some tables2 →
      tables2.2.count false ≤ tables.2.count false) ∧
    (grammar_indexed self → (∀ q, q ∈ self.productions → q.components ≠ []) →
      ∀ (A : Nat) (table : List Bool), A < self.nonterminal_count →
        table.length = self.terminal_count →
        ∃ table2, mark_firsts fuel self (some (Component.nonterminal A)) table = some table2) := by
  refine ⟨fun nonterminal table fuel2 hle =>
      mark_firsts_stable self nonterminal table fuel fuel2 hfuel hle,
    fun f nonterminal tables hz => mark_firsts_with_table_stable f self nonterminal tables hz,
    fun f nonterminal tables tables2 h =>
      mark_firsts_with_table_untried f self nonterminal tables tables2 h, ?_⟩
  intro hself hne A table hA hT
  obtain ⟨tables2, h2, _⟩ := mark_firsts_with_table_total self hself hne fuel A
    (table, List.replicate self.production_count false) hA hT (by simp)
    (by simp only [List.count_replicate_self]; exact hfuel)
  refine ⟨tables2.1, ?_⟩
  unfold mark_firsts
  rw [h2]
  rfl

/-- Witness of C18 on scenario C, nonterminal E (left-recursive), fuel 5 > 4. -/
theorem mark_firsts_terminates_witness :
    ∃ table2, mark_firsts 5 scenario_c_built (some (Component.nonterminal 1)) [false, false]
      = some table2 :=
  (mark_firsts_terminates scenario_c_built 5 (by decide)).2.2.2
    (by unfold grammar_indexed valid_grammar; decide) (by decide) 1 [false, false]
    (by decide) (by decide)

/-- Where a pointer is as wide as an `int`: for a valid grammar the work-list
loop of `compute_lr0_kernels` terminates.  The kernel count never exceeds the
number of non-empty sets of valid items (p, k), 0 <= k <= |rhs(p)|, which is
2 ^ item_count - 1, and every iteration moves to the next kernel: with fuel
2 ^ item_count or more the outcome of `compute_lr0_kernels` is the same for
every amount of fuel, and it is a grammar when no right-hand side is empty and
the `generates` table is in place (the run is then defined). -/
theorem compute_lr0_kernels_terminates_exact (self : Grammar) (hself : grammar_indexed self)
    (hk : self.kernels = []) :
    (∀ fuel fuel2, 2 ^ item_count self ≤ fuel → fuel ≤ fuel2 →
      compute_lr0_kernels fuel2 self = compute_lr0_kernels fuel self) ∧
    ((∀ q, q ∈ self.productions → q.components ≠ []) →
      self.generates.length = self.nonterminal_count →
      ∀ fuel, 2 ^ item_count self ≤ fuel →
        ∃ self2, compute_lr0_kernels fuel self = some self2) ∧
    (∀ fuel self2, compute_lr0_kernels fuel self = some self2 →
      self2.kernel_count ≤ 2 ^ item_count self - 1) := by
  have hstart := intern_start_kernel self hk
  have hsound := kernels_sound_start self hself.1.1
  refine ⟨fun fuel fuel2 hfuel hle => compute_lr0_kernels_stable self hself hk fuel fuel2 hfuel hle,
    ?_, ?_⟩
  · intro hne hgen fuel hfuel
    unfold compute_lr0_kernels
    rw [hstart]
    exact compute_lr0_kernels_loop_total self hself hne hgen fuel
      { self with kernels := [kernel_alloc [encode self 0 0]] } 0 rfl hsound (Nat.zero_le _)
      (by omega)
  · intro fuel self2 h
    unfold compute_lr0_kernels at h
    rw [hstart] at h
    refine Exists.elim (compute_lr0_kernels_loop_invariant
      (fun g _ => g = { self with kernels := g.kernels } ∧ kernels_sound self g.kernels)
      ?_ fuel { self with kernels := [kernel_alloc [encode self 0 0]] } 0 self2 ⟨rfl, hsound⟩ h)
      (fun n hn => kernels_sound_length self hself.1.2.1 self2.kernels hn.1.2)
    intro g i kernel g2 ⟨hframe, hks⟩ hki hstep
    obtain ⟨h1, h2, _⟩ := compute_lr0_kernels_step_sound self hself g hframe hks i kernel hki g2
      hstep
    exact ⟨h1, h2⟩

/-! ## Component indices -/

/-- C22: `component_index` maps the nonterminal with index i to i and the
terminal with index t to N + t.  Hence, on the symbols of the grammar (i < N,
t < T), it is injective, nonterminals land in [0, N), terminals in [N, N + T),
and every result is below `grammar_get_component_count`, which is N + T. -/
theorem component_index_spec (self : Grammar) :
    (∀ i, component_index self (some (Component.nonterminal i)) = some i) ∧
    (∀ t, component_index self (some (Component.terminal t))
      = some (self.nonterminal_count + t)) ∧
    (∀ X Y, component_in_range self.terminal_count self.nonterminal_count X →
      component_in_range self.terminal_count self.nonterminal_count Y →
      component_index self (some X) = component_index self (some Y) → X = Y) ∧
    (∀ i, i < self.nonterminal_count →
      ∃ c, component_index self (some (Component.nonterminal i)) = some c ∧
        c < self.nonterminal_count) ∧
    (∀ t, t < self.terminal_count →
      ∃ c, component_index self (some (Component.terminal t)) = some c ∧
        self.nonterminal_count ≤ c ∧ c < self.nonterminal_count + self.terminal_count) ∧
    (∀ X, component_in_range self.terminal_count self.nonterminal_count X →
      ∃ c, component_index self (some X) = some c ∧ c < grammar_get_component_count self) ∧
    grammar_get_component_count self = self.nonterminal_count + self.terminal_count := by
  have hn : ∀ i, component_index self (some (Component.nonterminal i)) = some i := fun _ => rfl
  have ht : ∀ t, component_index self (some (Component.terminal t))
      = some (self.nonterminal_count + t) := fun _ => rfl
  refine ⟨hn, ht, ?_, ?_, ?_, ?_, ?_⟩
  · intro X Y hX hY h
    cases X with
    | nonterminal i =>
      cases Y with
      | nonterminal j =>
        rw [hn, hn] at h
        rw [Option.some.inj h]
      | terminal t =>
        rw [hn, ht] at h
        have hi : i < self.nonterminal_count := hX
        have := Option.some.inj h
        omega
    | terminal t =>
      cases Y with
      | nonterminal j =>
        rw [hn, ht] at h
        have hj : j < self.nonterminal_count := hY
        have := Option.some.inj h
        omega
      | terminal u =>
        rw [ht, ht] at h
        have := Option.some.inj h
        have htu : t = u := by omega
        rw [htu]
  · intro i hi
    exact ⟨i, hn i, hi⟩
  · intro t htT
    exact ⟨self.nonterminal_count + t, ht t, Nat.le_add_right _ _, by omega⟩
  · intro X hX
    cases X with
    | nonterminal i =>
      have hi : i < self.nonterminal_count := hX
      exact ⟨i, hn i, by unfold grammar_get_component_count; omega⟩
    | terminal t =>
      have htT : t < self.terminal_count := hX
      exact ⟨self.nonterminal_count + t, ht t, by unfold grammar_get_component_count; omega⟩
  · unfold grammar_get_component_count
    omega


/-! ## The relation used by the closure step -/

/-- C23: the relation that the closure step uses is the reflexive-transitive
closure of the leftmost relation.  After `compute_generates` (which returns
only when no right-hand side is empty), for all i and j, `i = j` or
`generates[i][j] != 0` (a row that is not allocated counting as zeros) holds if
and only if there is a chain i = n0, n1, ..., nm = j, m >= 0, each n(t+1) the
leftmost symbol of a production of n(t); and `generates[i][j] != 0` alone holds
if and only if there is such a chain with m >= 1. -/
theorem generates_reflexive_transitive (fuel : Nat) (self generated : Grammar)
    (h : compute_generates fuel self = some generated) (i j : Nat) :
    ((i = j ∨ generates_rel generated.generates i j) ↔
      Relation.ReflTransGen (leftmost self.productions) i j) ∧
    (generates_rel generated.generates i j ↔
      Relation.TransGen (leftmost self.productions) i j) ∧
    (∀ q, q ∈ self.productions → q.components ≠ []) := by
  obtain ⟨_, hne, hrel⟩ := compute_generates_spec fuel self generated h
  refine ⟨?_, hrel i j, hne⟩
  rw [Relation.reflTransGen_iff_eq_or_transGen, hrel i j]
  constructor
  · rintro (heq | htrans)
    · exact Or.inl heq.symm
    · exact Or.inr htrans
  · rintro (heq | htrans)
    · exact Or.inl heq.symm
    · exact Or.inr htrans

/-- Witness of C23 on scenario C: S' reaches T by the chain S', E, T. -/
theorem generates_reflexive_transitive_witness :
    ((0 = 2 ∨ generates_rel scenario_c_indexed.generates 0 2) ↔
      Relation.ReflTransGen (leftmost scenario_c_grouped.productions) 0 2) ∧
    (generates_rel scenario_c_indexed.generates 0 2 ↔
      Relation.TransGen (leftmost scenario_c_grouped.productions) 0 2) ∧
    (∀ q, q ∈ scenario_c_grouped.productions → q.components ≠ []) :=
  generates_reflexive_transitive 20 scenario_c_grouped scenario_c_indexed (by decide) 0 2


/-! ## Insertion into the pairs table -/

/-- In a strictly descending array that holds `pair` already, the scan of
`add_pairs_entry` bails out: the array is left as it is. -/
theorem add_pairs_row_of_mem (row : List Int) (pair : Int)
    (hrow : row.Pairwise (fun a b => b < a)) (hmem : pair ∈ row) :
    add_pairs_row row pair = row := by
  have hpw := pairwise_add_pairs_row row pair hrow
  unfold add_pairs_row at hpw ⊢
  cases h : add_pairs_scan pair row row.length with
  | none => rfl
  | some i =>
    rw [h] at hpw
    simp only at hpw ⊢
    rw [List.pairwise_append, List.pairwise_cons] at hpw
    obtain ⟨_, ⟨hdrop, _⟩, htake⟩ := hpw
    rw [← List.take_append_drop i row, List.mem_append] at hmem
    rcases hmem with hm | hm
    · exact absurd (htake pair hm pair (List.mem_cons_self _ _)) (lt_irrefl _)
    · exact absurd (hdrop pair hm) (lt_irrefl _)

/-- An array that does not hold `pair` grows by one under `add_pairs_entry`. -/
theorem add_pairs_row_length (row : List Int) (pair : Int) (hmem : pair ∉ row) :
    (add_pairs_row row pair).length = row.length + 1 := by
  unfold add_pairs_row
  cases h : add_pairs_scan pair row row.length with
  | none => exact absurd (add_pairs_scan_none pair row row.length (le_refl _) h) hmem
  | some i =>
    simp only
    obtain ⟨hile, _, _⟩ := add_pairs_scan_some pair row row.length i h
    rw [List.length_append, List.length_cons, List.length_take, List.length_drop]
    omega

/-- C24: `add_pairs_entry` maintains a strictly descending duplicate-free
array.  If `table[index]` (its first `counts[index]` cells) is strictly
descending before the call, then the call returns and afterwards the array is
strictly descending, its elements are the old ones and `pair`,
`counts[index]` is unchanged (the array too) when `pair` was present and one
larger otherwise, and the arrays and counts at every other index are
unchanged. -/
theorem add_pairs_entry_descending (table : List (List Int)) (index : Nat) (pair : Int)
    (row : List Int) (hrow : table[index]? = some row)
    (hdesc : row.Pairwise (fun a b => b < a)) :
    ∃ table2 row2, add_pairs_entry table index pair = some table2 ∧
      table2[index]? = some row2 ∧
      row2.Pairwise (fun a b => b < a) ∧ row2.Nodup ∧
      (∀ x, x ∈ row2 ↔ x ∈ row ∨ x = pair) ∧
      (pair ∈ row → row2 = row ∧ row2.length = row.length) ∧
      (pair ∉ row → row2.length = row.length + 1) ∧
      table2.length = table.length ∧
      ∀ j, j ≠ index → table2[j]? = table[j]? := by
  obtain ⟨hlt, _⟩ := List.getElem?_eq_some.1 hrow
  have hpw := pairwise_add_pairs_row row pair hdesc
  refine ⟨table.set index (add_pairs_row row pair), add_pairs_row row pair, ?_, ?_, hpw, ?_,
    fun x => mem_add_pairs_row row pair x, ?_, add_pairs_row_length row pair, ?_, ?_⟩
  · unfold add_pairs_entry
    rw [hrow]
  · rw [List.getElem?_set_self hlt]
  · exact hpw.imp (fun hab heq => by rw [heq] at hab; exact lt_irrefl _ hab)
  · intro hmem
    rw [add_pairs_row_of_mem row pair hdesc hmem]
    exact ⟨rfl, rfl⟩
  · rw [List.length_set]
  · intro j hj
    rw [List.getElem?_set_ne (fun h => hj h.symm)]

/-- Witness of C24: 5 is inserted in the middle of the array [7, 6, 2] of row 1. -/
theorem add_pairs_entry_descending_witness :
    ∃ table2 row2, add_pairs_entry [[], [7, 6, 2]] 1 5 = some table2 ∧
      table2[1]? = some row2 ∧
      row2.Pairwise (fun a b => b < a) ∧ row2.Nodup ∧
      (∀ x, x ∈ row2 ↔ x ∈ [7, 6, 2] ∨ x = 5) ∧
      ((5 : Int) ∈ ([7, 6, 2] : List Int) → row2 = [7, 6, 2] ∧ row2.length = ([7, 6, 2] : List Int).length) ∧
      ((5 : Int) ∉ ([7, 6, 2] : List Int) → row2.length = ([7, 6, 2] : List Int).length + 1) ∧
      table2.length = [[], [7, 6, 2]].length ∧
      ∀ j, j ≠ 1 → table2[j]? = [[], [7, 6, 2]][j]? :=
  add_pairs_entry_descending [[], [7, 6, 2]] 1 5 [7, 6, 2] (by decide) (by decide)


/-! ## Reachability of the kernels -/

/-- The work-list loop keeps two facts: the kernels it has not handled yet
have no goto table, and every kernel but the first is the target of a goto
edge from a kernel with a smaller index. -/
theorem compute_lr0_kernels_loop_edges (fuel : Nat) (self : Grammar) (i : Nat)
    (self2 : Grammar)
    (hnone : ∀ m K, i ≤ m → self.kernels[m]? = some K → K.goto_table = none)
    (hedges : ∀ j, 0 < j → j < self.kernels.length → ∃ i2, i2 < j ∧ goto_edge self i2 j)
    (h : compute_lr0_kernels_loop fuel self i = some self2) :
    ∀ j, 0 < j → j < self2.kernels.length → ∃ i2, i2 < j ∧ goto_edge self2 i2 j := by
  refine Exists.elim (compute_lr0_kernels_loop_invariant
    (fun g n => (∀ m K, n ≤ m → g.kernels[m]? = some K → K.goto_table = none) ∧
      ∀ j, 0 < j → j < g.kernels.length → ∃ i2, i2 < j ∧ goto_edge g i2 j)
    ?_ fuel self i self2 ⟨hnone, hedges⟩ h) (fun n hn => hn.1.2)
  intro g n kernel g2 ⟨hA, hB⟩ hk hstep
  obtain ⟨table, t, gt, _, hg2, hnew, _, _, htargets, _⟩ :=
    compute_lr0_kernels_step_spec g n kernel g2 hstep
  have hks : g2.kernels = (g.kernels ++ t).set n { kernel with goto_table := some gt } := by
    rw [hg2]
  obtain ⟨hn, _⟩ := List.getElem?_eq_some.1 hk
  constructor
  · intro m K hm hK
    rw [hks, List.getElem?_set_ne (by omega)] at hK
    by_cases hmg : m < g.kernels.length
    · rw [List.getElem?_append_left hmg] at hK
      exact hA m K (by omega) hK
    · rw [List.getElem?_append_right (by omega)] at hK
      exact (hnew K (List.getElem?_mem hK)).1
  · intro j hj0 hj
    rw [hks, List.length_set, List.length_append] at hj
    by_cases hjg : j < g.kernels.length
    · obtain ⟨i2, hi2, c, K, gt2, hK, hgt, hc⟩ := hB j hj0 hjg
      have hne : i2 ≠ n := by
        intro heq
        rw [heq, hk] at hK
        have := hA n kernel (le_refl _) hk
        rw [Option.some.inj hK, hgt] at this
        exact absurd this (by simp)
      refine ⟨i2, hi2, c, K, gt2, ?_, hgt, hc⟩
      rw [hks, List.getElem?_set_ne (fun h => hne h.symm),
        List.getElem?_append_left (by omega)]
      exact hK
    · obtain ⟨c, hc⟩ := htargets (j - g.kernels.length) (by omega)
      have hjeq : g.kernels.length + (j - g.kernels.length) = j := by omega
      rw [hjeq] at hc
      refine ⟨n, by omega, c, { kernel with goto_table := some gt }, gt, ?_, rfl, hc⟩
      rw [hks, List.getElem?_set_self (by rw [List.length_append]; omega)]

/-- C26: every kernel is reachable from the start kernel.  After
`compute_lr0_kernels` (on a grammar that has no kernels yet), for every kernel
index j with 0 < j < kernel_count there are a kernel index i < j and a
component index c with `kernels[i].goto_table[c] = j`; hence every kernel is
reached from kernel 0 along goto edges. -/
theorem kernels_reachable (fuel : Nat) (self self2 : Grammar) (hk : self.kernels = [])
    (h : compute_lr0_kernels fuel self = some self2) :
    (∀ j, 0 < j → j < self2.kernel_count →
      ∃ (i c : Nat) (K : Kernel) (gt : List Int), i < j ∧
        self2.kernels[i]? = some K ∧ K.goto_table = some gt ∧ gt[c]? = some (j : Int)) ∧
    (∀ j, j < self2.kernel_count → Relation.ReflTransGen (goto_edge self2) 0 j) := by
  unfold compute_lr0_kernels at h
  rw [intern_start_kernel self hk] at h
  have hedges := compute_lr0_kernels_loop_edges fuel
    { self with kernels := [kernel_alloc [encode self 0 0]] } 0 self2
    (fun m K _ hK => by
      have hmem := List.getElem?_mem hK
      simp only [List.mem_singleton] at hmem
      rw [hmem]
      rfl)
    (fun j hj0 hj => by
      simp only [List.length_singleton] at hj
      omega)
    h
  constructor
  · intro j hj0 hj
    obtain ⟨i, hi, c, K, gt, hK, hgt, hc⟩ := hedges j hj0 hj
    exact ⟨i, c, K, gt, hi, hK, hgt, hc⟩
  · intro j
    induction j using Nat.strong_induction_on with
    | _ j ih =>
      intro hj
      by_cases hj0 : j = 0
      · rw [hj0]
      · obtain ⟨i, hi, hedge⟩ := hedges j (by omega) hj
        have hi2 : i < self2.kernel_count := Nat.lt_trans hi hj
        exact Relation.ReflTransGen.tail (ih i hi hi2) hedge

/-- Witness of C26 on scenario C: its 6 kernels are reached from kernel 0. -/
theorem kernels_reachable_witness :
    (∀ j, 0 < j → j < scenario_c_built.kernel_count →
      ∃ (i c : Nat) (K : Kernel) (gt : List Int), i < j ∧
        scenario_c_built.kernels[i]? = some K ∧ K.goto_table = some gt ∧
        gt[c]? = some (j : Int)) ∧
    (∀ j, j < scenario_c_built.kernel_count →
      Relation.ReflTransGen (goto_edge scenario_c_built) 0 j) :=
  kernels_reachable 20 scenario_c_indexed scenario_c_built (by decide) (by decide)


/-! ## The goto tables of the grammar built -/

/-- The goto tables after `grammar_alloc` on a valid grammar: every kernel has
one, with an entry for every component index `c`, which is -1 when the shift of
the closure of the kernel over `c` is empty, and otherwise the index of the
kernel that holds exactly this shift. -/
theorem grammar_alloc_goto (fuel : Nat) (productions : List Production) (T N : Nat)
    (g : Grammar) (hvalid : valid_grammar productions T N)
    (h : grammar_alloc fuel productions T N = some (some g))
    (i : Nat) (K : Kernel) (hK : g.kernels[i]? = some K) :
    ∃ gt, K.goto_table = some gt ∧ gt.length = T + N ∧
      ∀ c, c < T + N →
        (gt[c]? = some (-1) ∧ ∀ x, ¬ goto_items g K.pairs c x) ∨
        (∃ (r : Nat) (row : List Int), gt[c]? = some (r : Int) ∧
          (g.kernels.map Kernel.pairs)[r]? = some row ∧ row ≠ [] ∧
          ∀ x, x ∈ row ↔ goto_items g K.pairs c x) := by
  obtain ⟨hP, hindex, hrange, _⟩ := hvalid
  obtain ⟨table, generated, htable, _, hgenerated, hbuilt, _⟩ :=
    grammar_alloc_some fuel productions T N g h
  have hgen := compute_generates_frame fuel _ generated hgenerated
  obtain ⟨hshape, _, hrel⟩ := compute_generates_spec fuel _ generated hgenerated
  simp only at hgen hshape hrel
  have hprods : generated.productions = productions := by rw [hgen]
  have hpbn : generated.productions_by_nonterminal = table := by rw [hgen]
  have hN : generated.nonterminal_count = N := by rw [hgen]
  have hT : generated.terminal_count = T := by rw [hgen]
  have hkernels : generated.kernels = [] := by rw [hgen]
  have hstart := intern_start_kernel generated hkernels
  unfold compute_lr0_kernels at hbuilt
  rw [hstart] at hbuilt
  obtain ⟨p0, hp0⟩ : ∃ p0, generated.productions[0]? = some p0 := by
    rw [hprods]
    exact ⟨productions[0], List.getElem?_eq_getElem (by omega)⟩
  obtain ⟨hframe, hitems⟩ := compute_lr0_kernels_loop_items generated (item_valid generated)
    (fun kernel index x hk hx => pairs_entry_valid generated kernel hk
      (fun i probes q hrow hq => by
        rw [hpbn] at hrow
        rw [hprods]
        exact production_at_index productions hindex q
          ((productions_by_nonterminal_mem N productions table htable i probes hrow q).1 hq).1)
      index x hx)
    fuel [kernel_alloc [encode generated 0 0]] 0 g
    (by
      intro K0 hK0 c0 hc0
      simp only [List.mem_singleton] at hK0
      rw [hK0] at hc0
      simp only [kernel_alloc, List.mem_singleton] at hc0
      exact ⟨0, 0, by rw [hc0]; rfl, p0, hp0, Nat.zero_le _⟩)
    hbuilt
  have hproc := compute_lr0_kernels_loop_goto generated fuel [kernel_alloc [encode generated 0 0]]
    0 g (fun j K0 hj _ => absurd hj (Nat.not_lt_zero j)) hbuilt
  obtain ⟨hilt, _⟩ := List.getElem?_eq_some.1 hK
  obtain ⟨gt, hgt, hlen, hall⟩ := hproc i K hilt hK
  have hcount : grammar_get_component_count generated = T + N := by
    unfold grammar_get_component_count
    rw [hT, hN]
  rw [hcount] at hlen hall
  have hbridge : ∀ c x, pairs_entry generated K c x ↔ goto_items g K.pairs c x := by
    intro c x
    have h1 : pairs_entry generated K c x ↔ pairs_entry g K c x := by
      rw [hframe]
      exact Iff.rfl
    rw [h1]
    have hgp : g.productions = productions := by rw [hframe, hprods]
    have hgN : g.nonterminal_count = N := by rw [hframe, hN]
    have hgT : g.terminal_count = T := by rw [hframe, hT]
    have hgpbn : g.productions_by_nonterminal = table := by rw [hframe, hpbn]
    have hgg : g.generates = generated.generates := by rw [hframe]
    refine pairs_entry_iff_goto_items g K ?_ ?_ ?_ ?_ ?_ ?_ c x
    · rw [hgp]
      exact hindex
    · rw [hgp, hgN, hgT]
      exact hrange
    · rw [hgp, hgN, hgpbn]
      exact htable
    · rw [hgN, hgg]
      exact hshape
    · rw [hgp, hgg]
      exact hrel
    · intro c0 hc0
      have := hitems K (List.getElem?_mem hK) c0 hc0
      rw [hframe]
      exact this
  refine ⟨gt, hgt, hlen, fun c hc => ?_⟩
  rcases hall c hc with ⟨hneg, hnone⟩ | ⟨r, row, hr, hrow, hrne, hiff⟩
  · exact Or.inl ⟨hneg, fun x hx => hnone x ((hbridge c x).2 hx)⟩
  · exact Or.inr ⟨r, row, hr, hrow, hrne, fun x => (hiff x).trans (hbridge c x)⟩

/-- C25: after `compute_lr0_kernels` on a valid grammar (in `grammar_alloc`),
every kernel has a goto table of length N + T, every entry of which is -1 or a
kernel index in [0, kernel_count), and `goto_table[c]` is -1 exactly when no
item (p, k) of the closure of the kernel has the symbol with component index c
right after its dot. -/
theorem goto_table_entries (fuel : Nat) (productions : List Production) (T N : Nat)
    (g : Grammar) (hvalid : valid_grammar productions T N)
    (h : grammar_alloc fuel productions T N = some (some g))
    (i : Nat) (K : Kernel) (hK : g.kernels[i]? = some K) :
    ∃ gt, K.goto_table = some gt ∧ gt.length = N + T ∧
      ∀ c, c < N + T → ∃ S, gt[c]? = some S ∧
        (S = -1 ∨ ∃ r : Nat, S = (r : Int) ∧ r < g.kernel_count) ∧
        (S = -1 ↔ ¬ ∃ (p k : Nat) (production : Production) (X : Component),
          lr0_closure g K.pairs p k ∧ g.productions[p]? = some production ∧
          production.components[k]? = some X ∧ component_index g (some X) = some c) := by
  obtain ⟨gt, hgt, hlen, hall⟩ := grammar_alloc_goto fuel productions T N g hvalid h i K hK
  refine ⟨gt, hgt, by omega, fun c hc => ?_⟩
  rcases hall c (by omega) with ⟨hneg, hnone⟩ | ⟨r, row, hr, hrow, hrne, hiff⟩
  · refine ⟨-1, hneg, Or.inl rfl, fun _ => ?_, fun _ => rfl⟩
    rintro ⟨p, k, production, X, hcl, hp, hX, hc2⟩
    exact hnone _ ⟨p, k, production, X, hcl, hp, hX, hc2, rfl⟩
  · obtain ⟨hrlt, _⟩ := List.getElem?_eq_some.1 hrow
    rw [List.length_map] at hrlt
    refine ⟨(r : Int), hr, Or.inr ⟨r, rfl, hrlt⟩, fun hneg => ?_, fun hno => ?_⟩
    · omega
    · obtain ⟨x, hx⟩ := List.exists_mem_of_ne_nil row hrne
      obtain ⟨p, k, production, X, hcl, hp, hX, hc2, _⟩ := (hiff x).1 hx
      exact absurd ⟨p, k, production, X, hcl, hp, hX, hc2⟩ hno

/-- Witness of C25 on scenario C, kernel 0, whose goto table is
[-1, 1, 2, -1, 3]. -/
theorem goto_table_entries_witness :
    ∃ gt, Kernel.goto_table { pairs := [3], goto_table := some [-1, 1, 2, -1, 3] } = some gt ∧
      gt.length = 3 + 2 ∧
      ∀ c, c < 3 + 2 → ∃ S, gt[c]? = some S ∧
        (S = -1 ∨ ∃ r : Nat, S = (r : Int) ∧ r < scenario_c_built.kernel_count) ∧
        (S = -1 ↔ ¬ ∃ (p k : Nat) (production : Production) (X : Component),
          lr0_closure scenario_c_built [3] p k ∧
          scenario_c_built.productions[p]? = some production ∧
          production.components[k]? = some X ∧
          component_index scenario_c_built (some X) = some c) :=
  goto_table_entries 20 scenario_c 2 3 scenario_c_built (by unfold valid_grammar; decide)
    (by decide) 0 { pairs := [3], goto_table := some [-1, 1, 2, -1, 3] } (by decide)


/-! ## The start production -/

/-- The verdict of `verify_productions_by_nonterminal` on the table grouped
from the productions: 0 when every nonterminal has a production, -1 when some
nonterminal has none. -/
theorem verify_productions_by_nonterminal_grouped (productions : List Production) (T N : Nat)
    (table : List (Option (List Production)))
    (htable : compute_productions_by_nonterminal N productions = some table) :
    ((∀ i, i < N → ∃ q, q ∈ productions ∧ q.nonterminal_index = i) →
      verify_productions_by_nonterminal
        { productions := productions, terminal_count := T, nonterminal_count := N,
          productions_by_nonterminal := table, generates := [], kernels := [] } = some 0) ∧
    ((∃ i, i < N ∧ ∀ q, q ∈ productions → q.nonterminal_index ≠ i) →
      verify_productions_by_nonterminal
        { productions := productions, terminal_count := T, nonterminal_count := N,
          productions_by_nonterminal := table, generates := [], kernels := [] } = some (-1)) := by
  obtain ⟨hlen, hrows⟩ := compute_productions_by_nonterminal_spec N productions table htable
  obtain ⟨hzero, hminus⟩ := verify_productions_by_nonterminal_spec
    { productions := productions, terminal_count := T, nonterminal_count := N,
      productions_by_nonterminal := table, generates := [], kernels := [] } hlen
  simp only at hzero hminus
  have hnull : ∀ i, i < N → (table[i]? = some none ↔
      ∀ q, q ∈ productions → q.nonterminal_index ≠ i) := by
    intro i hi
    rw [hrows i hi]
    by_cases hf : productions.filter (fun q => decide (q.nonterminal_index = i)) = []
    · rw [if_pos hf]
      refine ⟨fun _ q hq hqi => ?_, fun _ => rfl⟩
      have : q ∈ productions.filter (fun q => decide (q.nonterminal_index = i)) := by
        rw [List.mem_filter]
        exact ⟨hq, by simpa using hqi⟩
      rw [hf] at this
      exact absurd this (List.not_mem_nil q)
    · rw [if_neg hf]
      refine ⟨fun h => absurd h (by simp), fun hall => ?_⟩
      obtain ⟨q, hq⟩ := List.exists_mem_of_ne_nil _ hf
      rw [List.mem_filter] at hq
      exact absurd (by simpa using hq.2) (hall q hq.1)
  constructor
  · intro hall
    apply hzero
    intro i hi hrow
    obtain ⟨q, hq, hqi⟩ := hall i hi
    exact (hnull i hi).1 hrow q hq hqi
  · rintro ⟨i, hi, hnone⟩
    exact hminus ⟨i, hi, (hnull i hi).2 hnone⟩

/-- Counterexample to C21 as stated: production 0 of `scenario_bare`, S -> a,
is not of the augmented form S' -> S, and `grammar_alloc` returns a grammar for
it. -/
theorem missing_start_production_counterexample :
    ¬ augmented_start scenario_bare ∧
    grammar_alloc 20 scenario_bare 1 1 = some (some scenario_bare_built) := by
  refine ⟨?_, by decide⟩
  rintro ⟨q, S, hq, hcomp, _⟩
  have hq0 : q = { index := 0, nonterminal_index := 0, components := [Component.terminal 0] } :=
    (Option.some.inj hq).symm
  rw [hq0] at hcomp
  simp at hcomp

/-- C21, amended: `grammar_alloc` returns no grammar (`NULL`) exactly when some
nonterminal has no production, which is the case when the production list is
empty and the grammar has a nonterminal; production 0 is not examined.  (The
left-hand sides are nonterminal indices of the grammar.) -/
theorem grammar_alloc_null_iff (fuel : Nat) (productions : List Production) (T N : Nat)
    (hlhs : ∀ q, q ∈ productions → q.nonterminal_index < N) :
    (grammar_alloc fuel productions T N = some none ↔
      ∃ i, i < N ∧ ∀ q, q ∈ productions → q.nonterminal_index ≠ i) ∧
    (productions = [] → 1 ≤ N → grammar_alloc fuel productions T N = some none) := by
  obtain ⟨table, htable⟩ := compute_productions_by_nonterminal_total N productions hlhs
  obtain ⟨hzero, hminus⟩ := verify_productions_by_nonterminal_grouped productions T N table htable
  have hback : (∃ i, i < N ∧ ∀ q, q ∈ productions → q.nonterminal_index ≠ i) →
      grammar_alloc fuel productions T N = some none := by
    intro hex
    unfold grammar_alloc
    rw [htable]
    simp only [Option.some_bind]
    rw [hminus hex]
    rfl
  refine ⟨⟨fun h => ?_, hback⟩, fun hnil hN => hback ⟨0, hN, fun q hq => ?_⟩⟩
  · by_contra hno
    have hall : ∀ i, i < N → ∃ q, q ∈ productions ∧ q.nonterminal_index = i := by
      intro i hi
      by_contra hq
      exact hno ⟨i, hi, fun q hq2 hqi => hq ⟨q, hq2, hqi⟩⟩
    unfold grammar_alloc at h
    rw [htable] at h
    simp only [Option.some_bind] at h
    rw [hzero hall] at h
    simp only [Option.some_bind] at h
    rw [if_neg (by decide)] at h
    obtain ⟨generated, _, h⟩ := Option.bind_eq_some.1 h
    obtain ⟨built, _, h⟩ := Option.bind_eq_some.1 h
    obtain ⟨firsts, _, h⟩ := Option.bind_eq_some.1 h
    exact absurd (Option.some.inj h) (by simp)
  · rw [hnil] at hq
    exact absurd hq (List.not_mem_nil q)

/-- Witness of C21 amended: the empty production list in a grammar with one
nonterminal and one terminal. -/
theorem grammar_alloc_null_iff_witness :
    (grammar_alloc 20 [] 1 1 = some none ↔
      ∃ i, i < 1 ∧ ∀ q, q ∈ ([] : List Production) → q.nonterminal_index ≠ i) ∧
    (([] : List Production) = [] → 1 ≤ 1 → grammar_alloc 20 [] 1 1 = some none) :=
  grammar_alloc_null_iff 20 [] 1 1 (fun q hq => absurd hq (List.not_mem_nil q))


/-! ## The item codec in `int` arithmetic -/

/-- An `int` expression whose value fits the type takes that value. -/
theorem int_wrap_eq (x : Int) (hlo : -2147483648 ≤ x) (hhi : x ≤ 2147483647) :
    int_wrap x = x := by
  unfold int_wrap
  omega

/-- As long as `production_count * (offset + 1)` fits an `int`, the C
arithmetic of `encode` does not wrap. -/
theorem encode_int_eq (self : Grammar) (p k : Int) (hp0 : 0 ≤ p)
    (hp : p < (self.production_count : Int)) (hk : 0 ≤ k)
    (hfit : (self.production_count : Int) * (k + 1) ≤ 2147483647) :
    encode_int self p k = encode self p k := by
  have hX1 : (self.production_count : Int) ≤ (self.production_count : Int) * (k + 1) := by
    nlinarith
  have hX2 : k + 1 ≤ (self.production_count : Int) * (k + 1) := by nlinarith
  unfold encode_int encode
  rw [int_wrap_eq (k + 1) (by omega) (by omega)]
  generalize (self.production_count : Int) * (k + 1) = X at hfit hX1 hX2 ⊢
  rw [int_wrap_eq X (by omega) hfit, int_wrap_eq (X - p) (by omega) (by omega),
    int_wrap_eq (X - p - 1) (by omega) (by omega)]

/-- Counterexample to C1 as stated: with P = 4 (the grammar of scenario C),
p = 1 and k = 536870912, the product 4 * (k + 1) does not fit an `int`;
`encode` yields -2147483646 and `decode` of it yields the production index 5
and the offset -536870911, not (1, 536870912). -/
theorem decode_encode_counterexample :
    (1 : Nat) ≤ scenario_c_built.production_count ∧
    encode_int scenario_c_built 1 536870912 = -2147483646 ∧
    decode_int scenario_c_built (encode_int scenario_c_built 1 536870912)
      = some (5, -536870911) ∧
    decode_int scenario_c_built (encode_int scenario_c_built 1 536870912)
      ≠ some (1, 536870912) := by
  refine ⟨by decide, by decide, by decide, by decide⟩

/-- C1, amended: for every production count P >= 1, production index p in
[0, P) and dot offset k >= 0 such that P * (k + 1) fits an `int` (it is at most
2147483647), `decode (encode p k)`, in the `int` arithmetic of C, returns the
production index p and the offset k; `encode p k` is then the integer
P * (k + 1) - p - 1. -/
theorem decode_encode (self : Grammar) (p k : Int) (hP : 1 ≤ self.production_count)
    (hp0 : 0 ≤ p) (hp : p < (self.production_count : Int)) (hk : 0 ≤ k)
    (hfit : (self.production_count : Int) * (k + 1) ≤ 2147483647) :
    decode_int self (encode_int self p k) = some (p, k) ∧
    encode_int self p k = (self.production_count : Int) * (k + 1) - p - 1 := by
  have hP0 : self.production_count ≠ 0 := by omega
  have hX2 : k + 1 ≤ (self.production_count : Int) * (k + 1) := by nlinarith
  have hPmax : (self.production_count : Int) ≤ 2147483647 := by nlinarith
  obtain ⟨hd, hm⟩ := tdiv_tmod_encode_aux (self.production_count : Int) p k hp0 hp hk
  have henc := encode_int_eq self p k hp0 hp hk hfit
  refine ⟨?_, by rw [henc]; rfl⟩
  rw [henc]
  unfold decode_int encode
  rw [if_neg hP0, hd, hm]
  have e1 : (self.production_count : Int) - ((self.production_count : Int) - 1 - p) = p + 1 := by
    ring
  rw [e1, int_wrap_eq (p + 1) (by omega) (by omega)]
  have e2 : p + 1 - 1 = p := by ring
  rw [e2, int_wrap_eq p (by omega) (by omega), int_wrap_eq k (by omega) (by omega)]

/-- Witness of C1 amended on the grammar of scenario C (P = 4), item (2, 1). -/
theorem decode_encode_witness :
    decode_int scenario_c_built (encode_int scenario_c_built 2 1) = some (2, 1) ∧
    encode_int scenario_c_built 2 1 = (scenario_c_built.production_count : Int) * (1 + 1) - 2 - 1 :=
  decode_encode scenario_c_built 2 1 (by decide) (by decide) (by decide) (by decide) (by decide)

/-- Counterexample to C2 as stated: with P = 4, p1 = p2 = 1, k1 = 0 and
k2 = 536870912 the offsets satisfy k1 < k2, but `encode 1 k2` has wrapped to
-2147483646, below `encode 1 0 = 2`; and `encode 1 0 = encode 1 1073741824`,
so `encode` is not injective. -/
theorem encode_lt_iff_counterexample :
    (1 : Nat) ≤ scenario_c_built.production_count ∧
    encode_int scenario_c_built 1 0 = 2 ∧
    encode_int scenario_c_built 1 536870912 = -2147483646 ∧
    ¬ (encode_int scenario_c_built 1 0 < encode_int scenario_c_built 1 536870912 ↔
      (0 : Int) < 536870912 ∨ ((0 : Int) = 536870912 ∧ (1 : Int) > 1)) ∧
    encode_int scenario_c_built 1 0 = encode_int scenario_c_built 1 1073741824 := by
  refine ⟨by decide, by decide, by decide, by decide, by decide⟩

/-- C2, amended: for every P >= 1, production indices p1, p2 in [0, P) and
offsets k1, k2 >= 0 such that P * (k1 + 1) and P * (k2 + 1) fit an `int` (they
are at most 2147483647), `encode p1 k1 < encode p2 k2`, in the `int` arithmetic
of C, holds exactly when k1 < k2, or k1 = k2 and p1 > p2; so `encode` is
injective on these items. -/
theorem encode_lt_iff (self : Grammar) (p1 k1 p2 k2 : Int) (hP : 1 ≤ self.production_count)
    (hp1 : 0 ≤ p1) (hp1P : p1 < (self.production_count : Int))
    (hp2 : 0 ≤ p2) (hp2P : p2 < (self.production_count : Int))
    (hk1 : 0 ≤ k1) (hk2 : 0 ≤ k2)
    (hfit1 : (self.production_count : Int) * (k1 + 1) ≤ 2147483647)
    (hfit2 : (self.production_count : Int) * (k2 + 1) ≤ 2147483647) :
    (encode_int self p1 k1 < encode_int self p2 k2 ↔ k1 < k2 ∨ (k1 = k2 ∧ p1 > p2)) ∧
    (encode_int self p1 k1 = encode_int self p2 k2 → p1 = p2 ∧ k1 = k2) := by
  rw [encode_int_eq self p1 k1 hp1 hp1P hk1 hfit1, encode_int_eq self p2 k2 hp2 hp2P hk2 hfit2]
  exact encode_lt_iff_exact self p1 k1 p2 k2 hP hp1 hp1P hp2 hp2P hk1 hk2

/-- Witness of C2 amended on the grammar of scenario C (P = 4), items (3, 0)
and (0, 1). -/
theorem encode_lt_iff_witness :
    (encode_int scenario_c_built 3 0 < encode_int scenario_c_built 0 1
      ↔ (0 : Int) < 1 ∨ ((0 : Int) = 1 ∧ (3 : Int) > 0)) ∧
    (encode_int scenario_c_built 3 0 = encode_int scenario_c_built 0 1
      → (3 : Int) = 0 ∧ (0 : Int) = 1) :=
  encode_lt_iff scenario_c_built 3 0 0 1 (by decide) (by decide) (by decide)
    (by decide) (by decide) (by decide) (by decide) (by decide) (by decide)


/-! ## The older codec -/

/-- Counterexample to C27 as stated: with P = 4 (the grammar of scenario C),
production 1 and k = 536870912, the product 4 * (k + 1) does not fit an `int`;
`Grammar_encode` yields 2147483646, and `Grammar_decode` of it reads
`productions[5]`, outside the array of 4 productions, instead of selecting
production 1 with offset k. -/
theorem Grammar_decode_encode_counterexample :
    scenario_c_built.productions[1]?
      = some { index := 1, nonterminal_index := 1,
               components := [Component.nonterminal 1, Component.terminal 0,
                 Component.nonterminal 2] } ∧
    Grammar_encode scenario_c_built
      { index := 1, nonterminal_index := 1,
        components := [Component.nonterminal 1, Component.terminal 0,
          Component.nonterminal 2] } 536870912 = 2147483646 ∧
    Grammar_decode scenario_c_built (Grammar_encode scenario_c_built
      { index := 1, nonterminal_index := 1,
        components := [Component.nonterminal 1, Component.terminal 0,
          Component.nonterminal 2] } 536870912) = none := by
  refine ⟨by decide, by decide, by decide⟩

/-- C27, amended: the older codec of Grammar.c round-trips under the truncating
division and remainder of C as long as P * (k + 1) fits an `int`.  For a
production at position p of the productions (so P >= 1 and 0 <= p < P) whose
index is p, and an offset k >= 0 with P * (k + 1) at most 2147483647,
`Grammar_decode` applied to `Grammar_encode production k`, which is
(p + 1) - P * (k + 1), selects `productions[p]` and returns the offset k; and
`Grammar_encode production k` is the negation of `encode p k` of grammar.c. -/
theorem Grammar_decode_encode (self : Grammar) (production : Production) (p : Nat) (k : Int)
    (hp : self.productions[p]? = some production) (hindex : production.index = p)
    (hk : 0 ≤ k) (hfit : (self.production_count : Int) * (k + 1) ≤ 2147483647) :
    Grammar_encode self production k
      = ((p : Int) + 1) - (self.production_count : Int) * (k + 1) ∧
    Grammar_decode self (Grammar_encode self production k) = some (production, k) ∧
    Grammar_encode self production k = - encode_int self (p : Int) k := by
  obtain ⟨hlt, _⟩ := List.getElem?_eq_some.1 hp
  have hP : (p : Int) < (self.production_count : Int) := by
    unfold Grammar.production_count
    exact_mod_cast hlt
  have hP0 : self.production_count ≠ 0 := by
    unfold Grammar.production_count
    omega
  have hX1 : (self.production_count : Int) ≤ (self.production_count : Int) * (k + 1) := by
    nlinarith
  have hX2 : k + 1 ≤ (self.production_count : Int) * (k + 1) := by nlinarith
  have henc : Grammar_encode self production k
      = - ((self.production_count : Int) * (k + 1) - (p : Int) - 1) := by
    unfold Grammar_encode Production_getIndex
    rw [hindex, int_wrap_eq (k + 1) (by omega) (by omega)]
    generalize (self.production_count : Int) * (k + 1) = X at hfit hX1 hX2 ⊢
    rw [int_wrap_eq X (by omega) hfit, int_wrap_eq ((p : Int) + 1) (by omega) (by omega),
      int_wrap_eq ((p : Int) + 1 - X) (by omega) (by omega)]
    ring
  have hp0 : (0 : Int) ≤ (p : Int) := Int.ofNat_nonneg p
  have hw1 : int_wrap ((p : Int) + 1) = (p : Int) + 1 :=
    int_wrap_eq _ (by linarith) (by linarith)
  have hw2 : int_wrap (p : Int) = (p : Int) := int_wrap_eq _ (by linarith) (by linarith)
  have hw3 : int_wrap k = k := int_wrap_eq _ (by linarith) (by linarith)
  have hneg : ¬ (p : Int) < 0 := by linarith
  obtain ⟨hd, hm⟩ := tdiv_tmod_encode_aux (self.production_count : Int) (p : Int) k
    hp0 hP hk
  refine ⟨by rw [henc]; ring, ?_, ?_⟩
  · have hdiv : (Grammar_encode self production k).tdiv (self.production_count : Int)
        = - k := by
      rw [henc, Int.neg_tdiv, hd]
    have hmod : (Grammar_encode self production k).tmod (self.production_count : Int)
        = - ((self.production_count : Int) - 1 - (p : Int)) := by
      rw [Int.tmod_def, hdiv, henc]
      have := Int.tmod_def ((self.production_count : Int) * (k + 1) - (p : Int) - 1)
        (self.production_count : Int)
      rw [hd, hm] at this
      linarith
    unfold Grammar_decode
    rw [if_neg hP0]
    simp only
    rw [hmod, hdiv]
    have e1 : (self.production_count : Int) + -((self.production_count : Int) - 1 - (p : Int))
        = (p : Int) + 1 := by ring
    rw [e1, hw1]
    have e2 : (p : Int) + 1 - 1 = (p : Int) := by ring
    rw [e2, hw2, if_neg hneg, Int.toNat_ofNat, hp]
    simp only [neg_neg]
    rw [hw3]
  · rw [henc, encode_int_eq self (p : Int) k hp0 hP hk hfit]
    rfl

/-- Witness of C27 amended on the grammar of scenario C (P = 4): production 2
with the dot after its symbol. -/
theorem Grammar_decode_encode_witness :
    Grammar_encode scenario_c_built
        { index := 2, nonterminal_index := 1, components := [Component.nonterminal 2] } 1
      = ((2 : Nat) : Int) + 1 - (scenario_c_built.production_count : Int) * (1 + 1) ∧
    Grammar_decode scenario_c_built (Grammar_encode scenario_c_built
        { index := 2, nonterminal_index := 1, components := [Component.nonterminal 2] } 1)
      = some ({ index := 2, nonterminal_index := 1,
                components := [Component.nonterminal 2] }, 1) ∧
    Grammar_encode scenario_c_built
        { index := 2, nonterminal_index := 1, components := [Component.nonterminal 2] } 1
      = - encode_int scenario_c_built ((2 : Nat) : Int) 1 :=
  Grammar_decode_encode scenario_c_built
    { index := 2, nonterminal_index := 1, components := [Component.nonterminal 2] } 2 1
    (by decide) (by decide) (by decide) (by decide)


/-! ## The interner where a pointer is wider than an `int` -/

/-- A match of `kernel_matches_wide` implies equal item arrays, whatever lies
behind them. -/
theorem kernel_matches_wide_sound (width : Nat) (K : Kernel) (after_self : List Int)
    (pairs after_pairs : List Int)
    (h : kernel_matches_wide width K after_self pairs after_pairs = true) : K.pairs = pairs := by
  unfold kernel_matches_wide at h
  by_cases hlen : K.pairs.length ≠ pairs.length
  · rw [if_pos hlen] at h
    exact absurd h (by simp)
  · rw [if_neg hlen, Bool.and_eq_true] at h
    exact of_decide_eq_true h.1

/-- Where a pointer is as wide as an `int`, `kernel_matches_wide` compares the
arrays and nothing else: it is `kernel_matches`. -/
theorem kernel_matches_wide_one (K : Kernel) (after_self : List Int)
    (pairs after_pairs : List Int) :
    kernel_matches_wide 1 K after_self pairs after_pairs = kernel_matches K pairs := by
  unfold kernel_matches_wide kernel_matches memory_words
  by_cases hlen : K.pairs.length ≠ pairs.length
  · rw [if_pos hlen, if_pos hlen]
  · rw [if_neg hlen, if_neg hlen]
    simp

/-- The search with `kernel_matches_wide` returns the index of a kernel that
holds the items. -/
theorem intern_kernel_search_wide_some (width : Nat) (pairs after_pairs : List Int)
    (kernels : List (Kernel × List Int)) (i r : Nat)
    (h : intern_kernel_search_wide width pairs after_pairs kernels i = some r) :
    ∃ j K, r = i + j ∧ kernels[j]? = some K ∧ K.1.pairs = pairs := by
  induction kernels generalizing i with
  | nil => simp [intern_kernel_search_wide] at h
  | cons k rest ih =>
    unfold intern_kernel_search_wide at h
    by_cases hk : kernel_matches_wide width k.1 k.2 pairs after_pairs = true
    · rw [if_pos hk] at h
      exact ⟨0, k, by simpa using (Option.some.inj h).symm, by simp,
        kernel_matches_wide_sound width k.1 k.2 pairs after_pairs hk⟩
    · rw [if_neg hk] at h
      obtain ⟨j, K, hr, hK, hKp⟩ := ih (i + 1) h
      exact ⟨j + 1, K, by omega, by simpa using hK, hKp⟩

/-- C8: `intern_kernel`, with the comparison of line 112 of grammar.c for every
pointer width and whatever lies behind the arrays.  On an empty array it
returns -1 and leaves the kernel table (so the kernel count) unchanged; on a
non-empty array it returns an index r with 0 <= r < the resulting kernel count,
and kernel r has exactly `count` items, equal element by element to `pairs`. -/
theorem intern_kernel_spec (width : Nat) (kernels : List (Kernel × List Int))
    (pairs after_pairs : List Int) :
    (pairs.length = 0 → intern_kernel_wide width kernels pairs after_pairs = (kernels, -1)) ∧
    (pairs.length ≠ 0 →
      ∃ r : Nat, (intern_kernel_wide width kernels pairs after_pairs).2 = (r : Int) ∧
        r < (intern_kernel_wide width kernels pairs after_pairs).1.length ∧
        ∃ K, (intern_kernel_wide width kernels pairs after_pairs).1[r]? = some K ∧
          K.1.pairs.length = pairs.length ∧ K.1.pairs = pairs) := by
  constructor
  · intro h
    unfold intern_kernel_wide
    rw [if_pos h]
  · intro hne
    unfold intern_kernel_wide
    rw [if_neg hne]
    cases hs : intern_kernel_search_wide width pairs after_pairs kernels 0 with
    | some r =>
      obtain ⟨j, K, hr, hK, hKp⟩ :=
        intern_kernel_search_wide_some width pairs after_pairs kernels 0 r hs
      have hrj : r = j := by omega
      subst hrj
      obtain ⟨hlt, _⟩ := List.getElem?_eq_some.1 hK
      exact ⟨r, rfl, hlt, K, hK, by rw [hKp], hKp⟩
    | none =>
      refine ⟨kernels.length, rfl, by simp, (kernel_alloc pairs, after_pairs), by simp, rfl, rfl⟩

/-- Witness of C8: on LP64, interning [3] into a table that holds the kernel [3]
with another int behind its array; the index returned is 1, and kernel 1 holds
[3]. -/
theorem intern_kernel_spec_witness :
    (([3] : List Int).length = 0 →
      intern_kernel_wide 2 [(kernel_alloc [3], [0])] [3] [1]
        = ([(kernel_alloc [3], [0])], -1)) ∧
    (([3] : List Int).length ≠ 0 →
      ∃ r : Nat, (intern_kernel_wide 2 [(kernel_alloc [3], [0])] [3] [1]).2 = (r : Int) ∧
        r < (intern_kernel_wide 2 [(kernel_alloc [3], [0])] [3] [1]).1.length ∧
        ∃ K, (intern_kernel_wide 2 [(kernel_alloc [3], [0])] [3] [1]).1[r]? = some K ∧
          K.1.pairs.length = ([3] : List Int).length ∧ K.1.pairs = [3]) :=
  intern_kernel_spec 2 [(kernel_alloc [3], [0])] [3] [1]

/-- C9, the code at the failing input: on LP64 (`width = 2`) the table holds the
kernel [3], with the int 0 behind its array, and [3] is interned from an array
with the int 1 behind it.  A kernel with items equal to `pairs` exists, at
index 0, but `memcmp` reads the two ints behind and misses: the call returns
1, not 0, and the kernel count grows to 2.  Where a pointer is as wide as an
`int` (`width = 1`) the same call returns 0 and leaves the table alone. -/
theorem intern_kernel_frame_lp64 :
    intern_kernel_wide 2 [(kernel_alloc [3], [0])] [3] [1]
      = ([(kernel_alloc [3], [0]), (kernel_alloc [3], [1])], 1) ∧
    intern_kernel_wide 1 [(kernel_alloc [3], [0])] [3] [1]
      = ([(kernel_alloc [3], [0])], 0) := by
  refine ⟨by decide, by decide⟩

/-- C10, the code at the failing input: on LP64 (`width = 2`), [3] is interned
twice in succession into an empty table, from two arrays with different ints
behind them (0 and 1).  The first call returns 0; the second returns 1 and
appends a second kernel [3].  Where a pointer is as wide as an `int`
(`width = 1`) the second call returns 0 again and changes nothing. -/
theorem intern_kernel_twice_lp64 :
    intern_kernel_wide 2 [] [3] [0] = ([(kernel_alloc [3], [0])], 0) ∧
    intern_kernel_wide 2 (intern_kernel_wide 2 [] [3] [0]).1 [3] [1]
      = ([(kernel_alloc [3], [0]), (kernel_alloc [3], [1])], 1) ∧
    intern_kernel_wide 1 (intern_kernel_wide 1 [] [3] [0]).1 [3] [1]
      = ([(kernel_alloc [3], [0])], 0) := by
  refine ⟨by decide, by decide, by decide⟩

/-- C4, the code at the failing input: the expression grammar on LP64
(`width = 2`), with zeros behind every array but a 1 behind the row of `id`
built for kernel 6.  When kernel 6 is handled the row [6] misses kernel 4,
which holds [6], and is appended again: the run ends with 10 kernels, of which
kernels 4 and 9 both hold [6].  Where a pointer is as wide as an `int`
(`width = 1`) the same run ends with 9 kernels. -/
theorem kernels_duplicate_lp64 :
    compute_productions_by_nonterminal 4 scenario_e
      = some scenario_e_indexed.productions_by_nonterminal ∧
    compute_generates 20 { scenario_e_indexed with generates := [] }
      = some scenario_e_indexed ∧
    (compute_lr0_kernels_wide 2 [0] scenario_e_after 20 scenario_e_indexed).map
        (fun kernels => kernels.map fun kernel => kernel.1.pairs)
      = some [[5], [11, 10], [9, 8], [7], [6], [16], [14], [22, 8], [20], [6]] ∧
    (compute_lr0_kernels_wide 1 [0] scenario_e_after 20 scenario_e_indexed).map
        (fun kernels => kernels.map fun kernel => kernel.1.pairs)
      = some [[5], [11, 10], [9, 8], [7], [6], [16], [14], [22, 8], [20]] := by
  refine ⟨by decide, by decide, by decide, by decide⟩


/-! ## The work-list loop where a pointer is wider than an `int` -/

/-- The rows of a pairs table, taken with what lies behind them, are the rows
of the table. -/
theorem enum_rows_fst (f : Nat → List Int) (table : List (List Int)) (n : Nat) :
    ((table.enumFrom n).map fun (row : Nat × List Int) => (row.2, f row.1)).map Prod.fst
      = table := by
  induction table generalizing n with
  | nil => rfl
  | cons row rest ih =>
    simp only [List.enumFrom_cons, List.map_cons]
    rw [ih]

/-- Where a pointer is as wide as an `int`, the search with
`kernel_matches_wide` is the search of `intern_kernel`. -/
theorem intern_kernel_search_wide_one (pairs after_pairs : List Int)
    (kernels : List (Kernel × List Int)) (i : Nat) :
    intern_kernel_search_wide 1 pairs after_pairs kernels i
      = intern_kernel_search pairs (kernels.map Prod.fst) i := by
  induction kernels generalizing i with
  | nil => rfl
  | cons k rest ih =>
    simp only [List.map_cons]
    unfold intern_kernel_search_wide intern_kernel_search
    rw [kernel_matches_wide_one, ih]

/-- Where a pointer is as wide as an `int`, `intern_kernel_wide` is
`intern_kernel`. -/
theorem intern_kernel_wide_one (self : Grammar) (kernels : List (Kernel × List Int))
    (hk : kernels.map Prod.fst = self.kernels) (pairs after_pairs : List Int) :
    (intern_kernel self pairs).1
      = { self with
          kernels := (intern_kernel_wide 1 kernels pairs after_pairs).1.map Prod.fst } ∧
    (intern_kernel self pairs).2 = (intern_kernel_wide 1 kernels pairs after_pairs).2 := by
  unfold intern_kernel intern_kernel_wide
  by_cases hlen : pairs.length = 0
  · rw [if_pos hlen, if_pos hlen]
    refine ⟨?_, rfl⟩
    show self = { self with kernels := kernels.map Prod.fst }
    rw [hk]
  · rw [if_neg hlen, if_neg hlen, intern_kernel_search_wide_one, hk]
    cases intern_kernel_search pairs self.kernels 0 with
    | some r =>
      refine ⟨?_, rfl⟩
      show self = { self with kernels := kernels.map Prod.fst }
      rw [hk]
    | none =>
      refine ⟨?_, ?_⟩
      · show { self with kernels := self.kernels ++ [kernel_alloc pairs] }
          = { self with kernels := (kernels ++ [(kernel_alloc pairs, after_pairs)]).map Prod.fst }
        rw [List.map_append, hk]
        rfl
      · show (self.kernel_count : Int) = (kernels.length : Int)
        unfold Grammar.kernel_count
        rw [← hk, List.length_map]

/-- Where a pointer is as wide as an `int`, `intern_pairs_table_wide` is
`intern_pairs_table`. -/
theorem intern_pairs_table_wide_one (rows : List (List Int × List Int)) :
    ∀ (self : Grammar) (kernels : List (Kernel × List Int)),
      kernels.map Prod.fst = self.kernels →
      (intern_pairs_table self (rows.map Prod.fst)).1
        = { self with
            kernels := (intern_pairs_table_wide 1 kernels rows).1.map Prod.fst } ∧
      (intern_pairs_table self (rows.map Prod.fst)).2
        = (intern_pairs_table_wide 1 kernels rows).2 := by
  induction rows with
  | nil =>
    intro self kernels hk
    refine ⟨?_, rfl⟩
    show self = { self with kernels := kernels.map Prod.fst }
    rw [hk]
  | cons row rest ih =>
    intro self kernels hk
    obtain ⟨h1, h2⟩ := intern_kernel_wide_one self kernels hk row.1 row.2
    have hk2 : (intern_kernel_wide 1 kernels row.1 row.2).1.map Prod.fst
        = (intern_kernel self row.1).1.kernels := by
      rw [h1]
    obtain ⟨h3, h4⟩ := ih (intern_kernel self row.1).1
      (intern_kernel_wide 1 kernels row.1 row.2).1 hk2
    simp only [List.map_cons, intern_pairs_table, intern_pairs_table_wide]
    refine ⟨?_, by rw [h2, h4]⟩
    rw [h3, h1]

/-- Where a pointer is as wide as an `int`, the work-list loop with
`intern_kernel_wide` is the work-list loop of `compute_lr0_kernels`. -/
theorem compute_lr0_kernels_loop_wide_one (after_row : Nat → Nat → List Int) (self : Grammar)
    (fuel : Nat) :
    ∀ (kernels : List (Kernel × List Int)) (i : Nat),
      (compute_lr0_kernels_loop fuel { self with kernels := kernels.map Prod.fst } i).map
          Grammar.kernels
        = (compute_lr0_kernels_loop_wide 1 after_row self fuel kernels i).map
          (fun table => table.map Prod.fst) := by
  induction fuel with
  | zero =>
    intro kernels i
    rfl
  | succ fuel ih =>
    intro kernels i
    rw [compute_lr0_kernels_loop, compute_lr0_kernels_loop_wide]
    simp only [List.getElem?_map]
    cases hk : kernels[i]? with
    | none => rfl
    | some kernel =>
      simp only [Option.map_some']
      unfold compute_lr0_kernels_step compute_lr0_kernels_step_wide
      have hcp : compute_pairs { self with kernels := kernels.map Prod.fst } kernel.1
          (List.replicate
            (grammar_get_component_count { self with kernels := kernels.map Prod.fst }) [])
          = compute_pairs self kernel.1
            (List.replicate (grammar_get_component_count self) []) := rfl
      rw [hcp]
      cases compute_pairs self kernel.1
          (List.replicate (grammar_get_component_count self) []) with
      | none => rfl
      | some table =>
        simp only [Option.map_some', Option.some_bind]
        obtain ⟨h1, h2⟩ := intern_pairs_table_wide_one
          (table.enum.map fun (row : Nat × List Int) => (row.2, after_row i row.1))
          { self with kernels := kernels.map Prod.fst } kernels rfl
        rw [List.enum, enum_rows_fst] at h1 h2
        rw [h1, h2]
        simp only
        have hset : ((intern_pairs_table_wide 1 kernels
              (List.map (fun (row : Nat × List Int) => (row.2, after_row i row.1))
                (List.enumFrom 0 table))).1.map Prod.fst).set i
              { pairs := kernel.1.pairs,
                goto_table := some (intern_pairs_table_wide 1 kernels
                  (List.map (fun (row : Nat × List Int) => (row.2, after_row i row.1))
                    (List.enumFrom 0 table))).2 }
            = ((intern_pairs_table_wide 1 kernels
              (List.map (fun (row : Nat × List Int) => (row.2, after_row i row.1))
                (List.enumFrom 0 table))).1.set i
              ({ pairs := kernel.1.pairs,
                 goto_table := some (intern_pairs_table_wide 1 kernels
                  (List.map (fun (row : Nat × List Int) => (row.2, after_row i row.1))
                    (List.enumFrom 0 table))).2 }, kernel.2)).map Prod.fst := by
          rw [List.map_set]
        rw [hset]
        exact ih _ (i + 1)

/-- Where a pointer is as wide as an `int`, `compute_lr0_kernels_wide` builds
the kernels of `compute_lr0_kernels`, whatever lies behind the arrays. -/
theorem compute_lr0_kernels_wide_one (after_start : List Int)
    (after_row : Nat → Nat → List Int) (fuel : Nat) (self : Grammar)
    (hk : self.kernels = []) :
    (compute_lr0_kernels fuel self).map Grammar.kernels
      = (compute_lr0_kernels_wide 1 after_start after_row fuel self).map
        (fun table => table.map Prod.fst) := by
  unfold compute_lr0_kernels compute_lr0_kernels_wide
  obtain ⟨h1, _⟩ := intern_kernel_wide_one self [] (by rw [hk]; rfl) [encode self 0 0] after_start
  rw [h1]
  exact compute_lr0_kernels_loop_wide_one after_row self fuel _ 0

end Tpc
